import Mathlib

/-!
# Verification of the `tb` tree-browser display engine

A shallow embedding of the core of the `tb` interactive tree browser
(`src/tb/src/format.rs`, `src/tb/src/display/{node,pos,tree}.rs`), together
with proofs and refutations of the specification claims about it.

Conventions used throughout:
* Rust `String`s are modelled as `List Char`; byte offsets are computed with
  an explicit UTF-8 byte-size function, matching Rust's `len()`/`len_utf8()`.
* Rust `usize` subtraction never underflows on the paths exercised here, so it
  is modelled as truncated `Nat` subtraction.
* Every `panic!`/`assert!`/`expect` reachable in the modelled code is modelled
  by returning `none` from an `Option`-valued function.
* `BTreeMap` is modelled as a list of key-value pairs kept sorted by key, with
  insert-or-replace semantics.
* External collaborators that are not part of the repository (the `regex`
  crate, the `unicode_width` crate) are modelled from the spec, or abstracted
  as parameters, as marked in their doc comments.
-/

namespace Tb

/-- Render classes, from `interface::Render` (Debug, Search, Yank). -/
inductive Render where
  | debug
  | search
  | yank
deriving DecidableEq, Repr

/-- A `BitFlags<Render>` value: one flag per render class. -/
structure RenderMask where
  debug : Bool
  search : Bool
  yank : Bool
deriving DecidableEq, Repr

/-- `BitFlags::contains` specialised to the three render flags. -/
def RenderMask.has (m : RenderMask) : Render → Bool
  | .debug => m.debug
  | .search => m.search
  | .yank => m.yank

/-- The format tree `FmtCmd` from `src/tb/src/format.rs`. -/
inductive FmtCmd where
  | literal : List Char → FmtCmd
  | container : List FmtCmd → FmtCmd
  | color : Nat → FmtCmd → FmtCmd
  | rawColor : Nat → FmtCmd → FmtCmd
  | noBreak : FmtCmd → FmtCmd
  | exclude : RenderMask → FmtCmd → FmtCmd
deriving Repr

/-- A compiled regex is abstracted as its matching predicate on strings
(`Regex::is_match`); the `regex` crate is an external collaborator. -/
def Matcher : Type := List Char → Bool

mutual

/-- `FmtCmd::contains`: search a value without preformatting it. -/
def FmtCmd.contains (query : Matcher) : FmtCmd → Bool
  | .literal value => query value
  | .container children => FmtCmd.containsList query children
  | .color _ child => FmtCmd.contains query child
  | .rawColor _ child => FmtCmd.contains query child
  | .noBreak child => FmtCmd.contains query child
  | .exclude r child => !r.has .search && FmtCmd.contains query child

/-- `children.iter().any(|x| x.contains(query))` from the Container arm. -/
def FmtCmd.containsList (query : Matcher) : List FmtCmd → Bool
  | [] => false
  | c :: cs => FmtCmd.contains query c || FmtCmd.containsList query cs

end

/-- `slice::join`: interpose `sep` between the rendered children. -/
def joinSep (sep : List Char) : List (List Char) → List Char
  | [] => []
  | [x] => x
  | x :: xs => x ++ sep ++ joinSep sep xs

mutual

/-- `FmtCmd::render`: flatten to a string for a render class. -/
def FmtCmd.render (kind : Render) (sep : List Char) : FmtCmd → List Char
  | .literal value => value
  | .container children => joinSep sep (FmtCmd.renderList kind sep children)
  | .color _ child => FmtCmd.render kind sep child
  | .rawColor _ child => FmtCmd.render kind sep child
  | .noBreak child => FmtCmd.render kind sep child
  | .exclude r child =>
      if r.has kind then [] else FmtCmd.render kind sep child

/-- The mapped renderings of a Container's children. -/
def FmtCmd.renderList (kind : Render) (sep : List Char) : List FmtCmd → List (List Char)
  | [] => []
  | c :: cs => FmtCmd.render kind sep c :: FmtCmd.renderList kind sep cs

end

mutual

/-- The literals of a format tree that contribute to search (i.e. that are not
below an `Exclude` whose mask contains `Search`), in document order.  This is
the specification-side characterisation used to settle the `contains` claim. -/
def FmtCmd.searchLits : FmtCmd → List (List Char)
  | .literal value => [value]
  | .container children => FmtCmd.searchLitsList children
  | .color _ child => FmtCmd.searchLits child
  | .rawColor _ child => FmtCmd.searchLits child
  | .noBreak child => FmtCmd.searchLits child
  | .exclude r child => if r.has .search then [] else FmtCmd.searchLits child

/-- `searchLits` over a list of children. -/
def FmtCmd.searchLitsList : List FmtCmd → List (List Char)
  | [] => []
  | c :: cs => FmtCmd.searchLits c ++ FmtCmd.searchLitsList cs

end

/-! ## The preformatter (`src/tb/src/format.rs`) -/

/-- Drawing operations, from `curses::Output`. -/
inductive Output where
  | str : List Char → Output
  | fg : Nat → Output
  | bg : Nat → Output
  | fill : Char → Output
deriving DecidableEq, Repr

/-- `TABWIDTH` from `format.rs`. -/
def TABWIDTH : Nat := 4

/-- UTF-8 byte size of a character (Rust `char::len_utf8`). -/
def charBytes (c : Char) : Nat :=
  if c.toNat < 0x80 then 1
  else if c.toNat < 0x800 then 2
  else if c.toNat < 0x10000 then 3
  else 4

/-- UTF-8 byte length of a string (Rust `str::len`). -/
def strBytes (s : List Char) : Nat := (s.map charBytes).sum

/-- Modelled from the spec: the display width of a character per the external
`unicode_width` crate ("a standard Unicode East-Asian-Width +
control-character table"); the code uses `width(c).unwrap_or(0)`, so control
characters count 0, wide (East-Asian) characters count 2, everything else 1.
Only a representative set of wide ranges is included; all theorems depend
only on widths lying in `{0, 1, 2}`. -/
def charWidth (c : Char) : Nat :=
  if c.toNat < 0x20 ∨ c.toNat = 0x7F then 0
  else if (0x1100 ≤ c.toNat ∧ c.toNat ≤ 0x115F) ∨
      (0x2E80 ≤ c.toNat ∧ c.toNat ≤ 0x9FFF) ∨
      (0xAC00 ≤ c.toNat ∧ c.toNat ≤ 0xD7A3) ∨
      (0xFF00 ≤ c.toNat ∧ c.toNat ≤ 0xFF60) then 2
  else 1

theorem charWidth_le_two (c : Char) : charWidth c ≤ 2 := by
  unfold charWidth
  split
  · omega
  · split <;> omega

/-- The layout output (`Preformatted`): the column budget, the screen lines
(lists of drawing operations), the searchable raw chunks, and the sorted
raw-to-screen `mapping` (the `BTreeMap`, kept as a key-sorted list). -/
structure Preformatted where
  width : Nat
  content : List (List Output)
  raw : List (List Char)
  mapping : List ((Nat × Nat) × (Nat × Nat × Nat))
deriving DecidableEq, Repr

/-- `Preformatted::new`. -/
def Preformatted.new (w : Nat) : Preformatted :=
  { width := w, content := [], raw := [[]], mapping := [] }

/-- Strict lexicographic order on mapping keys (chunk index, byte offset). -/
def keyLt (a b : Nat × Nat) : Prop :=
  a.1 < b.1 ∨ (a.1 = b.1 ∧ a.2 < b.2)

instance (a b : Nat × Nat) : Decidable (keyLt a b) := by
  unfold keyLt; infer_instance

/-- Non-strict lexicographic order on mapping keys. -/
def keyLe (a b : Nat × Nat) : Prop :=
  a.1 < b.1 ∨ (a.1 = b.1 ∧ a.2 ≤ b.2)

instance (a b : Nat × Nat) : Decidable (keyLe a b) := by
  unfold keyLe; infer_instance

/-- Non-strict lexicographic order on mapping values
(line, segment, byte offset). -/
def valLe (a b : Nat × Nat × Nat) : Prop :=
  a.1 < b.1 ∨ (a.1 = b.1 ∧ (a.2.1 < b.2.1 ∨ (a.2.1 = b.2.1 ∧ a.2.2 ≤ b.2.2)))

instance (a b : Nat × Nat × Nat) : Decidable (valLe a b) := by
  unfold valLe; infer_instance

/-- `BTreeMap::insert` on the sorted pair list: insert or replace by key. -/
def mapInsert : List ((Nat × Nat) × (Nat × Nat × Nat)) → Nat × Nat →
    Nat × Nat × Nat → List ((Nat × Nat) × (Nat × Nat × Nat))
  | [], k, v => [(k, v)]
  | (k', v') :: rest, k, v =>
      if keyLt k k' then (k, v) :: (k', v') :: rest
      else if k = k' then (k, v) :: rest
      else (k', v') :: mapInsert rest k v

/-- The `addchar` closure: append a character to the trailing `Str` item, or
start a new `Str` item. -/
def addchar (target : List Output) (c : Char) : List Output :=
  match target.getLast? with
  | some (Output.str s) => target.dropLast ++ [Output.str (s ++ [c])]
  | _ => target ++ [Output.str [c]]

/-- The `append` closure: merge the first new line into the target's last
line, then add the remaining lines. -/
def appendContent (target content : List (List Output)) : List (List Output) :=
  match content with
  | [] => target
  | c :: cs =>
      match target with
      | [] => c :: cs
      | t => t.dropLast ++ [t.getLastD [] ++ c] ++ cs

/-- The `strappend` closure: same as `appendContent` on raw chunks. -/
def strappend (target content : List (List Char)) : List (List Char) :=
  match content with
  | [] => target
  | c :: cs =>
      match target with
      | [] => c :: cs
      | t => t.dropLast ++ [t.getLastD [] ++ c] ++ cs

/-- `output.raw.last_mut().push(c)`; the raw list is never empty (`Pre.new`
starts it with one empty chunk), so the `[]` case is unreachable (Rust would
panic there). -/
def pushLastChar (raw : List (List Char)) (c : Char) : List (List Char) :=
  match raw with
  | [] => []
  | r => r.dropLast ++ [r.getLastD [] ++ [c]]

/-- `output.content.last().map(|x| x.len()).unwrap_or(0)`. -/
def lastLen (content : List (List Output)) : Nat := (content.getLastD []).length

/-- The current last raw chunk. -/
def lastRaw (raw : List (List Char)) : List Char := raw.getLastD []

/-- The mutable state of the Literal arm's character loop: the output under
construction, the working line `cur`, the column counter `cnt`, and the
`need_mapping` flag. -/
structure LitSt where
  out : Preformatted
  cur : List Output
  cnt : Nat
  need_mapping : Bool
deriving DecidableEq, Repr

/-- The `newline` closure of the Literal arm. -/
def litNewline (color : Nat) (st : LitSt) : LitSt :=
  { out := { st.out with content := appendContent st.out.content [st.cur, []] },
    cur := [Output.fg color], cnt := 0, need_mapping := true }

/-- The byte offset within the current segment recorded by `add_mapping`
(`s.len() - min(charlen, s.len())` on the trailing `Str`, else 0). -/
def amIdx (st : LitSt) (charlen : Nat) : Nat :=
  match st.cur.getLast? with
  | some (Output.str s) => strBytes s - min charlen (strBytes s)
  | _ => 0

/-- The raw-side key recorded by `add_mapping`. -/
def amKey (st : LitSt) (offset : Nat) : Nat × Nat :=
  (st.out.raw.length - 1, strBytes (lastRaw st.out.raw) - offset)

/-- The screen-side value recorded by `add_mapping`. -/
def amVal (st : LitSt) (charlen : Nat) : Nat × Nat × Nat :=
  (st.out.content.length - 1,
    lastLen st.out.content + st.cur.length - 1, amIdx st charlen)

/-- The `add_mapping` closure of the Literal arm. -/
def addMapping (st : LitSt) (charlen offset : Nat) : LitSt :=
  { st with out := { st.out with
      mapping := mapInsert st.out.mapping (amKey st offset)
        (amVal st charlen) } }

/-- The emission step of the `'\t'` arm (after any break): append an
`efftabw`-wide run of spaces and advance the column counter by the full
`TABWIDTH`. -/
def tabFinish (stA : LitSt) : LitSt :=
  { stA with
    cur := stA.cur ++ [Output.str (List.replicate
      (if stA.out.width = 0 ∨ TABWIDTH < stA.out.width then TABWIDTH
        else stA.out.width) ' ')],
    cnt := stA.cnt + TABWIDTH, need_mapping := true }

/-- The `'\t'` arm of the Literal loop: break first if the tab would reach
the width, then emit the spaces. -/
def litTab (color : Nat) (st : LitSt) : LitSt :=
  tabFinish (if 0 < st.out.width ∧ st.out.width ≤ st.cnt + TABWIDTH
    then litNewline color st else st)

/-- The emission step of the default arm (after any break). -/
def otherFinish (stA : LitSt) (c : Char) : LitSt :=
  { stA with cur := addchar stA.cur c, cnt := stA.cnt + charWidth c }

/-- The default arm of the Literal loop: break first if emitting the
character would exceed the width, then append it. -/
def litOther (color : Nat) (st : LitSt) (c : Char) : LitSt :=
  otherFinish (if 0 < st.out.width ∧ st.out.width < st.cnt + charWidth c
    then litNewline color st else st) c

/-- The layout half of one iteration of the Literal arm's character loop
(the `match c` in the Rust code, before the `if record` block). -/
def litLayout (color : Nat) (st : LitSt) (c : Char) : LitSt :=
  if c = '\n' then
    litNewline color { st with cur := addchar st.cur ' ' }
  else if c = '\t' then
    litTab color st
  else
    litOther color st c

/-- The mapping-recording part of the `if record` block: when a mapping
entry is still needed and the column is positive, record it (two entries for
a tab) and clear the flag. -/
def litRecordMap (c : Char) (st2 : LitSt) : LitSt :=
  if st2.need_mapping ∧ 0 < st2.cnt then
    { (if c = '\t' then addMapping (addMapping st2 TABWIDTH 1) 0 0
        else addMapping st2 (charBytes c) (charBytes c)) with
      need_mapping := false }
  else st2

/-- The `if record` block of the Literal loop: push the character onto the
current raw chunk and record mapping entries as needed. -/
def litRecord (record : Bool) (c : Char) (st1 : LitSt) : LitSt :=
  if record then
    litRecordMap c
      { st1 with out := { st1.out with raw := pushLastChar st1.out.raw c } }
  else st1

/-- One iteration of the Literal arm's `for c in value.chars()` loop: the
layout half followed by the `if record` block (raw push and mapping
recording). -/
def litChar (color : Nat) (record : Bool) (st : LitSt) (c : Char) : LitSt :=
  litRecord record c (litLayout color st c)

/-- The key shift used when merging a NoBreak sub-layout's mapping: chunk
indices are offset by the current chunk index, and offsets within the sub's
first chunk by the current chunk's byte length. -/
def nbKey (rawstart : Nat × Nat) (k : Nat × Nat) : Nat × Nat :=
  (k.1 + rawstart.1, if k.1 = 0 then k.2 + rawstart.2 else k.2)

/-- The value shift used when merging a NoBreak sub-layout's mapping: line
indices are offset by the current line, segment indices on the sub's first
line by the current line's segment count, and the byte offset is reset
to 0. -/
def nbVal (valstart : Nat × Nat × Nat) (v : Nat × Nat × Nat) :
    Nat × Nat × Nat :=
  (v.1 + valstart.1, if v.1 = 0 then v.2.1 + valstart.2.1 else v.2.1, 0)

/-- The NoBreak mapping merge: insert every (shifted) sub entry into the
current mapping, in ascending key order. -/
def nbMerge (rawstart : Nat × Nat) (valstart : Nat × Nat × Nat)
    (subm acc : List ((Nat × Nat) × (Nat × Nat × Nat))) :
    List ((Nat × Nat) × (Nat × Nat × Nat)) :=
  subm.foldl (fun m kv => mapInsert m (nbKey rawstart kv.1)
    (nbVal valstart kv.2)) acc

/-- The `valstart` computed in the NoBreak arm: the line/segment position at
which the sub-layout's single line will be glued. -/
def nbValstart (output : Preformatted) : Nat × Nat × Nat :=
  match output.content.getLast? with
  | none => (0, 0, 0)
  | some outlast => (output.content.length - 1, outlast.length, 0)

mutual

/-- `FmtCmd::internal_format`.  Returns `none` where the Rust code panics:
the `assert!(sublen < output.width)` in the NoBreak arm and the
`panic!("Breaks not allowed in no-break environment")` for a multi-line
NoBreak child. -/
def internal_format (output : Preformatted) (content : FmtCmd)
    (startcol color color_offset : Nat) (record : Bool) :
    Option (Preformatted × Nat) :=
  match content with
  | .literal value =>
      let fin := value.foldl (litChar color record)
        { out := output, cur := [Output.fg color], cnt := startcol,
          need_mapping := true }
      some ({ fin.out with content := appendContent fin.out.content [fin.cur] },
        fin.cnt)
  | .container children =>
      internal_format_list output children startcol color color_offset record
  | .color newcolor child =>
      internal_format output child startcol (newcolor + color_offset)
        color_offset record
  | .rawColor newcolor child =>
      internal_format output child startcol newcolor color_offset record
  | .noBreak child =>
      match internal_format (Preformatted.new 0) child 0 color color_offset
        record with
      | none => none
      | some (sub, sublen) =>
          if sub.content.length = 0 then some (output, startcol)
          else if sub.content.length = 1 then
            let rawstart : Nat × Nat :=
              (output.raw.length - 1, strBytes (lastRaw output.raw))
            let valstart : Nat × Nat × Nat := nbValstart output
            let mp := nbMerge rawstart valstart sub.mapping output.mapping
            let raw1 := strappend output.raw sub.raw
            let out1 := { output with mapping := mp, raw := raw1 }
            if output.width = 0 ∨ sublen ≤ output.width - startcol then
              some ({ out1 with content := appendContent out1.content sub.content }, startcol + sublen)
            else if sublen < output.width then
              some ({ out1 with content := out1.content ++ sub.content }, sublen)
            else none
          else none
  | .exclude render child =>
      let out1 :=
        if render.has .search ∧ output.raw.getLast? ≠ some ([] : List Char)
        then { output with raw := output.raw ++ [[]] }
        else output
      internal_format out1 child startcol color color_offset
        (record && !render.has .search)

/-- The Container arm: recurse sequentially, threading the column counter. -/
def internal_format_list (output : Preformatted) (children : List FmtCmd)
    (curcol color color_offset : Nat) (record : Bool) :
    Option (Preformatted × Nat) :=
  match children with
  | [] => some (output, curcol)
  | c :: cs =>
      match internal_format output c curcol color color_offset record with
      | none => none
      | some (out', col') =>
          internal_format_list out' cs col' color color_offset record

end

/-- The output normalisation at the end of `FmtCmd::format`: drop a trailing
empty raw chunk; if no content lines were produced, add one empty line. -/
def formatNormalize (ret : Preformatted) : Preformatted :=
  let ret1 :=
    if ret.raw.getLast? = some ([] : List Char)
    then { ret with raw := ret.raw.dropLast } else ret
  if ret1.content.length = 0
  then { ret1 with content := ret1.content ++ [[]] } else ret1

/-- `FmtCmd::format`: lay out at a width and color offset, then normalise. -/
def FmtCmd.format (f : FmtCmd) (width color_offset : Nat) :
    Option Preformatted :=
  (internal_format (Preformatted.new width) f 0 0 color_offset true).map
    fun r => formatNormalize r.1

/-- Display width of one drawing operation. -/
def outputWidth : Output → Nat
  | .str s => (s.map charWidth).sum
  | _ => 0

/-- Display width of one content line. -/
def lineWidth (l : List Output) : Nat := (l.map outputWidth).sum

/-- The last line of the content under construction (empty if none). -/
def lastLine (content : List (List Output)) : List Output := content.getLastD []

/-! ## Path comparison (`Node::is_before`, `src/tb/src/display/node.rs`) -/

/-- `Node::is_before`, acting on the two nodes' value paths.  The Rust loop
walks index `i` upward while the entries agree; it returns `false` as soon as
`path2` is exhausted, `true` as soon as only `path1` is exhausted, and
otherwise decides by the first differing entry. -/
def is_before : List Nat → List Nat → Bool
  | _, [] => false
  | [], _ :: _ => true
  | a :: as_, b :: bs =>
      if a > b then false
      else if a < b then true
      else is_before as_ bs

/-! ## Search-query compilation (`Tree::query_from_str`) -/

/-- `Tree::query_from_str`, abstracted over the external `regex` crate:
`compile` models `Regex::new` (`none` = compile error) and `escape` models
`regex::escape`.  The outer `Option` models the `expect` panic: `none` means
the escaped string also failed to compile.  The inner `Option` is the
function's return value (`None` for the empty query). -/
def query_from_str {M : Type} (compile : List Char → Option M)
    (escape : List Char → List Char) (query : List Char) : Option (Option M) :=
  if query = [] then some none
  else
    match compile query with
    | some r => some (some r)
    | none =>
        match compile (escape query) with
        | some r => some (some r)
        | none => none

/-! ## Theorems about `contains` / `render` (claim C3) -/

mutual

theorem contains_eq_any_searchLits (q : Matcher) :
    ∀ f : FmtCmd, FmtCmd.contains q f = (FmtCmd.searchLits f).any q
  | .literal v => by simp [FmtCmd.contains, FmtCmd.searchLits]
  | .container cs => by
      simp only [FmtCmd.contains, FmtCmd.searchLits]
      exact containsList_eq_any_searchLits q cs
  | .color _ c => by
      simp only [FmtCmd.contains, FmtCmd.searchLits]
      exact contains_eq_any_searchLits q c
  | .rawColor _ c => by
      simp only [FmtCmd.contains, FmtCmd.searchLits]
      exact contains_eq_any_searchLits q c
  | .noBreak c => by
      simp only [FmtCmd.contains, FmtCmd.searchLits]
      exact contains_eq_any_searchLits q c
  | .exclude r c => by
      simp only [FmtCmd.contains, FmtCmd.searchLits]
      cases hr : r.has .search <;>
        simp [hr, contains_eq_any_searchLits q c]

theorem containsList_eq_any_searchLits (q : Matcher) :
    ∀ cs : List FmtCmd, FmtCmd.containsList q cs = (FmtCmd.searchLitsList cs).any q
  | [] => by simp [FmtCmd.containsList, FmtCmd.searchLitsList]
  | c :: cs => by
      simp only [FmtCmd.containsList, FmtCmd.searchLitsList, List.any_append]
      rw [contains_eq_any_searchLits q c, containsList_eq_any_searchLits q cs]

end

/-- The regex `"ab"` as a matcher: a match is an occurrence of the pattern as
a contiguous substring (which is what `Regex::is_match` tests for a pattern
without metacharacters). -/
def subMatch (pat : List Char) : Matcher := fun s => decide (pat <:+: s)

/-- A format tree on which `contains` and the rendered search view disagree:
the regex `"ab"` matches the concatenated rendering of the two literals but
no single literal. -/
def c3Input : FmtCmd := .container [.literal ['a'], .literal ['b']]

/-- C3 counterexample: `contains(regex) == regex.matches(render(Search, ""))`
fails for the regex `"ab"` on `Container [Literal "a", Literal "b"]`: the
rendering is `"ab"` and matches, but `contains` short-circuits through
`Container` testing each child separately and returns false. -/
theorem c3_counterexample :
    FmtCmd.contains (subMatch ['a', 'b']) c3Input ≠
      subMatch ['a', 'b'] (FmtCmd.render .search [] c3Input) := by
  have h1 : FmtCmd.contains (subMatch ['a', 'b']) c3Input = false := by
    simp only [c3Input, FmtCmd.contains, FmtCmd.containsList, subMatch]
    decide
  have h2 : subMatch ['a', 'b'] (FmtCmd.render .search [] c3Input) = true := by
    simp only [c3Input, FmtCmd.render, FmtCmd.renderList, joinSep, subMatch]
    decide
  rw [h1, h2]
  exact Bool.false_ne_true

/-- C3 (amended): `contains(regex)` is true iff the regex matches one of the
literals of the tree that contribute to search (those not inside a
Search-excluded subtree); it does not in general agree with a match on the
concatenated rendering `render(Search, "")`. -/
theorem contains_iff_some_search_literal_matches (q : Matcher) (f : FmtCmd) :
    FmtCmd.contains q f = true ↔ ∃ v ∈ FmtCmd.searchLits f, q v = true := by
  rw [contains_eq_any_searchLits]
  simp [List.any_eq_true]

/-! ## Theorems about `is_before` (claim C5) -/

/-- Depth-first document order on path vectors, stated from the spec's words:
either the first path is a proper ancestor path (a strict prefix) of the
second, or the order is decided by the first differing child index. -/
def docBefore (p q : List Nat) : Prop :=
  (p <+: q ∧ p ≠ q) ∨
    ∃ (r : List Nat) (i j : Nat) (p' q' : List Nat),
      p = r ++ i :: p' ∧ q = r ++ j :: q' ∧ i < j

theorem is_before_nil_right : ∀ a : List Nat, is_before a [] = false
  | [] => rfl
  | _ :: _ => rfl

theorem is_before_irrefl : ∀ a : List Nat, is_before a a = false
  | [] => rfl
  | x :: xs => by simp [is_before, is_before_irrefl xs]

theorem is_before_asymm :
    ∀ a b : List Nat, is_before a b = true → is_before b a = false
  | _, [], h => by rw [is_before_nil_right] at h; cases h
  | [], _ :: _, _ => rfl
  | a :: as_, b :: bs, h => by
      simp only [is_before] at h ⊢
      rcases lt_trichotomy a b with hlt | heq | hgt
      · simp [hlt, not_lt.mpr hlt.le, lt_asymm hlt]
      · subst heq
        simp only [lt_irrefl, if_false, gt_iff_lt] at h ⊢
        exact is_before_asymm as_ bs h
      · simp [gt_iff_lt, hgt] at h

theorem is_before_trans :
    ∀ a b c : List Nat, is_before a b = true → is_before b c = true →
      is_before a c = true
  | _, _, [], _, hbc => by rw [is_before_nil_right] at hbc; cases hbc
  | _, [], _ :: _, hab, _ => by rw [is_before_nil_right] at hab; cases hab
  | [], _ :: _, _ :: _, _, _ => rfl
  | a :: as_, b :: bs, c :: cs, hab, hbc => by
      simp only [is_before, gt_iff_lt] at hab hbc ⊢
      rcases lt_trichotomy a b with h₁ | h₁ | h₁
      · rcases lt_trichotomy b c with h₂ | h₂ | h₂
        · have : a < c := h₁.trans h₂
          simp [this, asymm this]
        · subst h₂; simp [h₁, asymm h₁]
        · simp [h₂, asymm h₂] at hbc
      · subst h₁
        rcases lt_trichotomy a c with h₂ | h₂ | h₂
        · simp [h₂, asymm h₂]
        · subst h₂
          simp only [lt_irrefl, if_false] at hab hbc ⊢
          exact is_before_trans as_ bs cs hab hbc
        · simp [h₂, asymm h₂] at hbc
      · simp [h₁, asymm h₁] at hab

theorem is_before_total :
    ∀ a b : List Nat, a ≠ b → is_before a b = true ∨ is_before b a = true
  | [], [], h => absurd rfl h
  | [], _ :: _, _ => Or.inl rfl
  | _ :: _, [], _ => Or.inr rfl
  | a :: as_, b :: bs, h => by
      simp only [is_before, gt_iff_lt]
      rcases lt_trichotomy a b with h₁ | h₁ | h₁
      · left; simp [h₁, asymm h₁]
      · subst h₁
        have hne : as_ ≠ bs := by intro hh; exact h (by rw [hh])
        simp only [lt_irrefl, if_false]
        exact is_before_total as_ bs hne
      · right; simp [h₁, asymm h₁]

theorem docBefore_cons_iff (x y : Nat) (xs ys : List Nat) :
    docBefore (x :: xs) (y :: ys) ↔ x < y ∨ (x = y ∧ docBefore xs ys) := by
  constructor
  · rintro (⟨hpre, hne⟩ | ⟨r, i, j, p', q', hp, hq, hij⟩)
    · rw [List.cons_prefix_cons] at hpre
      obtain ⟨hxy, hpre⟩ := hpre
      subst hxy
      refine Or.inr ⟨rfl, Or.inl ⟨hpre, ?_⟩⟩
      intro hh; exact hne (by rw [hh])
    · cases r with
      | nil =>
          simp only [List.nil_append, List.cons.injEq] at hp hq
          exact Or.inl (hp.1 ▸ hq.1 ▸ hij)
      | cons z r' =>
          simp only [List.cons_append, List.cons.injEq] at hp hq
          refine Or.inr ⟨hp.1.trans hq.1.symm, Or.inr ?_⟩
          exact ⟨r', i, j, p', q', hp.2, hq.2, hij⟩
  · rintro (hlt | ⟨heq, hd⟩)
    · exact Or.inr ⟨[], x, y, xs, ys, rfl, rfl, hlt⟩
    · subst heq
      rcases hd with ⟨hpre, hne⟩ | ⟨r, i, j, p', q', hp, hq, hij⟩
      · refine Or.inl ⟨List.cons_prefix_cons.mpr ⟨rfl, hpre⟩, ?_⟩
        intro hh
        injection hh with _ hh2
        exact hne hh2
      · exact Or.inr ⟨x :: r, i, j, p', q', by simp [hp], by simp [hq], hij⟩

theorem is_before_iff_docBefore :
    ∀ a b : List Nat, is_before a b = true ↔ docBefore a b
  | [], [] => by
      simp only [is_before, docBefore]
      constructor
      · intro h; cases h
      · rintro (⟨_, hne⟩ | ⟨r, i, j, p', q', hp, _, _⟩)
        · exact absurd rfl hne
        · cases r <;> cases hp
  | [], b :: bs => by
      constructor
      · intro _; exact Or.inl ⟨by simp, by simp⟩
      · intro _; rfl
  | a :: as_, [] => by
      rw [is_before_nil_right]
      constructor
      · intro h; cases h
      · rintro (⟨hpre, _⟩ | ⟨r, i, j, p', q', _, hq, _⟩)
        · have := List.prefix_nil.mp hpre; cases this
        · cases r <;> cases hq
  | a :: as_, b :: bs => by
      rw [docBefore_cons_iff]
      rcases lt_trichotomy a b with h₁ | h₁ | h₁
      · simp [is_before, h₁, lt_asymm h₁]
      · subst h₁
        simp [is_before, lt_irrefl, is_before_iff_docBefore as_ bs]
      · simp [is_before, h₁, lt_asymm h₁, (ne_of_gt h₁ : a ≠ b)]

/-- C5: `is_before` is a strict total order on nodes with distinct paths
(irreflexive, asymmetric, transitive, and total on distinct paths), and it
agrees with depth-first document order on the path vectors: an ancestor
(strict path prefix) precedes its descendants, and otherwise order follows
the first differing child index. -/
theorem is_before_strict_total_docorder (a b c : List Nat) :
    is_before a a = false ∧
      (is_before a b = true → is_before b a = false) ∧
      (is_before a b = true → is_before b c = true → is_before a c = true) ∧
      (a ≠ b → is_before a b = true ∨ is_before b a = true) ∧
      (is_before a b = true ↔ docBefore a b) :=
  ⟨is_before_irrefl a, is_before_asymm a b, is_before_trans a b c,
    is_before_total a b, is_before_iff_docBefore a b⟩

/-- Witness for C5 at concrete paths, discharging the conditional parts: the
path `[0]` precedes `[1]`, `[1]` precedes `[1,2]` (its descendant), hence
`[0]` precedes `[1,2]`, and the converse comparison fails. -/
theorem is_before_strict_total_docorder_witness :
    is_before [0] [1, 2] = true ∧ is_before [1, 2] [0] = false := by
  have h := is_before_strict_total_docorder [0] [1] [1, 2]
  have h01 : is_before [0] [1] = true := by decide
  have h112 : is_before [1] [1, 2] = true := by decide
  have h012 := h.2.2.1 h01 h112
  have h' := is_before_strict_total_docorder [0] [1, 2] [1, 2]
  exact ⟨h012, h'.2.1 h012⟩

/-! ## Theorems about `query_from_str` (claim C9) -/

/-- C9: turning a user search string into a query never fails.  Abstracting
the external regex engine as `compile`, with the spec's guarantee that an
escaped string always compiles (`regex::escape` produces a valid literal
pattern), `query_from_str` never panics: it returns `None` exactly on the
empty string and `Some` compiled regex on every other input. -/
theorem query_from_str_total_result {M : Type} (compile : List Char → Option M)
    (escape : List Char → List Char)
    (hesc : ∀ s, (compile (escape s)).isSome = true) (q : List Char) :
    ∃ r : Option M, query_from_str compile escape q = some r ∧
      r.isSome = decide (q ≠ []) := by
  unfold query_from_str
  by_cases hq : q = []
  · subst hq
    exact ⟨none, by simp⟩
  · simp only [hq, if_false]
    cases hc : compile q with
    | some r => exact ⟨some r, rfl, by simp [hq]⟩
    | none =>
        cases hce : compile (escape q) with
        | some r => exact ⟨some r, rfl, by simp [hq]⟩
        | none =>
            have := hesc q
            rw [hce] at this
            cases this

/-- Witness for C9 with a concrete (trivial) regex engine and the query
string `"a"`. -/
theorem query_from_str_total_result_witness :
    ∃ r : Option Unit, query_from_str (fun _ => some ()) id ['a'] = some r ∧
      r.isSome = decide ((['a'] : List Char) ≠ []) :=
  query_from_str_total_result (fun _ => some ()) id (fun _ => rfl) ['a']

/-! ## Width bounds for the preformatter (claims C2 and C4) -/

theorem lastLine_concat (xs : List (List Output)) (y : List Output) :
    lastLine (xs ++ [y]) = y := by
  simp [lastLine, List.getLastD_eq_getLast?, List.getLast?_concat]

theorem lastLine_nil : lastLine [] = [] := rfl

theorem appendContent_single (t : List (List Output)) (a : List Output) :
    appendContent t [a] = t.dropLast ++ [lastLine t ++ a] := by
  cases t with
  | nil => simp [appendContent, lastLine]
  | cons x ts => simp [appendContent, lastLine]

theorem appendContent_pair (t : List (List Output)) (a b : List Output) :
    appendContent t [a, b] = (t.dropLast ++ [lastLine t ++ a]) ++ [b] := by
  cases t with
  | nil => simp [appendContent, lastLine]
  | cons x ts => simp [appendContent, lastLine]

theorem lineWidth_nil : lineWidth [] = 0 := rfl

theorem lineWidth_append (l₁ l₂ : List Output) :
    lineWidth (l₁ ++ l₂) = lineWidth l₁ + lineWidth l₂ := by
  simp [lineWidth]

theorem lineWidth_fg (n : Nat) : lineWidth [Output.fg n] = 0 := rfl

theorem lineWidth_addchar (l : List Output) (c : Char) :
    lineWidth (addchar l c) = lineWidth l + charWidth c := by
  unfold addchar
  cases h : l.getLast? with
  | none =>
      have hl : l = [] := List.getLast?_eq_none_iff.mp h
      subst hl
      simp [lineWidth, outputWidth]
  | some o =>
      have hne : l ≠ [] := by
        intro hl; rw [hl] at h; cases h
      have hdec : l.dropLast ++ [l.getLast hne] = l :=
        List.dropLast_append_getLast hne
      have hlast : l.getLast hne = o := by
        have := List.getLast?_eq_getLast l hne
        rw [h] at this
        exact (Option.some.injEq _ _ ▸ this).symm
      cases o with
      | str s =>
          rw [← hdec, hlast]
          simp [lineWidth_append, lineWidth, outputWidth]
          ring
      | fg n => simp [lineWidth_append, lineWidth, outputWidth]
      | bg n => simp [lineWidth_append, lineWidth, outputWidth]
      | fill ch => simp [lineWidth_append, lineWidth, outputWidth]

theorem lineWidth_tabstr (n : Nat) :
    lineWidth [Output.str (List.replicate n ' ')] = n := by
  have : charWidth ' ' = 1 := by decide
  simp [lineWidth, outputWidth, List.map_replicate, this]

theorem lastLine_append_pair (xs : List (List Output)) (a b : List Output) :
    lastLine (xs ++ [a, b]) = b := by
  have h : xs ++ [a, b] = (xs ++ [a]) ++ [b] := by simp
  rw [h, lastLine_concat]

theorem dropLast_append_pair (xs : List (List Output)) (a b : List Output) :
    (xs ++ [a, b]).dropLast = xs ++ [a] := by
  have h : xs ++ [a, b] = (xs ++ [a]) ++ [b] := by simp
  rw [h, List.dropLast_concat]

theorem mem_dropLast_or_lastLine {x : List Output} {t : List (List Output)}
    (hx : x ∈ t) : x ∈ t.dropLast ∨ x = lastLine t := by
  rcases List.eq_nil_or_concat t with rfl | ⟨ys, y, ht⟩
  · cases hx
  · subst ht
    rw [List.concat_eq_append, List.dropLast_concat, lastLine_concat]
    rw [List.concat_eq_append] at hx
    rcases List.mem_append.mp hx with h | h
    · exact Or.inl h
    · exact Or.inr (List.mem_singleton.mp h)

/-- Unconditional part of the Literal-loop invariant: the width is threaded
unchanged and the width of the line under construction is bounded by the
column counter. -/
def LitInvA (W : Nat) (st : LitSt) : Prop :=
  st.out.width = W ∧
    lineWidth (lastLine st.out.content) + lineWidth st.cur ≤ st.cnt

/-- Conditional part (for layout widths of at least `TABWIDTH`): all committed
lines fit in `W + 1` columns and the column counter stays within `W`. -/
def LitInvB (W : Nat) (st : LitSt) : Prop :=
  LitInvA W st ∧
    (∀ l ∈ st.out.content.dropLast, lineWidth l ≤ W + 1) ∧ st.cnt ≤ W

theorem litNewline_invA {W : Nat} (color : Nat) (st : LitSt)
    (hw : st.out.width = W) : LitInvA W (litNewline color st) := by
  refine ⟨hw, ?_⟩
  have h : appendContent st.out.content [st.cur, []] =
      st.out.content.dropLast ++ [lastLine st.out.content ++ st.cur, []] := by
    rw [appendContent_pair]; simp
  simp only [litNewline, h, lastLine_append_pair]
  simp [lineWidth, outputWidth]

theorem litNewline_invB {W : Nat} (color : Nat) (st : LitSt)
    (hw : st.out.width = W)
    (hdrop : ∀ l ∈ st.out.content.dropLast, lineWidth l ≤ W + 1)
    (hcommit : lineWidth (lastLine st.out.content) + lineWidth st.cur ≤ W + 1) :
    LitInvB W (litNewline color st) := by
  refine ⟨litNewline_invA color st hw, ?_, by simp [litNewline]⟩
  intro l hl
  have h : appendContent st.out.content [st.cur, []] =
      st.out.content.dropLast ++ [lastLine st.out.content ++ st.cur, []] := by
    rw [appendContent_pair]; simp
  simp only [litNewline, h, dropLast_append_pair] at hl
  rcases List.mem_append.mp hl with h' | h'
  · exact hdrop l h'
  · rw [List.mem_singleton.mp h', lineWidth_append]
    exact hcommit

theorem LitInvA_parts {W : Nat} {s t : LitSt} (h : LitInvA W s)
    (hw : t.out.width = s.out.width) (hc : t.out.content = s.out.content)
    (hcur : t.cur = s.cur) (hcnt : t.cnt = s.cnt) : LitInvA W t := by
  unfold LitInvA at h ⊢
  rw [hw, hc, hcur, hcnt]
  exact h

theorem LitInvB_parts {W : Nat} {s t : LitSt} (h : LitInvB W s)
    (hw : t.out.width = s.out.width) (hc : t.out.content = s.out.content)
    (hcur : t.cur = s.cur) (hcnt : t.cnt = s.cnt) : LitInvB W t := by
  unfold LitInvB LitInvA at h ⊢
  rw [hw, hc, hcur, hcnt]
  exact h

theorem efftabw_le (w : Nat) :
    (if w = 0 ∨ TABWIDTH < w then TABWIDTH else w) ≤ TABWIDTH := by
  split
  · exact le_refl _
  · next h =>
      push_neg at h
      simp only [TABWIDTH] at h ⊢
      omega

theorem litTab_invA {W : Nat} (color : Nat) (st : LitSt) (h : LitInvA W st) :
    LitInvA W (litTab color st) := by
  have hA : LitInvA W (if 0 < st.out.width ∧ st.out.width ≤ st.cnt + TABWIDTH
      then litNewline color st else st) := by
    split
    · exact litNewline_invA color st h.1
    · exact h
  set stA := if 0 < st.out.width ∧ st.out.width ≤ st.cnt + TABWIDTH
    then litNewline color st else st with hstA
  obtain ⟨hwA, hlwA⟩ := hA
  refine ⟨hwA, ?_⟩
  show lineWidth (lastLine stA.out.content) +
    lineWidth (stA.cur ++ [Output.str (List.replicate
      (if stA.out.width = 0 ∨ TABWIDTH < stA.out.width then TABWIDTH
        else stA.out.width) ' ')]) ≤ stA.cnt + TABWIDTH
  rw [lineWidth_append, lineWidth_tabstr]
  have hle := efftabw_le stA.out.width
  omega

theorem litOther_invA {W : Nat} (color : Nat) (st : LitSt) (c : Char)
    (h : LitInvA W st) : LitInvA W (litOther color st c) := by
  have hA : LitInvA W (if 0 < st.out.width ∧ st.out.width < st.cnt + charWidth c
      then litNewline color st else st) := by
    split
    · exact litNewline_invA color st h.1
    · exact h
  set stA := if 0 < st.out.width ∧ st.out.width < st.cnt + charWidth c
    then litNewline color st else st with hstA
  obtain ⟨hwA, hlwA⟩ := hA
  refine ⟨hwA, ?_⟩
  show lineWidth (lastLine stA.out.content) + lineWidth (addchar stA.cur c) ≤
    stA.cnt + charWidth c
  rw [lineWidth_addchar]
  omega

theorem litLayout_invA {W : Nat} (color : Nat) (st : LitSt) (c : Char)
    (h : LitInvA W st) : LitInvA W (litLayout color st c) := by
  unfold litLayout
  by_cases hn : c = '\n'
  · rw [if_pos hn]
    exact litNewline_invA color _ h.1
  · rw [if_neg hn]
    by_cases ht : c = '\t'
    · rw [if_pos ht]
      exact litTab_invA color st h
    · rw [if_neg ht]
      exact litOther_invA color st c h

theorem litTab_invB {W : Nat} (color : Nat) (st : LitSt) (h4 : 4 ≤ W)
    (h : LitInvB W st) : LitInvB W (litTab color st) := by
  obtain ⟨⟨hw, hlw⟩, hdrop, hcnt⟩ := h
  unfold litTab
  by_cases hbr : 0 < st.out.width ∧ st.out.width ≤ st.cnt + TABWIDTH
  · rw [if_pos hbr]
    have hB : LitInvB W (litNewline color st) :=
      litNewline_invB color st hw hdrop (by omega)
    obtain ⟨⟨hwA, hlwA⟩, hdropA, hcntA⟩ := hB
    have hcnt0 : (litNewline color st).cnt = 0 := rfl
    refine ⟨⟨hwA, ?_⟩, hdropA, ?_⟩
    · show lineWidth (lastLine (litNewline color st).out.content) +
        lineWidth ((litNewline color st).cur ++ [Output.str (List.replicate
          (if (litNewline color st).out.width = 0 ∨
              TABWIDTH < (litNewline color st).out.width then TABWIDTH
            else (litNewline color st).out.width) ' ')]) ≤
        (litNewline color st).cnt + TABWIDTH
      rw [lineWidth_append, lineWidth_tabstr]
      have hle := efftabw_le (litNewline color st).out.width
      omega
    · show (litNewline color st).cnt + TABWIDTH ≤ W
      rw [hcnt0]
      simp only [TABWIDTH]
      omega
  · rw [if_neg hbr]
    rw [hw] at hbr
    have hWpos : 0 < W := by omega
    have hlt : st.cnt + TABWIDTH < W := by
      rcases not_and_or.mp hbr with h' | h'
      · exact absurd hWpos h'
      · exact not_le.mp h'
    refine ⟨⟨hw, ?_⟩, hdrop, show st.cnt + TABWIDTH ≤ W by omega⟩
    show lineWidth (lastLine st.out.content) +
      lineWidth (st.cur ++ [Output.str (List.replicate
        (if st.out.width = 0 ∨ TABWIDTH < st.out.width then TABWIDTH
          else st.out.width) ' ')]) ≤ st.cnt + TABWIDTH
    rw [lineWidth_append, lineWidth_tabstr]
    have hle := efftabw_le st.out.width
    omega

theorem litOther_invB {W : Nat} (color : Nat) (st : LitSt) (c : Char)
    (h4 : 4 ≤ W) (h : LitInvB W st) : LitInvB W (litOther color st c) := by
  obtain ⟨⟨hw, hlw⟩, hdrop, hcnt⟩ := h
  have hcw : charWidth c ≤ 2 := charWidth_le_two c
  unfold litOther
  by_cases hbr : 0 < st.out.width ∧ st.out.width < st.cnt + charWidth c
  · rw [if_pos hbr]
    have hB : LitInvB W (litNewline color st) :=
      litNewline_invB color st hw hdrop (by omega)
    obtain ⟨⟨hwA, hlwA⟩, hdropA, hcntA⟩ := hB
    have hcnt0 : (litNewline color st).cnt = 0 := rfl
    refine ⟨⟨hwA, ?_⟩, hdropA, ?_⟩
    · show lineWidth (lastLine (litNewline color st).out.content) +
        lineWidth (addchar (litNewline color st).cur c) ≤
        (litNewline color st).cnt + charWidth c
      rw [lineWidth_addchar]
      omega
    · show (litNewline color st).cnt + charWidth c ≤ W
      rw [hcnt0]
      omega
  · rw [if_neg hbr]
    rw [hw] at hbr
    have hWpos : 0 < W := by omega
    have hle : st.cnt + charWidth c ≤ W := by
      rcases not_and_or.mp hbr with h' | h'
      · exact absurd hWpos h'
      · exact not_lt.mp h'
    refine ⟨⟨hw, ?_⟩, hdrop, show st.cnt + charWidth c ≤ W by omega⟩
    show lineWidth (lastLine st.out.content) + lineWidth (addchar st.cur c) ≤
      st.cnt + charWidth c
    rw [lineWidth_addchar]
    omega

theorem litLayout_invB {W : Nat} (color : Nat) (st : LitSt) (c : Char)
    (h4 : 4 ≤ W) (h : LitInvB W st) : LitInvB W (litLayout color st c) := by
  have hsp : charWidth ' ' = 1 := by decide
  unfold litLayout
  by_cases hn : c = '\n'
  · rw [if_pos hn]
    obtain ⟨⟨hw, hlw⟩, hdrop, hcnt⟩ := h
    refine litNewline_invB color _ hw hdrop ?_
    show lineWidth (lastLine st.out.content) +
      lineWidth (addchar st.cur ' ') ≤ W + 1
    rw [lineWidth_addchar, hsp]
    omega
  · rw [if_neg hn]
    by_cases ht : c = '\t'
    · rw [if_pos ht]
      exact litTab_invB color st h4 h
    · rw [if_neg ht]
      exact litOther_invB color st c h4 h

theorem litRecordMap_parts (c : Char) (s : LitSt) :
    (litRecordMap c s).out.width = s.out.width ∧
      (litRecordMap c s).out.content = s.out.content ∧
      (litRecordMap c s).cur = s.cur ∧ (litRecordMap c s).cnt = s.cnt := by
  unfold litRecordMap
  split
  · split <;> exact ⟨rfl, rfl, rfl, rfl⟩
  · exact ⟨rfl, rfl, rfl, rfl⟩

theorem litRecord_parts (rec : Bool) (c : Char) (s : LitSt) :
    (litRecord rec c s).out.width = s.out.width ∧
      (litRecord rec c s).out.content = s.out.content ∧
      (litRecord rec c s).cur = s.cur ∧ (litRecord rec c s).cnt = s.cnt := by
  unfold litRecord
  cases rec with
  | false => exact ⟨rfl, rfl, rfl, rfl⟩
  | true =>
      have h := litRecordMap_parts c
        { s with out := { s.out with raw := pushLastChar s.out.raw c } }
      exact h

theorem litChar_invA {W : Nat} (color : Nat) (rec : Bool) (st : LitSt)
    (c : Char) (h : LitInvA W st) : LitInvA W (litChar color rec st c) := by
  have h1 := litLayout_invA color st c h
  have hp := litRecord_parts rec c (litLayout color st c)
  exact LitInvA_parts h1 hp.1 hp.2.1 hp.2.2.1 hp.2.2.2

theorem litChar_invB {W : Nat} (color : Nat) (rec : Bool) (st : LitSt)
    (c : Char) (h4 : 4 ≤ W) (h : LitInvB W st) :
    LitInvB W (litChar color rec st c) := by
  have h1 := litLayout_invB color st c h4 h
  have hp := litRecord_parts rec c (litLayout color st c)
  exact LitInvB_parts h1 hp.1 hp.2.1 hp.2.2.1 hp.2.2.2

theorem foldl_litChar_invA {W : Nat} (color : Nat) (rec : Bool) :
    ∀ (cs : List Char) (st : LitSt), LitInvA W st →
      LitInvA W (cs.foldl (litChar color rec) st)
  | [], _, h => h
  | c :: cs, st, h =>
      foldl_litChar_invA color rec cs _ (litChar_invA color rec st c h)

theorem foldl_litChar_invB {W : Nat} (color : Nat) (rec : Bool) (h4 : 4 ≤ W) :
    ∀ (cs : List Char) (st : LitSt), LitInvB W st →
      LitInvB W (cs.foldl (litChar color rec) st)
  | [], _, h => h
  | c :: cs, st, h =>
      foldl_litChar_invB color rec h4 cs _ (litChar_invB color rec st c h4 h)

theorem lastLine_singleton (l : List Output) : lastLine [l] = l := rfl

mutual

/-- Width bookkeeping of `internal_format`: the width field is threaded
unchanged; the width of the final partial line is bounded by the returned
column; and for layout widths ≥ `TABWIDTH`, starting from a committed state
within bounds, every committed line has display width at most `width + 1`
and the returned column stays within `width`. -/
theorem internal_format_widths :
    ∀ (f : FmtCmd) (out : Preformatted) (sc col co : Nat) (rec : Bool)
      (out' : Preformatted) (n' : Nat),
      internal_format out f sc col co rec = some (out', n') →
      lineWidth (lastLine out.content) ≤ sc →
      out'.width = out.width ∧
        lineWidth (lastLine out'.content) ≤ n' ∧
        (4 ≤ out.width → sc ≤ out.width →
          (∀ l ∈ out.content.dropLast, lineWidth l ≤ out.width + 1) →
          (∀ l ∈ out'.content.dropLast, lineWidth l ≤ out.width + 1) ∧
            n' ≤ out.width)
  | .literal v, out, sc, col, co, rec, out', n', h, hsc => by
      simp only [internal_format] at h
      rw [Option.some.injEq, Prod.mk.injEq] at h
      obtain ⟨ho, hn⟩ := h
      subst ho
      subst hn
      set fin := v.foldl (litChar col rec)
        { out := out, cur := [Output.fg col], cnt := sc,
          need_mapping := true } with hfin
      have hinit : LitInvA out.width
          { out := out, cur := [Output.fg col], cnt := sc,
            need_mapping := true } := by
        refine ⟨rfl, ?_⟩
        show lineWidth (lastLine out.content) + lineWidth [Output.fg col] ≤ sc
        rw [lineWidth_fg]
        omega
      have hA : LitInvA out.width fin := foldl_litChar_invA col rec v _ hinit
      refine ⟨hA.1, ?_, ?_⟩
      · show lineWidth (lastLine (appendContent fin.out.content [fin.cur])) ≤
          fin.cnt
        rw [appendContent_single, lastLine_concat, lineWidth_append]
        exact hA.2
      · intro h4 hscW hdrop
        have hB : LitInvB out.width fin :=
          foldl_litChar_invB col rec h4 v _ ⟨hinit, hdrop, hscW⟩
        constructor
        · intro l hl
          rw [appendContent_single, List.dropLast_concat] at hl
          exact hB.2.1 l hl
        · exact hB.2.2
  | .container cs, out, sc, col, co, rec, out', n', h, hsc => by
      simp only [internal_format] at h
      exact internal_format_list_widths cs out sc col co rec out' n' h hsc
  | .color nc child, out, sc, col, co, rec, out', n', h, hsc => by
      simp only [internal_format] at h
      exact internal_format_widths child out sc (nc + co) co rec out' n' h hsc
  | .rawColor nc child, out, sc, col, co, rec, out', n', h, hsc => by
      simp only [internal_format] at h
      exact internal_format_widths child out sc nc co rec out' n' h hsc
  | .noBreak child, out, sc, col, co, rec, out', n', h, hsc => by
      simp only [internal_format] at h
      split at h
      · cases h
      · next sub sublen hsub =>
          have hrec := internal_format_widths child (Preformatted.new 0) 0 col
            co rec sub sublen hsub (Nat.le_refl 0)
          obtain ⟨_, hsubLW, _⟩ := hrec
          by_cases h0 : sub.content.length = 0
          · rw [if_pos h0, Option.some.injEq, Prod.mk.injEq] at h
            obtain ⟨ho, hn⟩ := h
            subst ho
            subst hn
            exact ⟨rfl, hsc, fun _ hscW hdrop => ⟨hdrop, hscW⟩⟩
          · rw [if_neg h0] at h
            by_cases h1 : sub.content.length = 1
            · rw [if_pos h1] at h
              obtain ⟨l, hl⟩ := List.length_eq_one.mp h1
              have hLWl : lineWidth l ≤ sublen := by
                rw [hl, lastLine_singleton] at hsubLW
                exact hsubLW
              by_cases hfit : out.width = 0 ∨ sublen ≤ out.width - sc
              · rw [if_pos hfit, Option.some.injEq, Prod.mk.injEq] at h
                obtain ⟨ho, hn⟩ := h
                subst ho
                subst hn
                refine ⟨rfl, ?_, ?_⟩
                · show lineWidth (lastLine (appendContent out.content
                    sub.content)) ≤ sc + sublen
                  rw [hl, appendContent_single, lastLine_concat,
                    lineWidth_append]
                  omega
                · intro h4 hscW hdrop
                  have hfit' : sublen ≤ out.width - sc := by
                    rcases hfit with h' | h'
                    · omega
                    · exact h'
                  constructor
                  · intro x hx
                    rw [hl, appendContent_single, List.dropLast_concat] at hx
                    exact hdrop x hx
                  · omega
              · rw [if_neg hfit] at h
                by_cases hlt : sublen < out.width
                · rw [if_pos hlt, Option.some.injEq, Prod.mk.injEq] at h
                  obtain ⟨ho, hn⟩ := h
                  subst ho
                  subst hn
                  refine ⟨rfl, ?_, ?_⟩
                  · show lineWidth (lastLine (out.content ++ sub.content)) ≤
                      sublen
                    rw [hl, lastLine_concat]
                    exact hLWl
                  · intro h4 hscW hdrop
                    constructor
                    · intro x hx
                      rw [hl, List.dropLast_concat] at hx
                      rcases mem_dropLast_or_lastLine hx with hx' | hx'
                      · exact hdrop x hx'
                      · rw [hx']
                        omega
                    · omega
                · rw [if_neg hlt] at h
                  cases h
            · rw [if_neg h1] at h
              cases h
  | .exclude r child, out, sc, col, co, rec, out', n', h, hsc => by
      simp only [internal_format] at h
      by_cases hx : r.has .search ∧ out.raw.getLast? ≠ some ([] : List Char)
      · rw [if_pos hx] at h
        have hres := internal_format_widths child
          { width := out.width, content := out.content,
            raw := out.raw ++ [[]], mapping := out.mapping }
          sc col co (rec && !r.has Render.search) out' n' h hsc
        exact hres
      · rw [if_neg hx] at h
        exact internal_format_widths child out sc col co
          (rec && !r.has Render.search) out' n' h hsc

theorem internal_format_list_widths :
    ∀ (cs : List FmtCmd) (out : Preformatted) (sc col co : Nat) (rec : Bool)
      (out' : Preformatted) (n' : Nat),
      internal_format_list out cs sc col co rec = some (out', n') →
      lineWidth (lastLine out.content) ≤ sc →
      out'.width = out.width ∧
        lineWidth (lastLine out'.content) ≤ n' ∧
        (4 ≤ out.width → sc ≤ out.width →
          (∀ l ∈ out.content.dropLast, lineWidth l ≤ out.width + 1) →
          (∀ l ∈ out'.content.dropLast, lineWidth l ≤ out.width + 1) ∧
            n' ≤ out.width)
  | [], out, sc, col, co, rec, out', n', h, hsc => by
      simp only [internal_format_list] at h
      rw [Option.some.injEq, Prod.mk.injEq] at h
      obtain ⟨ho, hn⟩ := h
      subst ho
      subst hn
      exact ⟨rfl, hsc, fun _ hscW hdrop => ⟨hdrop, hscW⟩⟩
  | c :: cs, out, sc, col, co, rec, out', n', h, hsc => by
      simp only [internal_format_list] at h
      split at h
      · cases h
      · next mid colmid hc =>
          obtain ⟨hw1, hlw1, h31⟩ :=
            internal_format_widths c out sc col co rec mid colmid hc hsc
          obtain ⟨hw2, hlw2, h32⟩ :=
            internal_format_list_widths cs mid colmid col co rec out' n' h hlw1
          refine ⟨hw2.trans hw1, hlw2, ?_⟩
          intro h4 hscW hdrop
          obtain ⟨hdrop1, hcol1⟩ := h31 h4 hscW hdrop
          have h4' : 4 ≤ mid.width := by rw [hw1]; exact h4
          obtain ⟨hdrop2, hcol2⟩ := h32 h4' (by rw [hw1]; exact hcol1)
            (by rw [hw1]; exact hdrop1)
          rw [hw1] at hdrop2 hcol2
          exact ⟨hdrop2, hcol2⟩

end

theorem formatNormalize_content (ret : Preformatted) :
    ((formatNormalize ret).content = ret.content ∧ ret.content.length ≠ 0) ∨
      ((formatNormalize ret).content = ret.content ++ [[]] ∧
        ret.content.length = 0) := by
  simp only [formatNormalize]
  split
  · split
    · next h => exact Or.inr ⟨rfl, h⟩
    · next h => exact Or.inl ⟨rfl, h⟩
  · split
    · next h => exact Or.inr ⟨rfl, h⟩
    · next h => exact Or.inl ⟨rfl, h⟩

theorem formatNormalize_raw (ret : Preformatted) :
    ((formatNormalize ret).raw = ret.raw ∧
        ret.raw.getLast? ≠ some ([] : List Char)) ∨
      ((formatNormalize ret).raw = ret.raw.dropLast ∧
        ret.raw.getLast? = some ([] : List Char)) := by
  simp only [formatNormalize]
  split
  · next h =>
      split
      · exact Or.inr ⟨rfl, h⟩
      · exact Or.inr ⟨rfl, h⟩
  · next h =>
      split
      · exact Or.inl ⟨rfl, h⟩
      · exact Or.inl ⟨rfl, h⟩

theorem formatNormalize_mapping (ret : Preformatted) :
    (formatNormalize ret).mapping = ret.mapping := by
  simp only [formatNormalize]
  split <;> split <;> rfl

theorem format_eq_some {f : FmtCmd} {W co : Nat} {p : Preformatted}
    (h : FmtCmd.format f W co = some p) :
    ∃ ret n, internal_format (Preformatted.new W) f 0 0 co true =
      some (ret, n) ∧ p = formatNormalize ret := by
  unfold FmtCmd.format at h
  cases hi : internal_format (Preformatted.new W) f 0 0 co true with
  | none => rw [hi] at h; cases h
  | some r =>
      obtain ⟨ret, n⟩ := r
      rw [hi, Option.map_some'] at h
      exact ⟨ret, n, rfl, (Option.some.inj h).symm⟩

/-- C2 (amended): for every `FmtCmd`, layout width `W ≥ TABWIDTH` and color
offset, every line of a successfully produced `Preformatted` has display
width at most `W + 1` (not `W`: the space appended at a hard newline can
push a full line one column over the budget). -/
theorem format_line_width_le (f : FmtCmd) (W co : Nat) (p : Preformatted)
    (h4 : 4 ≤ W) (h : FmtCmd.format f W co = some p) :
    ∀ l ∈ p.content, lineWidth l ≤ W + 1 := by
  obtain ⟨ret, n, hi, hp⟩ := format_eq_some h
  obtain ⟨hwid, hlw, h3⟩ := internal_format_widths f (Preformatted.new W) 0 0
    co true ret n hi (Nat.le_refl 0)
  have hvac : ∀ l ∈ (Preformatted.new W).content.dropLast,
      lineWidth l ≤ (Preformatted.new W).width + 1 := by
    intro l hl
    exact absurd hl (List.not_mem_nil l)
  obtain ⟨hdrop, hn⟩ := h3 h4 (Nat.zero_le _) hvac
  have hn' : n ≤ W := hn
  intro l hl
  rcases formatNormalize_content ret with ⟨hc, _⟩ | ⟨hc, _⟩
  · rw [hp, hc] at hl
    rcases mem_dropLast_or_lastLine hl with h' | h'
    · exact hdrop l h'
    · rw [h']
      have := hlw
      omega
  · rw [hp, hc] at hl
    rcases List.mem_append.mp hl with h' | h'
    · rcases mem_dropLast_or_lastLine h' with h'' | h''
      · exact hdrop l h''
      · rw [h'']
        have := hlw
        omega
    · rw [List.mem_singleton.mp h']
      rw [lineWidth_nil]
      omega

/-- Witness for C2 (amended) at `Literal "a"`, width 4. -/
theorem format_line_width_le_witness :
    lineWidth [Output.fg 0, Output.str ['a']] ≤ 4 + 1 :=
  format_line_width_le (.literal ['a']) 4 0
    ⟨4, [[Output.fg 0, Output.str ['a']]], [['a']], [((0, 0), 0, 1, 0)]⟩
    (by decide) (by decide) [Output.fg 0, Output.str ['a']] (by decide)

/-- C2 counterexample: at width `W = 3 > 0` the literal `"aaa\n"` produces a
first line `"aaa "` of display width 4 > 3: the space appended before a hard
newline is emitted without a width check. -/
theorem c2_counterexample :
    ∃ p, FmtCmd.format (.literal ['a', 'a', 'a', '\n']) 3 0 = some p ∧
      ∃ l ∈ p.content, 3 < lineWidth l :=
  ⟨_, rfl, by decide⟩

/-- C4 (code bug): laying out a NoBreak whose single-line child is wider
than the total layout width hits `assert!(sublen < output.width)` and
panics (modelled as `none`), where the spec requires the layout to truncate
or emit as-is rather than abort. -/
theorem noBreak_width_overflow_panics :
    FmtCmd.format (.noBreak (.literal ['a', 'b', 'c', 'd'])) 3 0 = none := by
  decide

/-! ## Raw-chunk normalisation (claim C7) -/

/-- The raw chunk list invariant maintained by `internal_format`: it is
never empty, and only its final chunk can be empty. -/
def rawOk (raw : List (List Char)) : Prop :=
  raw ≠ [] ∧ ∀ x ∈ raw.dropLast, x ≠ []

theorem rawOk_new : rawOk [[]] := ⟨by simp, by simp⟩

theorem mem_dropLast_or_getLast? {α : Type _} {x : α} {t : List α}
    (hx : x ∈ t) : x ∈ t.dropLast ∨ t.getLast? = some x := by
  rcases List.eq_nil_or_concat t with rfl | ⟨ys, y, ht⟩
  · cases hx
  · subst ht
    rw [List.concat_eq_append, List.dropLast_concat, List.getLast?_concat]
    rw [List.concat_eq_append] at hx
    rcases List.mem_append.mp hx with h | h
    · exact Or.inl h
    · exact Or.inr (by rw [List.mem_singleton.mp h])

theorem rawOk_mem_ne_nil {raw : List (List Char)} (h : rawOk raw)
    (hlast : raw.getLast? ≠ some ([] : List Char)) :
    ∀ x ∈ raw, x ≠ [] := by
  intro x hx
  rcases mem_dropLast_or_getLast? hx with h' | h'
  · exact h.2 x h'
  · intro hxe
    rw [hxe] at h'
    exact hlast h'

theorem rawOk_pushLastChar {raw : List (List Char)} (h : rawOk raw)
    (c : Char) : rawOk (pushLastChar raw c) := by
  obtain ⟨hne, hd⟩ := h
  cases raw with
  | nil => exact absurd rfl hne
  | cons r rs =>
      show rawOk ((r :: rs).dropLast ++ [(r :: rs).getLastD [] ++ [c]])
      refine ⟨by simp, ?_⟩
      rw [List.dropLast_concat]
      exact hd

theorem rawOk_pushChunk {raw : List (List Char)} (h : rawOk raw)
    (hlast : raw.getLast? ≠ some ([] : List Char)) :
    rawOk (raw ++ [[]]) := by
  refine ⟨by simp, ?_⟩
  rw [List.dropLast_concat]
  exact rawOk_mem_ne_nil h hlast

theorem rawOk_strappend {t c : List (List Char)} (ht : rawOk t)
    (hc : rawOk c) : rawOk (strappend t c) := by
  obtain ⟨htne, htd⟩ := ht
  obtain ⟨hcne, hcd⟩ := hc
  cases c with
  | nil => exact ⟨htne, htd⟩
  | cons y ys =>
      cases t with
      | nil => exact absurd rfl htne
      | cons z zs =>
          show rawOk ((z :: zs).dropLast ++ [(z :: zs).getLastD [] ++ y] ++ ys)
          cases ys with
          | nil =>
              refine ⟨by simp, ?_⟩
              rw [List.append_nil, List.dropLast_concat]
              exact htd
          | cons w ws =>
              refine ⟨by simp, ?_⟩
              intro x hx
              rw [List.append_assoc, List.singleton_append,
                List.dropLast_append_cons, List.dropLast_cons₂] at hx
              rcases List.mem_append.mp hx with h' | h'
              · exact htd x h'
              · rcases List.mem_cons.mp h' with h'' | h''
                · have hy : y ≠ [] := by
                    apply hcd
                    show y ∈ (y :: w :: ws).dropLast
                    rw [List.dropLast_cons₂]
                    exact List.mem_cons_self y _
                  rw [h'']
                  simp [hy]
                · apply hcd
                  show x ∈ (y :: w :: ws).dropLast
                  rw [List.dropLast_cons₂]
                  exact List.mem_cons_of_mem y h''

theorem litTab_raw (color : Nat) (st : LitSt) :
    (litTab color st).out.raw = st.out.raw := by
  simp only [litTab]
  split <;> rfl

theorem litOther_raw (color : Nat) (st : LitSt) (c : Char) :
    (litOther color st c).out.raw = st.out.raw := by
  simp only [litOther]
  split <;> rfl

theorem litLayout_raw (color : Nat) (st : LitSt) (c : Char) :
    (litLayout color st c).out.raw = st.out.raw := by
  unfold litLayout
  split
  · rfl
  · split
    · exact litTab_raw color st
    · exact litOther_raw color st c

theorem addMapping_raw (st : LitSt) (a b : Nat) :
    (addMapping st a b).out.raw = st.out.raw := rfl

theorem litRecordMap_raw (c : Char) (s : LitSt) :
    (litRecordMap c s).out.raw = s.out.raw := by
  unfold litRecordMap
  split
  · split <;> rfl
  · rfl

theorem litChar_rawOk {st : LitSt} (color : Nat) (rec : Bool) (c : Char)
    (h : rawOk st.out.raw) : rawOk (litChar color rec st c).out.raw := by
  unfold litChar litRecord
  cases rec with
  | false =>
      show rawOk (litLayout color st c).out.raw
      rw [litLayout_raw]
      exact h
  | true =>
      show rawOk (litRecordMap c
        { litLayout color st c with
          out := { (litLayout color st c).out with
            raw := pushLastChar (litLayout color st c).out.raw c } }).out.raw
      rw [litRecordMap_raw]
      show rawOk (pushLastChar (litLayout color st c).out.raw c)
      rw [litLayout_raw]
      exact rawOk_pushLastChar h c

theorem foldl_litChar_rawOk (color : Nat) (rec : Bool) :
    ∀ (cs : List Char) (st : LitSt), rawOk st.out.raw →
      rawOk ((cs.foldl (litChar color rec) st).out.raw)
  | [], _, h => h
  | c :: cs, st, h =>
      foldl_litChar_rawOk color rec cs _ (litChar_rawOk color rec c h)

mutual

/-- `internal_format` preserves the raw-chunk invariant. -/
theorem internal_format_rawOk :
    ∀ (f : FmtCmd) (out : Preformatted) (sc col co : Nat) (rec : Bool)
      (out' : Preformatted) (n' : Nat),
      internal_format out f sc col co rec = some (out', n') →
      rawOk out.raw → rawOk out'.raw
  | .literal v, out, sc, col, co, rec, out', n', h, hr => by
      simp only [internal_format] at h
      rw [Option.some.injEq, Prod.mk.injEq] at h
      obtain ⟨ho, _⟩ := h
      subst ho
      exact foldl_litChar_rawOk col rec v _ hr
  | .container cs, out, sc, col, co, rec, out', n', h, hr => by
      simp only [internal_format] at h
      exact internal_format_list_rawOk cs out sc col co rec out' n' h hr
  | .color nc child, out, sc, col, co, rec, out', n', h, hr => by
      simp only [internal_format] at h
      exact internal_format_rawOk child out sc (nc + co) co rec out' n' h hr
  | .rawColor nc child, out, sc, col, co, rec, out', n', h, hr => by
      simp only [internal_format] at h
      exact internal_format_rawOk child out sc nc co rec out' n' h hr
  | .noBreak child, out, sc, col, co, rec, out', n', h, hr => by
      simp only [internal_format] at h
      split at h
      · cases h
      · next sub sublen hsub =>
          have hsubRaw : rawOk sub.raw :=
            internal_format_rawOk child (Preformatted.new 0) 0 col co rec sub
              sublen hsub rawOk_new
          have hmerge : rawOk (strappend out.raw sub.raw) :=
            rawOk_strappend hr hsubRaw
          by_cases h0 : sub.content.length = 0
          · rw [if_pos h0, Option.some.injEq, Prod.mk.injEq] at h
            obtain ⟨ho, _⟩ := h
            subst ho
            exact hr
          · rw [if_neg h0] at h
            by_cases h1 : sub.content.length = 1
            · rw [if_pos h1] at h
              by_cases hfit : out.width = 0 ∨ sublen ≤ out.width - sc
              · rw [if_pos hfit, Option.some.injEq, Prod.mk.injEq] at h
                obtain ⟨ho, _⟩ := h
                subst ho
                exact hmerge
              · rw [if_neg hfit] at h
                by_cases hlt : sublen < out.width
                · rw [if_pos hlt, Option.some.injEq, Prod.mk.injEq] at h
                  obtain ⟨ho, _⟩ := h
                  subst ho
                  exact hmerge
                · rw [if_neg hlt] at h
                  cases h
            · rw [if_neg h1] at h
              cases h
  | .exclude r child, out, sc, col, co, rec, out', n', h, hr => by
      simp only [internal_format] at h
      by_cases hx : r.has .search ∧ out.raw.getLast? ≠ some ([] : List Char)
      · rw [if_pos hx] at h
        exact internal_format_rawOk child _ sc col co _ out' n' h
          (rawOk_pushChunk hr hx.2)
      · rw [if_neg hx] at h
        exact internal_format_rawOk child out sc col co _ out' n' h hr

theorem internal_format_list_rawOk :
    ∀ (cs : List FmtCmd) (out : Preformatted) (sc col co : Nat) (rec : Bool)
      (out' : Preformatted) (n' : Nat),
      internal_format_list out cs sc col co rec = some (out', n') →
      rawOk out.raw → rawOk out'.raw
  | [], out, sc, col, co, rec, out', n', h, hr => by
      simp only [internal_format_list] at h
      rw [Option.some.injEq, Prod.mk.injEq] at h
      obtain ⟨ho, _⟩ := h
      subst ho
      exact hr
  | c :: cs, out, sc, col, co, rec, out', n', h, hr => by
      simp only [internal_format_list] at h
      split at h
      · cases h
      · next mid colmid hc =>
          exact internal_format_list_rawOk cs mid colmid col co rec out' n' h
            (internal_format_rawOk c out sc col co rec mid colmid hc hr)

end

/-- C7: every successfully produced `Preformatted` is normalised: the raw
chunk list does not end with an empty chunk, and the content has at least
one line. -/
theorem format_normalized (f : FmtCmd) (W co : Nat) (p : Preformatted)
    (h : FmtCmd.format f W co = some p) :
    p.raw.getLast? ≠ some ([] : List Char) ∧ 1 ≤ p.content.length := by
  obtain ⟨ret, n, hi, hp⟩ := format_eq_some h
  have hret : rawOk ret.raw :=
    internal_format_rawOk f (Preformatted.new W) 0 0 co true ret n hi rawOk_new
  constructor
  · rcases formatNormalize_raw ret with ⟨hraw, hne⟩ | ⟨hraw, _⟩
    · rw [hp, hraw]
      exact hne
    · rw [hp, hraw]
      intro hcontra
      have hmem : ([] : List Char) ∈ ret.raw.dropLast := by
        have hne' : ret.raw.dropLast ≠ [] := by
          intro hnil
          rw [hnil] at hcontra
          cases hcontra
        have := List.getLast?_eq_getLast ret.raw.dropLast hne'
        rw [hcontra] at this
        rw [Option.some.inj this]
        exact List.getLast_mem hne'
      exact hret.2 [] hmem rfl
  · rcases formatNormalize_content ret with ⟨hc, hlen⟩ | ⟨hc, _⟩
    · rw [hp, hc]
      omega
    · rw [hp, hc]
      rw [List.length_append]
      simp

/-- Witness for C7 at `Literal "a"`, width 2. -/
theorem format_normalized_witness :
    ([['a']] : List (List Char)).getLast? ≠ some ([] : List Char) ∧
      1 ≤ ([[Output.fg 0, Output.str ['a']]] : List (List Output)).length :=
  format_normalized (.literal ['a']) 2 0
    ⟨2, [[Output.fg 0, Output.str ['a']]], [['a']], [((0, 0), 0, 1, 0)]⟩
    (by decide)

/-! ## Mapping monotonicity (claim C8) -/

theorem keyLe_refl (a : Nat × Nat) : keyLe a a := by
  unfold keyLe; omega

theorem keyLe_of_keyLt {a b : Nat × Nat} (h : keyLt a b) : keyLe a b := by
  unfold keyLt at h; unfold keyLe; omega

theorem keyLt_irrefl (a : Nat × Nat) : ¬ keyLt a a := by
  unfold keyLt; omega

theorem keyLe_trans {a b c : Nat × Nat} (h₁ : keyLe a b) (h₂ : keyLe b c) :
    keyLe a c := by
  unfold keyLe at *; omega

theorem keyLt_of_keyLe_of_keyLt {a b c : Nat × Nat} (h₁ : keyLe a b)
    (h₂ : keyLt b c) : keyLt a c := by
  unfold keyLe at h₁; unfold keyLt at *; omega

theorem keyLt_of_keyLt_of_keyLe {a b c : Nat × Nat} (h₁ : keyLt a b)
    (h₂ : keyLe b c) : keyLt a c := by
  unfold keyLe at h₂; unfold keyLt at *; omega

theorem keyLt_asymm {a b : Nat × Nat} (h : keyLt a b) : ¬ keyLt b a := by
  unfold keyLt at *; omega

theorem keyLt_or_eq_of_keyLe {a b : Nat × Nat} (h : keyLe a b) :
    keyLt a b ∨ a = b := by
  unfold keyLe at h
  unfold keyLt
  rcases a with ⟨a1, a2⟩
  rcases b with ⟨b1, b2⟩
  simp only [Prod.mk.injEq]
  simp only at h
  omega

theorem valLe_refl (v : Nat × Nat × Nat) : valLe v v := by
  unfold valLe; omega

theorem valLe_trans {u v w : Nat × Nat × Nat} (h₁ : valLe u v)
    (h₂ : valLe v w) : valLe u w := by
  unfold valLe at *; omega

/-- A strict bound on the (line, segment) pair dominates the byte offset. -/
theorem valLe_of_pairLt {v : Nat × Nat × Nat} {w : Nat × Nat × Nat}
    (h : keyLt (v.1, v.2.1) (w.1, w.2.1)) : valLe v w := by
  unfold keyLt at h; unfold valLe; simp only at h; omega

theorem valLe_of_pairLt_bound {v : Nat × Nat × Nat} {b : Nat × Nat}
    (h : keyLt (v.1, v.2.1) b) (w : Nat × Nat × Nat) (hw : b.1 ≤ w.1)
    (hw2 : b.1 = w.1 → b.2 ≤ w.2.1) : valLe v w := by
  unfold keyLt at h; unfold valLe; simp only at h
  rcases b with ⟨b1, b2⟩
  simp only at hw hw2
  omega

/-- Mapping well-formedness: keys strictly ascending, values nondecreasing. -/
def MapSorted (m : List ((Nat × Nat) × (Nat × Nat × Nat))) : Prop :=
  List.Pairwise (fun e f => keyLt e.1 f.1 ∧ valLe e.2 f.2) m

/-- `mapInsert` with a key at or beyond every present key (and a value at or
beyond every present value) preserves sortedness, and every entry of the
result is an old entry or the new one. -/
theorem mapInsert_spec :
    ∀ (m : List ((Nat × Nat) × (Nat × Nat × Nat))) (k : Nat × Nat)
      (v : Nat × Nat × Nat), MapSorted m →
      (∀ e ∈ m, keyLe e.1 k ∧ valLe e.2 v) →
      MapSorted (mapInsert m k v) ∧
        ∀ e ∈ mapInsert m k v, e ∈ m ∨ e = (k, v)
  | [], k, v, _, _ => by
      constructor
      · exact List.pairwise_singleton _ _
      · intro e he
        rcases List.mem_singleton.mp he with rfl
        exact Or.inr rfl
  | (k', v') :: rest, k, v, hs, hb => by
      have hk' : keyLe k' k := (hb (k', v') (List.mem_cons_self _ _)).1
      have hnlt : ¬ keyLt k k' := by
        intro hlt
        rcases keyLt_or_eq_of_keyLe hk' with h' | h'
        · exact keyLt_asymm h' hlt
        · rw [h'] at hlt
          exact keyLt_irrefl k hlt
      unfold mapInsert
      rw [if_neg hnlt]
      by_cases heq : k = k'
      · rw [if_pos heq]
        have hrest : ∀ f ∈ rest, False := by
          intro f hf
          have h1 : keyLt k' f.1 := (List.pairwise_cons.mp hs).1 f hf |>.1
          have h2 : keyLe f.1 k := (hb f (List.mem_cons_of_mem _ hf)).1
          rw [heq] at h2
          rcases keyLt_or_eq_of_keyLe h2 with h' | h'
          · exact keyLt_asymm h1 h'
          · rw [h'] at h1
            exact keyLt_irrefl k' h1
        constructor
        · rw [MapSorted, List.pairwise_cons]
          refine ⟨fun f hf => absurd (hrest f hf) not_false, ?_⟩
          exact (List.pairwise_cons.mp hs).2
        · intro e he
          rcases List.mem_cons.mp he with rfl | he'
          · exact Or.inr rfl
          · exact absurd (hrest e he') not_false
      · rw [if_neg heq]
        have hrec := mapInsert_spec rest k v (List.pairwise_cons.mp hs).2
          (fun e he => hb e (List.mem_cons_of_mem _ he))
        constructor
        · rw [MapSorted, List.pairwise_cons]
          constructor
          · intro f hf
            rcases hrec.2 f hf with hf' | hf'
            · exact (List.pairwise_cons.mp hs).1 f hf'
            · rw [hf']
              refine ⟨?_, (hb (k', v') (List.mem_cons_self _ _)).2⟩
              rcases keyLt_or_eq_of_keyLe hk' with h' | h'
              · exact h'
              · exact absurd h'.symm heq
          · exact hrec.1
        · intro e he
          rcases List.mem_cons.mp he with rfl | he'
          · exact Or.inl (List.mem_cons_self _ _)
          · rcases hrec.2 e he' with h' | h'
            · exact Or.inl (List.mem_cons_of_mem _ h')
            · exact Or.inr h'

/-- The current raw frontier: the largest key `add_mapping` could have
recorded so far (current chunk index, current chunk byte length). -/
def kfB (out : Preformatted) : Nat × Nat :=
  (out.raw.length - 1, strBytes (lastRaw out.raw))

/-- Byte length of the trailing `Str` segment of the working line. -/
def lastStrB (cur : List Output) : Nat :=
  match cur.getLast? with
  | some (Output.str s) => strBytes s
  | _ => 0

/-- The current screen frontier during the Literal loop: the largest value
`add_mapping` could have recorded so far. -/
def vfr (st : LitSt) : Nat × Nat × Nat :=
  (st.out.content.length - 1,
    lastLen st.out.content + st.cur.length - 1, lastStrB st.cur)

/-- The screen frontier between commands: every recorded value lies strictly
below this (line, segment) pair. -/
def vbO (out : Preformatted) : Nat × Nat :=
  (out.content.length - 1, lastLen out.content)

/-- The mapping invariant inside the Literal loop. -/
def MapInvL (st : LitSt) : Prop :=
  MapSorted st.out.mapping ∧
    (∀ e ∈ st.out.mapping, keyLe e.1 (kfB st.out) ∧ valLe e.2 (vfr st)) ∧
    st.cur ≠ [] ∧ st.out.raw ≠ []

/-- The mapping invariant between commands. -/
def MapInvO (out : Preformatted) : Prop :=
  MapSorted out.mapping ∧
    (∀ e ∈ out.mapping, keyLe e.1 (kfB out) ∧
      keyLt (e.2.1, e.2.2.1) (vbO out)) ∧
    out.raw ≠ []

theorem strBytes_concat (s : List Char) (c : Char) :
    strBytes (s ++ [c]) = strBytes s + charBytes c := by
  simp [strBytes]

theorem strBytes_replicate_space (n : Nat) :
    strBytes (List.replicate n ' ') = n := by
  have h : charBytes ' ' = 1 := by decide
  simp [strBytes, List.map_replicate, h]

theorem getLastD_concat' {α : Type _} (xs : List α) (y d : α) :
    (xs ++ [y]).getLastD d = y := by
  simp [List.getLastD_eq_getLast?, List.getLast?_concat]

theorem pushLastChar_length {r : List (List Char)} (hr : r ≠ []) (c : Char) :
    (pushLastChar r c).length = r.length := by
  cases r with
  | nil => exact absurd rfl hr
  | cons x xs =>
      show ((x :: xs).dropLast ++ [(x :: xs).getLastD [] ++ [c]]).length = _
      rw [List.length_append, List.length_dropLast]
      simp

theorem lastRaw_pushLastChar {r : List (List Char)} (hr : r ≠ []) (c : Char) :
    lastRaw (pushLastChar r c) = lastRaw r ++ [c] := by
  cases r with
  | nil => exact absurd rfl hr
  | cons x xs =>
      show lastRaw ((x :: xs).dropLast ++ [(x :: xs).getLastD [] ++ [c]]) = _
      unfold lastRaw
      rw [getLastD_concat']

theorem pushLastChar_ne_nil {r : List (List Char)} (hr : r ≠ []) (c : Char) :
    pushLastChar r c ≠ [] := by
  cases r with
  | nil => exact absurd rfl hr
  | cons x xs =>
      show (x :: xs).dropLast ++ [(x :: xs).getLastD [] ++ [c]] ≠ []
      simp

/-- Pushing a raw character advances the raw frontier. -/
theorem kfB_pushLastChar {out : Preformatted} (hr : out.raw ≠ []) (c : Char) :
    ∀ raw', raw' = pushLastChar out.raw c →
      (raw'.length - 1, strBytes (lastRaw raw')) =
        (out.raw.length - 1, strBytes (lastRaw out.raw) + charBytes c) := by
  intro raw' hraw
  rw [hraw, pushLastChar_length hr, lastRaw_pushLastChar hr, strBytes_concat]

theorem addchar_ne_nil (l : List Output) (c : Char) : addchar l c ≠ [] := by
  unfold addchar
  cases h : l.getLast? with
  | none => simp
  | some o => cases o <;> simp

theorem lastStrB_of_getLast_str {l : List Output} {s : List Char}
    (h : l.getLast? = some (Output.str s)) : lastStrB l = strBytes s := by
  unfold lastStrB
  rw [h]

theorem addchar_cases (l : List Output) (c : Char) :
    ((addchar l c).length = l.length + 1 ∧
        lastStrB (addchar l c) = charBytes c) ∨
      ((addchar l c).length = l.length ∧
        lastStrB (addchar l c) = lastStrB l + charBytes c) := by
  unfold addchar
  cases h : l.getLast? with
  | none =>
      left
      constructor
      · simp
      · show lastStrB (l ++ [Output.str [c]]) = charBytes c
        unfold lastStrB
        rw [List.getLast?_concat]
        show strBytes [c] = charBytes c
        simp [strBytes]
  | some o =>
      cases o with
      | str s =>
          right
          have hne : l ≠ [] := by
            intro hl; rw [hl] at h; cases h
          constructor
          · show (l.dropLast ++ [Output.str (s ++ [c])]).length = l.length
            rw [List.length_append, List.length_dropLast]
            have hpos := List.length_pos.mpr hne
            simp only [List.length_singleton]
            omega
          · show lastStrB (l.dropLast ++ [Output.str (s ++ [c])]) =
              lastStrB l + charBytes c
            unfold lastStrB
            rw [List.getLast?_concat, h]
            show strBytes (s ++ [c]) = strBytes s + charBytes c
            rw [strBytes_concat]
      | fg n =>
          left
          refine ⟨by simp, ?_⟩
          show lastStrB (l ++ [Output.str [c]]) = charBytes c
          unfold lastStrB
          rw [List.getLast?_concat]
          show strBytes [c] = charBytes c
          simp [strBytes]
      | bg n =>
          left
          refine ⟨by simp, ?_⟩
          show lastStrB (l ++ [Output.str [c]]) = charBytes c
          unfold lastStrB
          rw [List.getLast?_concat]
          show strBytes [c] = charBytes c
          simp [strBytes]
      | fill ch =>
          left
          refine ⟨by simp, ?_⟩
          show lastStrB (l ++ [Output.str [c]]) = charBytes c
          unfold lastStrB
          rw [List.getLast?_concat]
          show strBytes [c] = charBytes c
          simp [strBytes]

theorem litNewline_content_length (color : Nat) (st : LitSt) :
    (litNewline color st).out.content.length =
      st.out.content.dropLast.length + 2 := by
  show (appendContent st.out.content [st.cur, []]).length = _
  rw [appendContent_pair]
  simp

theorem litNewline_lastLen (color : Nat) (st : LitSt) :
    lastLen (litNewline color st).out.content = 0 := by
  show lastLen (appendContent st.out.content [st.cur, []]) = 0
  rw [appendContent_pair]
  unfold lastLen
  rw [getLastD_concat']
  rfl

theorem litNewline_line_lt (color : Nat) (st : LitSt) :
    st.out.content.length - 1 < (litNewline color st).out.content.length - 1 := by
  rw [litNewline_content_length, List.length_dropLast]
  omega

/-- Any value at or below the pre-newline frontier stays strictly below the
post-newline one (the line index strictly increases). -/
theorem vfr_lt_litNewline (color : Nat) (st : LitSt) {v : Nat × Nat × Nat}
    (hv : valLe v (vfr st)) : valLe v (vfr (litNewline color st)) := by
  have hlt := litNewline_line_lt color st
  unfold vfr valLe at *
  simp only at hv ⊢
  omega

theorem mapInsert_all_bounds
    {m : List ((Nat × Nat) × (Nat × Nat × Nat))} {k kb kb' : Nat × Nat}
    {v vb vb' : Nat × Nat × Nat}
    (hs : MapSorted m)
    (hbk : ∀ e ∈ m, keyLe e.1 kb) (hbv : ∀ e ∈ m, valLe e.2 vb)
    (hkk : keyLe kb k) (hvv : valLe vb v)
    (hk' : keyLe k kb') (hv' : valLe v vb')
    (hb' : keyLe kb kb') (hvb' : valLe vb vb') :
    MapSorted (mapInsert m k v) ∧
      ∀ e ∈ mapInsert m k v, keyLe e.1 kb' ∧ valLe e.2 vb' := by
  have hspec := mapInsert_spec m k v hs
    (fun e he => ⟨keyLe_trans (hbk e he) hkk, valLe_trans (hbv e he) hvv⟩)
  refine ⟨hspec.1, ?_⟩
  intro e he
  rcases hspec.2 e he with h' | h'
  · exact ⟨keyLe_trans (hbk e h') hb', valLe_trans (hbv e h') hvb'⟩
  · rw [h']
    exact ⟨hk', hv'⟩

theorem litRecordMap_of_neg {c : Char} {s : LitSt}
    (h : ¬(s.need_mapping = true ∧ 0 < s.cnt)) : litRecordMap c s = s := by
  unfold litRecordMap
  rw [if_neg h]

theorem litRecordMap_of_pos_tab {s : LitSt}
    (h : s.need_mapping = true ∧ 0 < s.cnt) :
    litRecordMap '\t' s =
      { addMapping (addMapping s TABWIDTH 1) 0 0 with need_mapping := false } := by
  unfold litRecordMap
  rw [if_pos h, if_pos rfl]

theorem litRecordMap_of_pos_other {c : Char} {s : LitSt} (hc : c ≠ '\t')
    (h : s.need_mapping = true ∧ 0 < s.cnt) :
    litRecordMap c s =
      { addMapping s (charBytes c) (charBytes c) with
        need_mapping := false } := by
  unfold litRecordMap
  rw [if_pos h, if_neg hc]

theorem valLe_of_line_lt {v w : Nat × Nat × Nat} (h : v.1 < w.1) :
    valLe v w := by
  unfold valLe; omega

theorem valLe_of_item_lt {v w : Nat × Nat × Nat} (h1 : v.1 = w.1)
    (h2 : v.2.1 < w.2.1) : valLe v w := by
  unfold valLe; omega

theorem valLe_of_idx_le {v w : Nat × Nat × Nat} (h1 : v.1 = w.1)
    (h2 : v.2.1 = w.2.1) (h3 : v.2.2 ≤ w.2.2) : valLe v w := by
  unfold valLe; omega

theorem litLayout_newline_eq (color : Nat) (st : LitSt) :
    litLayout color st '\n' =
      litNewline color { st with cur := addchar st.cur ' ' } := by
  unfold litLayout
  rw [if_pos rfl]

theorem litLayout_tab_eq (color : Nat) (st : LitSt) :
    litLayout color st '\t' = litTab color st := by
  unfold litLayout
  rw [if_neg (by decide), if_pos rfl]

theorem litLayout_other_eq (color : Nat) (st : LitSt) (c : Char)
    (hn : c ≠ '\n') (ht : c ≠ '\t') :
    litLayout color st c = litOther color st c := by
  unfold litLayout
  rw [if_neg hn, if_neg ht]

theorem litNewline_mapping (color : Nat) (st : LitSt) :
    (litNewline color st).out.mapping = st.out.mapping := rfl

theorem litNewline_raw (color : Nat) (st : LitSt) :
    (litNewline color st).out.raw = st.out.raw := rfl

theorem litNewline_cnt (color : Nat) (st : LitSt) :
    (litNewline color st).cnt = 0 := rfl

theorem litNewline_cur (color : Nat) (st : LitSt) :
    (litNewline color st).cur = [Output.fg color] := rfl

theorem tabFinish_mapping (s : LitSt) :
    (tabFinish s).out.mapping = s.out.mapping := rfl

theorem tabFinish_content (s : LitSt) :
    (tabFinish s).out.content = s.out.content := rfl

theorem tabFinish_raw' (s : LitSt) : (tabFinish s).out.raw = s.out.raw := rfl

theorem tabFinish_need (s : LitSt) : (tabFinish s).need_mapping = true := rfl

theorem tabFinish_cnt (s : LitSt) : (tabFinish s).cnt = s.cnt + TABWIDTH := rfl

theorem tabFinish_cur (s : LitSt) :
    (tabFinish s).cur = s.cur ++ [Output.str (List.replicate
      (if s.out.width = 0 ∨ TABWIDTH < s.out.width then TABWIDTH
        else s.out.width) ' ')] := rfl

theorem otherFinish_mapping (s : LitSt) (c : Char) :
    (otherFinish s c).out.mapping = s.out.mapping := rfl

theorem otherFinish_content (s : LitSt) (c : Char) :
    (otherFinish s c).out.content = s.out.content := rfl

theorem otherFinish_raw (s : LitSt) (c : Char) :
    (otherFinish s c).out.raw = s.out.raw := rfl

theorem otherFinish_cur (s : LitSt) (c : Char) :
    (otherFinish s c).cur = addchar s.cur c := rfl

theorem otherFinish_need (s : LitSt) (c : Char) :
    (otherFinish s c).need_mapping = s.need_mapping := rfl

theorem addMapping_content (s : LitSt) (a b : Nat) :
    (addMapping s a b).out.content = s.out.content := rfl

theorem addMapping_cur (s : LitSt) (a b : Nat) :
    (addMapping s a b).cur = s.cur := rfl

theorem addMapping_mapping (s : LitSt) (a b : Nat) :
    (addMapping s a b).out.mapping =
      mapInsert s.out.mapping (amKey s b) (amVal s a) := rfl

theorem litTab_mapping (color : Nat) (st : LitSt) :
    (litTab color st).out.mapping = st.out.mapping := by
  unfold litTab
  rw [tabFinish_mapping]
  split <;> rfl

theorem litOther_mapping (color : Nat) (st : LitSt) (c : Char) :
    (litOther color st c).out.mapping = st.out.mapping := by
  unfold litOther
  rw [otherFinish_mapping]
  split <;> rfl

theorem litLayout_mapping (color : Nat) (st : LitSt) (c : Char) :
    (litLayout color st c).out.mapping = st.out.mapping := by
  unfold litLayout
  split
  · rfl
  · split
    · exact litTab_mapping color st
    · exact litOther_mapping color st c

theorem litTab_cur_ne (color : Nat) (st : LitSt) : (litTab color st).cur ≠ [] := by
  unfold litTab
  rw [tabFinish_cur]
  simp

theorem litOther_cur_ne (color : Nat) (st : LitSt) (c : Char) :
    (litOther color st c).cur ≠ [] := by
  unfold litOther
  rw [otherFinish_cur]
  exact addchar_ne_nil _ c

theorem litLayout_cur_ne (color : Nat) (st : LitSt) (c : Char) :
    (litLayout color st c).cur ≠ [] := by
  unfold litLayout
  split
  · rw [litNewline_cur]
    simp
  · split
    · exact litTab_cur_ne color st
    · exact litOther_cur_ne color st c

theorem vfr_tabFinish (s : LitSt) :
    vfr (tabFinish s) = (s.out.content.length - 1,
      lastLen s.out.content + s.cur.length,
      if s.out.width = 0 ∨ TABWIDTH < s.out.width then TABWIDTH
        else s.out.width) := by
  unfold vfr
  rw [tabFinish_content, tabFinish_cur]
  refine congrArg₂ Prod.mk rfl (congrArg₂ Prod.mk ?_ ?_)
  · rw [List.length_append]
    simp
  · unfold lastStrB
    rw [List.getLast?_concat]
    show strBytes (List.replicate _ ' ') = _
    rw [strBytes_replicate_space]

theorem vfr_le_litLayout (color : Nat) (st : LitSt) (c : Char)
    (hcur : st.cur ≠ []) : valLe (vfr st) (vfr (litLayout color st c)) := by
  have hpos := List.length_pos.mpr hcur
  unfold litLayout
  by_cases hn : c = '\n'
  · rw [if_pos hn]
    have hlt := litNewline_line_lt color { st with cur := addchar st.cur ' ' }
    exact valLe_of_line_lt hlt
  · rw [if_neg hn]
    by_cases ht : c = '\t'
    · rw [if_pos ht]
      unfold litTab
      by_cases hbr : 0 < st.out.width ∧ st.out.width ≤ st.cnt + TABWIDTH
      · rw [if_pos hbr, vfr_tabFinish]
        exact valLe_of_line_lt (litNewline_line_lt color st)
      · rw [if_neg hbr, vfr_tabFinish]
        refine valLe_of_item_lt rfl ?_
        show lastLen st.out.content + st.cur.length - 1 <
          lastLen st.out.content + st.cur.length
        omega
    · rw [if_neg ht]
      unfold litOther
      by_cases hbr : 0 < st.out.width ∧ st.out.width < st.cnt + charWidth c
      · rw [if_pos hbr]
        exact valLe_of_line_lt (litNewline_line_lt color st)
      · rw [if_neg hbr]
        rcases addchar_cases st.cur c with ⟨hlen, _⟩ | ⟨hlen, hB⟩
        · refine valLe_of_item_lt rfl ?_
          show lastLen st.out.content + st.cur.length - 1 <
            lastLen st.out.content + (addchar st.cur c).length - 1
          rw [hlen]
          omega
        · refine valLe_of_idx_le rfl ?_ ?_
          · show lastLen st.out.content + st.cur.length - 1 =
              lastLen st.out.content + (addchar st.cur c).length - 1
            rw [hlen]
          · show lastStrB st.cur ≤ lastStrB (addchar st.cur c)
            rw [hB]
            omega

theorem kfB_litLayout (color : Nat) (st : LitSt) (c : Char) :
    kfB (litLayout color st c).out = kfB st.out := by
  unfold kfB
  rw [litLayout_raw]

/-- `MapInvL` survives the layout half of a character step. -/
theorem litLayout_mapInv {st : LitSt} (color : Nat) (c : Char)
    (h : MapInvL st) : MapInvL (litLayout color st c) := by
  obtain ⟨hsort, hbnd, hcur, hraw⟩ := h
  refine ⟨?_, ?_, litLayout_cur_ne color st c, ?_⟩
  · rw [litLayout_mapping]
    exact hsort
  · intro e he
    rw [litLayout_mapping] at he
    refine ⟨?_, ?_⟩
    · rw [kfB_litLayout]
      exact (hbnd e he).1
    · exact valLe_trans (hbnd e he).2 (vfr_le_litLayout color st c hcur)
  · rw [litLayout_raw]
    exact hraw

theorem keyLe_mk_iff {k : Nat × Nat} {a b : Nat} :
    keyLe k (a, b) ↔ k.1 < a ∨ (k.1 = a ∧ k.2 ≤ b) := Iff.rfl

theorem keyLe_mk_mk_iff {a b c d : Nat} :
    keyLe (a, b) (c, d) ↔ a < c ∨ (a = c ∧ b ≤ d) := Iff.rfl

theorem valLe_mk_mk_iff {a b c d e f : Nat} :
    valLe (a, b, c) (d, e, f) ↔
      a < d ∨ (a = d ∧ (b < e ∨ (b = e ∧ c ≤ f))) := Iff.rfl

theorem amKey_addMapping (s : LitSt) (a b off : Nat) :
    amKey (addMapping s a b) off = amKey s off := rfl

theorem amVal_addMapping (s : LitSt) (a b cl : Nat) :
    amVal (addMapping s a b) cl = amVal s cl := rfl

theorem addchar_getLast_str (l : List Output) (c : Char) :
    ∃ s, (addchar l c).getLast? = some (Output.str s) ∧
      strBytes s = lastStrB (addchar l c) := by
  unfold addchar
  cases h : l.getLast? with
  | none =>
      refine ⟨[c], List.getLast?_concat _, ?_⟩
      unfold lastStrB
      rw [List.getLast?_concat]
  | some o =>
      cases o with
      | str s =>
          refine ⟨s ++ [c], List.getLast?_concat _, ?_⟩
          unfold lastStrB
          rw [List.getLast?_concat]
      | fg n =>
          refine ⟨[c], List.getLast?_concat _, ?_⟩
          unfold lastStrB
          rw [List.getLast?_concat]
      | bg n =>
          refine ⟨[c], List.getLast?_concat _, ?_⟩
          unfold lastStrB
          rw [List.getLast?_concat]
      | fill ch =>
          refine ⟨[c], List.getLast?_concat _, ?_⟩
          unfold lastStrB
          rw [List.getLast?_concat]

/-- `amIdx` in terms of the trailing segment's byte length, when the working
line ends in a `Str`. -/
theorem amIdx_eq_of_str {st : LitSt} {s : List Char} (charlen : Nat)
    (h : st.cur.getLast? = some (Output.str s)) :
    amIdx st charlen = strBytes s - min charlen (strBytes s) := by
  unfold amIdx
  rw [h]

/-- The raw-push step of the record block preserves the mapping invariant
(the raw frontier only advances). -/
theorem mapInv_push_raw {s : LitSt} (c : Char) (h : MapInvL s) :
    MapInvL { s with out := { s.out with
      raw := pushLastChar s.out.raw c } } := by
  obtain ⟨hs, hb, hcur, hraw⟩ := h
  refine ⟨hs, ?_, hcur, pushLastChar_ne_nil hraw c⟩
  intro e he
  refine ⟨?_, (hb e he).2⟩
  have hk := (hb e he).1
  show keyLe e.1 ((pushLastChar s.out.raw c).length - 1,
    strBytes (lastRaw (pushLastChar s.out.raw c)))
  rw [pushLastChar_length hraw, lastRaw_pushLastChar hraw, strBytes_concat]
  have hk' : keyLe e.1 (s.out.raw.length - 1, strBytes (lastRaw s.out.raw)) := hk
  rw [keyLe_mk_iff] at hk' ⊢
  omega

/-- The state after the raw push of the record block. -/
def pushSt (s : LitSt) (c : Char) : LitSt :=
  { s with out := { s.out with raw := pushLastChar s.out.raw c } }

theorem pushSt_mapping (s : LitSt) (c : Char) :
    (pushSt s c).out.mapping = s.out.mapping := rfl

theorem pushSt_cur (s : LitSt) (c : Char) : (pushSt s c).cur = s.cur := rfl

theorem pushSt_cnt (s : LitSt) (c : Char) : (pushSt s c).cnt = s.cnt := rfl

theorem pushSt_need (s : LitSt) (c : Char) :
    (pushSt s c).need_mapping = s.need_mapping := rfl

theorem vfr_pushSt (s : LitSt) (c : Char) : vfr (pushSt s c) = vfr s := rfl

theorem amKey_pushSt {s : LitSt} (hraw : s.out.raw ≠ []) (c : Char)
    (off : Nat) :
    amKey (pushSt s c) off = (s.out.raw.length - 1,
      strBytes (lastRaw s.out.raw) + charBytes c - off) := by
  unfold amKey pushSt
  show (((pushLastChar s.out.raw c).length - 1 : Nat),
    strBytes (lastRaw (pushLastChar s.out.raw c)) - off) = _
  rw [pushLastChar_length hraw, lastRaw_pushLastChar hraw, strBytes_concat]

theorem kfB_pushSt {s : LitSt} (hraw : s.out.raw ≠ []) (c : Char) :
    kfB (pushSt s c).out = (s.out.raw.length - 1,
      strBytes (lastRaw s.out.raw) + charBytes c) := by
  unfold kfB pushSt
  show (((pushLastChar s.out.raw c).length - 1 : Nat),
    strBytes (lastRaw (pushLastChar s.out.raw c))) = _
  rw [pushLastChar_length hraw, lastRaw_pushLastChar hraw, strBytes_concat]

theorem amVal_pushSt (s : LitSt) (c : Char) (cl : Nat) :
    amVal (pushSt s c) cl = amVal s cl := rfl

theorem tabRecord_fields (s : LitSt) :
    ({ addMapping (addMapping s TABWIDTH 1) 0 0 with
        need_mapping := false }).out.mapping =
      mapInsert (mapInsert s.out.mapping (amKey s 1) (amVal s TABWIDTH))
        (amKey s 0) (amVal s 0) ∧
      ({ addMapping (addMapping s TABWIDTH 1) 0 0 with
        need_mapping := false }).out.raw = s.out.raw ∧
      ({ addMapping (addMapping s TABWIDTH 1) 0 0 with
        need_mapping := false }).cur = s.cur ∧
      vfr { addMapping (addMapping s TABWIDTH 1) 0 0 with
        need_mapping := false } = vfr s ∧
      kfB ({ addMapping (addMapping s TABWIDTH 1) 0 0 with
        need_mapping := false }).out = kfB s.out :=
  ⟨rfl, rfl, rfl, rfl, rfl⟩

theorem otherRecord_fields (s : LitSt) (cb : Nat) :
    ({ addMapping s cb cb with need_mapping := false }).out.mapping =
      mapInsert s.out.mapping (amKey s cb) (amVal s cb) ∧
      ({ addMapping s cb cb with need_mapping := false }).out.raw =
        s.out.raw ∧
      ({ addMapping s cb cb with need_mapping := false }).cur = s.cur ∧
      vfr { addMapping s cb cb with need_mapping := false } = vfr s ∧
      kfB ({ addMapping s cb cb with need_mapping := false }).out =
        kfB s.out :=
  ⟨rfl, rfl, rfl, rfl, rfl⟩

theorem litRecord_false_eq (c : Char) (s : LitSt) :
    litRecord false c s = s := rfl

theorem litRecord_true_eq (c : Char) (s : LitSt) :
    litRecord true c s = litRecordMap c (pushSt s c) := rfl

/-- `litNewline` preserves the mapping invariant regardless of the working
line (the line index strictly increases past every recorded value). -/
theorem litNewline_mapInv' {s : LitSt} (color : Nat)
    (hs : MapSorted s.out.mapping)
    (hb : ∀ e ∈ s.out.mapping, keyLe e.1 (kfB s.out) ∧ valLe e.2 (vfr s))
    (hraw : s.out.raw ≠ []) : MapInvL (litNewline color s) := by
  refine ⟨hs, ?_, ?_, hraw⟩
  · intro e he
    exact ⟨(hb e he).1, vfr_lt_litNewline color s (hb e he).2⟩
  · rw [litNewline_cur]
    simp

/-- Replacing the working line with its `addchar` extension only advances the
frontier. -/
theorem vfr_le_addchar (st : LitSt) (c : Char) (hcur : st.cur ≠ []) :
    valLe (vfr st) (vfr { st with cur := addchar st.cur c }) := by
  have hpos := List.length_pos.mpr hcur
  rcases addchar_cases st.cur c with ⟨hlen, _⟩ | ⟨hlen, hB⟩
  · refine valLe_of_item_lt rfl ?_
    show lastLen st.out.content + st.cur.length - 1 <
      lastLen st.out.content + (addchar st.cur c).length - 1
    rw [hlen]
    omega
  · refine valLe_of_idx_le rfl ?_ ?_
    · show lastLen st.out.content + st.cur.length - 1 =
        lastLen st.out.content + (addchar st.cur c).length - 1
      rw [hlen]
    · show lastStrB st.cur ≤ lastStrB (addchar st.cur c)
      rw [hB]
      omega

theorem amVal_tabFinish_tw (stA : LitSt) :
    amVal (tabFinish stA) TABWIDTH =
      (stA.out.content.length - 1, lastLen stA.out.content + stA.cur.length,
        0) := by
  unfold amVal
  rw [tabFinish_content, tabFinish_cur]
  refine congrArg₂ Prod.mk rfl (congrArg₂ Prod.mk ?_ ?_)
  · rw [List.length_append]
    simp
  · have hg : (tabFinish stA).cur.getLast? = some (Output.str (List.replicate
        (if stA.out.width = 0 ∨ TABWIDTH < stA.out.width then TABWIDTH
          else stA.out.width) ' ')) := by
      rw [tabFinish_cur]
      exact List.getLast?_concat _
    rw [amIdx_eq_of_str TABWIDTH hg, strBytes_replicate_space]
    have := efftabw_le stA.out.width
    omega

theorem amVal_tabFinish_zero (stA : LitSt) :
    amVal (tabFinish stA) 0 =
      (stA.out.content.length - 1, lastLen stA.out.content + stA.cur.length,
        if stA.out.width = 0 ∨ TABWIDTH < stA.out.width then TABWIDTH
          else stA.out.width) := by
  unfold amVal
  rw [tabFinish_content, tabFinish_cur]
  refine congrArg₂ Prod.mk rfl (congrArg₂ Prod.mk ?_ ?_)
  · rw [List.length_append]
    simp
  · have hg : (tabFinish stA).cur.getLast? = some (Output.str (List.replicate
        (if stA.out.width = 0 ∨ TABWIDTH < stA.out.width then TABWIDTH
          else stA.out.width) ' ')) := by
      rw [tabFinish_cur]
      exact List.getLast?_concat _
    rw [amIdx_eq_of_str 0 hg, strBytes_replicate_space]
    omega

/-- The record block of a tab step preserves the mapping invariant. -/
theorem tabFinish_record_mapInv {stA : LitSt} (hA : MapInvL stA) :
    MapInvL (litRecordMap '\t' (pushSt (tabFinish stA) '\t')) := by
  obtain ⟨hs, hb, hcur, hraw⟩ := hA
  have hposA := List.length_pos.mpr hcur
  have htb : charBytes '\t' = 1 := by decide
  have hrawT : (tabFinish stA).out.raw = stA.out.raw := tabFinish_raw' stA
  have hrawTne : (tabFinish stA).out.raw ≠ [] := by rw [hrawT]; exact hraw
  have hcond : (pushSt (tabFinish stA) '\t').need_mapping = true ∧
      0 < (pushSt (tabFinish stA) '\t').cnt := by
    refine ⟨tabFinish_need stA, ?_⟩
    show 0 < (tabFinish stA).cnt
    rw [tabFinish_cnt]
    simp only [TABWIDTH]
    omega
  rw [litRecordMap_of_pos_tab hcond]
  have hK1 : amKey (pushSt (tabFinish stA) '\t') 1 =
      (stA.out.raw.length - 1, strBytes (lastRaw stA.out.raw)) := by
    rw [amKey_pushSt hrawTne, hrawT, htb, Nat.add_sub_cancel]
  have hK2 : amKey (pushSt (tabFinish stA) '\t') 0 =
      (stA.out.raw.length - 1, strBytes (lastRaw stA.out.raw) + 1) := by
    rw [amKey_pushSt hrawTne, hrawT, htb, Nat.sub_zero]
  have hkfB2 : kfB (pushSt (tabFinish stA) '\t').out =
      (stA.out.raw.length - 1, strBytes (lastRaw stA.out.raw) + 1) := by
    rw [kfB_pushSt hrawTne, hrawT, htb]
  have hV1 : amVal (pushSt (tabFinish stA) '\t') TABWIDTH =
      (stA.out.content.length - 1,
        lastLen stA.out.content + stA.cur.length, 0) := by
    rw [amVal_pushSt, amVal_tabFinish_tw]
  have hV2 : amVal (pushSt (tabFinish stA) '\t') 0 =
      (stA.out.content.length - 1, lastLen stA.out.content + stA.cur.length,
        if stA.out.width = 0 ∨ TABWIDTH < stA.out.width then TABWIDTH
          else stA.out.width) := by
    rw [amVal_pushSt, amVal_tabFinish_zero]
  have hvfr1 : vfr (pushSt (tabFinish stA) '\t') =
      (stA.out.content.length - 1, lastLen stA.out.content + stA.cur.length,
        if stA.out.width = 0 ∨ TABWIDTH < stA.out.width then TABWIDTH
          else stA.out.width) := by
    rw [vfr_pushSt, vfr_tabFinish]
  -- first insert
  have hstep1 := @mapInsert_all_bounds stA.out.mapping
    (amKey (pushSt (tabFinish stA) '\t') 1)
    (kfB stA.out)
    (amKey (pushSt (tabFinish stA) '\t') 1)
    (amVal (pushSt (tabFinish stA) '\t') TABWIDTH)
    (vfr stA)
    (amVal (pushSt (tabFinish stA) '\t') TABWIDTH)
    hs (fun e he => (hb e he).1) (fun e he => (hb e he).2)
    (by rw [hK1]; exact keyLe_refl _)
    (by
      rw [hV1]
      refine valLe_of_item_lt rfl ?_
      show lastLen stA.out.content + stA.cur.length - 1 <
        lastLen stA.out.content + stA.cur.length
      omega)
    (keyLe_refl _) (valLe_refl _)
    (by rw [hK1]; exact keyLe_refl _)
    (by
      rw [hV1]
      refine valLe_of_item_lt rfl ?_
      show lastLen stA.out.content + stA.cur.length - 1 <
        lastLen stA.out.content + stA.cur.length
      omega)
  -- second insert
  have hstep2 := @mapInsert_all_bounds
    (mapInsert stA.out.mapping (amKey (pushSt (tabFinish stA) '\t') 1)
      (amVal (pushSt (tabFinish stA) '\t') TABWIDTH))
    (amKey (pushSt (tabFinish stA) '\t') 0)
    (amKey (pushSt (tabFinish stA) '\t') 1)
    (kfB (pushSt (tabFinish stA) '\t').out)
    (amVal (pushSt (tabFinish stA) '\t') 0)
    (amVal (pushSt (tabFinish stA) '\t') TABWIDTH)
    (vfr (pushSt (tabFinish stA) '\t'))
    hstep1.1 (fun e he => (hstep1.2 e he).1) (fun e he => (hstep1.2 e he).2)
    (by
      rw [hK1, hK2, keyLe_mk_mk_iff]
      omega)
    (by
      rw [hV1, hV2, valLe_mk_mk_iff]
      omega)
    (by rw [hK2, hkfB2]; exact keyLe_refl _)
    (by rw [hV2, hvfr1]; exact valLe_refl _)
    (by
      rw [hK1, hkfB2, keyLe_mk_mk_iff]
      omega)
    (by
      rw [hV1, hvfr1, valLe_mk_mk_iff]
      omega)
  obtain ⟨hm, hrw, hcu, hvf, hkf⟩ := tabRecord_fields (pushSt (tabFinish stA) '\t')
  refine ⟨?_, ?_, ?_, ?_⟩
  · rw [hm]
    exact hstep2.1
  · intro e he
    rw [hm] at he
    have := hstep2.2 e he
    rw [hkf, hvf]
    exact this
  · rw [hcu, pushSt_cur, tabFinish_cur]
    simp
  · rw [hrw]
    show pushLastChar (tabFinish stA).out.raw '\t' ≠ []
    exact pushLastChar_ne_nil hrawTne '\t'

/-- The record block of a default-arm step preserves the mapping
invariant. -/
theorem otherFinish_record_mapInv {stA : LitSt} {c : Char} (ht : c ≠ '\t')
    (hA : MapInvL stA) :
    MapInvL (litRecordMap c (pushSt (otherFinish stA c) c)) := by
  obtain ⟨hs, hb, hcur, hraw⟩ := hA
  have hposA := List.length_pos.mpr hcur
  have hrawO : (otherFinish stA c).out.raw = stA.out.raw := otherFinish_raw stA c
  have hrawOne : (otherFinish stA c).out.raw ≠ [] := by rw [hrawO]; exact hraw
  by_cases hcond : (pushSt (otherFinish stA c) c).need_mapping = true ∧
      0 < (pushSt (otherFinish stA c) c).cnt
  · rw [litRecordMap_of_pos_other ht hcond]
    have hK : amKey (pushSt (otherFinish stA c) c) (charBytes c) =
        (stA.out.raw.length - 1, strBytes (lastRaw stA.out.raw)) := by
      rw [amKey_pushSt hrawOne c (charBytes c), hrawO, Nat.add_sub_cancel]
    have hkfB2 : kfB (pushSt (otherFinish stA c) c).out =
        (stA.out.raw.length - 1,
          strBytes (lastRaw stA.out.raw) + charBytes c) := by
      rw [kfB_pushSt hrawOne c, hrawO]
    have hV : amVal (pushSt (otherFinish stA c) c) (charBytes c) =
        (stA.out.content.length - 1,
          lastLen stA.out.content + (addchar stA.cur c).length - 1,
          lastStrB (addchar stA.cur c) -
            min (charBytes c) (lastStrB (addchar stA.cur c))) := by
      rw [amVal_pushSt]
      obtain ⟨s, hgl, hsb⟩ := addchar_getLast_str stA.cur c
      unfold amVal
      refine congrArg₂ Prod.mk rfl (congrArg₂ Prod.mk rfl ?_)
      have hgl' : (otherFinish stA c).cur.getLast? = some (Output.str s) := by
        rw [otherFinish_cur]; exact hgl
      rw [amIdx_eq_of_str (charBytes c) hgl', hsb]
    have hvv : valLe (vfr stA)
        (amVal (pushSt (otherFinish stA c) c) (charBytes c)) := by
      rw [hV]
      rcases addchar_cases stA.cur c with ⟨hlen, _⟩ | ⟨hlen, hB⟩
      · refine valLe_of_item_lt rfl ?_
        show lastLen stA.out.content + stA.cur.length - 1 <
          lastLen stA.out.content + (addchar stA.cur c).length - 1
        rw [hlen]
        omega
      · refine valLe_of_idx_le rfl ?_ ?_
        · show lastLen stA.out.content + stA.cur.length - 1 =
            lastLen stA.out.content + (addchar stA.cur c).length - 1
          rw [hlen]
        · show lastStrB stA.cur ≤ lastStrB (addchar stA.cur c) -
            min (charBytes c) (lastStrB (addchar stA.cur c))
          rw [hB]
          omega
    have hvV : valLe (amVal (pushSt (otherFinish stA c) c) (charBytes c))
        (vfr (pushSt (otherFinish stA c) c)) := by
      rw [hV]
      refine valLe_of_idx_le rfl rfl ?_
      show lastStrB (addchar stA.cur c) -
          min (charBytes c) (lastStrB (addchar stA.cur c)) ≤
        lastStrB (addchar stA.cur c)
      omega
    have hstep := @mapInsert_all_bounds stA.out.mapping
      (amKey (pushSt (otherFinish stA c) c) (charBytes c))
      (kfB stA.out)
      (kfB (pushSt (otherFinish stA c) c).out)
      (amVal (pushSt (otherFinish stA c) c) (charBytes c))
      (vfr stA)
      (vfr (pushSt (otherFinish stA c) c))
      hs (fun e he => (hb e he).1) (fun e he => (hb e he).2)
      (by rw [hK]; exact keyLe_refl _)
      hvv
      (by rw [hK, hkfB2, keyLe_mk_mk_iff]; omega)
      hvV
      (by
        rw [hkfB2]
        show keyLe (stA.out.raw.length - 1, strBytes (lastRaw stA.out.raw))
          (stA.out.raw.length - 1,
            strBytes (lastRaw stA.out.raw) + charBytes c)
        rw [keyLe_mk_mk_iff]
        omega)
      (valLe_trans hvv hvV)
    obtain ⟨hm, hrw, hcu, hvf, hkf⟩ :=
      otherRecord_fields (pushSt (otherFinish stA c) c) (charBytes c)
    refine ⟨?_, ?_, ?_, ?_⟩
    · rw [hm]
      exact hstep.1
    · intro e he
      rw [hm] at he
      have h2 := hstep.2 e he
      rw [hkf, hvf]
      exact h2
    · rw [hcu]
      show addchar stA.cur c ≠ []
      exact addchar_ne_nil _ c
    · rw [hrw]
      show pushLastChar (otherFinish stA c).out.raw c ≠ []
      exact pushLastChar_ne_nil hrawOne c
  · rw [litRecordMap_of_neg hcond]
    refine ⟨hs, ?_, ?_, ?_⟩
    · intro e he
      refine ⟨?_, ?_⟩
      · rw [kfB_pushSt hrawOne c, hrawO]
        refine keyLe_trans (hb e he).1 ?_
        show keyLe (stA.out.raw.length - 1, strBytes (lastRaw stA.out.raw))
          (stA.out.raw.length - 1,
            strBytes (lastRaw stA.out.raw) + charBytes c)
        rw [keyLe_mk_mk_iff]
        omega
      · rw [vfr_pushSt]
        exact valLe_trans (hb e he).2 (vfr_le_addchar stA c hcur)
    · show addchar stA.cur c ≠ []
      exact addchar_ne_nil _ c
    · show pushLastChar (otherFinish stA c).out.raw c ≠ []
      exact pushLastChar_ne_nil hrawOne c

/-- `MapInvL` is preserved by one full character step of the Literal loop. -/
theorem litChar_mapInv (color : Nat) (rcd : Bool) {st : LitSt} (c : Char)
    (h : MapInvL st) : MapInvL (litChar color rcd st c) := by
  cases rcd with
  | false =>
      show MapInvL (litRecord false c (litLayout color st c))
      rw [litRecord_false_eq]
      exact litLayout_mapInv color c h
  | true =>
      show MapInvL (litRecord true c (litLayout color st c))
      rw [litRecord_true_eq]
      by_cases hn : c = '\n'
      · subst hn
        rw [litLayout_newline_eq]
        obtain ⟨hsort, hbnd, hcur, hraw⟩ := h
        have hcnt : ¬((pushSt (litNewline color
              { st with cur := addchar st.cur ' ' }) '\n').need_mapping = true ∧
            0 < (pushSt (litNewline color
              { st with cur := addchar st.cur ' ' }) '\n').cnt) := by
          rintro ⟨-, hpos⟩
          have : (0 : Nat) < 0 := hpos
          omega
        rw [litRecordMap_of_neg hcnt]
        refine mapInv_push_raw '\n' (litNewline_mapInv' color hsort ?_ hraw)
        intro e he
        exact ⟨(hbnd e he).1,
          valLe_trans (hbnd e he).2 (vfr_le_addchar st ' ' hcur)⟩
      · by_cases ht : c = '\t'
        · subst ht
          rw [litLayout_tab_eq]
          unfold litTab
          by_cases hbr : 0 < st.out.width ∧ st.out.width ≤ st.cnt + TABWIDTH
          · rw [if_pos hbr]
            exact tabFinish_record_mapInv
              (litNewline_mapInv' color h.1 h.2.1 h.2.2.2)
          · rw [if_neg hbr]
            exact tabFinish_record_mapInv h
        · rw [litLayout_other_eq color st c hn ht]
          unfold litOther
          by_cases hbr : 0 < st.out.width ∧ st.out.width < st.cnt + charWidth c
          · rw [if_pos hbr]
            exact otherFinish_record_mapInv ht
              (litNewline_mapInv' color h.1 h.2.1 h.2.2.2)
          · rw [if_neg hbr]
            exact otherFinish_record_mapInv ht h

theorem foldl_litChar_mapInv (color : Nat) (rcd : Bool) :
    ∀ (cs : List Char) (st : LitSt), MapInvL st →
      MapInvL (cs.foldl (litChar color rcd) st)
  | [], _, h => h
  | c :: cs, st, h =>
      foldl_litChar_mapInv color rcd cs _ (litChar_mapInv color rcd c h)

theorem strBytes_append (a b : List Char) :
    strBytes (a ++ b) = strBytes a + strBytes b := by
  simp [strBytes]

theorem lastRaw_concat (l : List (List Char)) (x : List Char) :
    lastRaw (l ++ [x]) = x := getLastD_concat' l x []

/-- The key shift of the NoBreak merge never falls below the merge point. -/
theorem nbKey_ge (rs k : Nat × Nat) : keyLe rs (nbKey rs k) := by
  obtain ⟨r1, r2⟩ := rs
  obtain ⟨k1, k2⟩ := k
  unfold nbKey keyLe
  by_cases h0 : k1 = 0 <;> simp [h0] <;> omega

/-- The key shift of the NoBreak merge is monotone. -/
theorem nbKey_mono (rs : Nat × Nat) {k k' : Nat × Nat} (h : keyLt k k') :
    keyLe (nbKey rs k) (nbKey rs k') := by
  obtain ⟨r1, r2⟩ := rs
  obtain ⟨k1, k2⟩ := k
  obtain ⟨k1', k2'⟩ := k'
  unfold keyLt at h
  unfold nbKey keyLe
  simp only at h ⊢
  by_cases h0 : k1 = 0 <;> by_cases h0' : k1' = 0 <;> simp [h0, h0'] <;> omega

/-- The value shift of the NoBreak merge is monotone. -/
theorem nbVal_mono (vs : Nat × Nat × Nat) {v v' : Nat × Nat × Nat}
    (h : valLe v v') : valLe (nbVal vs v) (nbVal vs v') := by
  obtain ⟨s1, s2, s3⟩ := vs
  obtain ⟨v1, v2, v3⟩ := v
  obtain ⟨v1', v2', v3'⟩ := v'
  unfold valLe at h
  unfold nbVal valLe
  simp only at h ⊢
  by_cases h0 : v1 = 0 <;> by_cases h0' : v1' = 0 <;> simp [h0, h0'] <;> omega

/-- Folding insert-or-replace over an ascending key/value list whose every
entry dominates the accumulator preserves sortedness; the result's entries
come from the accumulator or the list. -/
theorem foldl_mapInsert_inv :
    ∀ (l acc : List ((Nat × Nat) × (Nat × Nat × Nat))),
      MapSorted acc →
      (∀ e ∈ acc, ∀ kv ∈ l, keyLe e.1 kv.1 ∧ valLe e.2 kv.2) →
      List.Pairwise (fun a b => keyLe a.1 b.1 ∧ valLe a.2 b.2) l →
      MapSorted (l.foldl (fun m kv => mapInsert m kv.1 kv.2) acc) ∧
        ∀ e ∈ l.foldl (fun m kv => mapInsert m kv.1 kv.2) acc,
          e ∈ acc ∨ e ∈ l
  | [], acc, hs, _, _ => ⟨hs, fun _ he => Or.inl he⟩
  | kv :: rest, acc, hs, hb, hp => by
      rw [List.foldl_cons]
      have hins := mapInsert_spec acc kv.1 kv.2 hs
        (fun e he => hb e he kv (List.mem_cons_self _ _))
      have hp' := List.pairwise_cons.mp hp
      have IH := foldl_mapInsert_inv rest (mapInsert acc kv.1 kv.2) hins.1
        (fun e he kv' hkv' => by
          rcases hins.2 e he with h' | h'
          · exact hb e h' kv' (List.mem_cons_of_mem _ hkv')
          · rw [h']
            exact hp'.1 kv' hkv')
        hp'.2
      refine ⟨IH.1, ?_⟩
      intro e he
      rcases IH.2 e he with h' | h'
      · rcases hins.2 e h' with h'' | h''
        · exact Or.inl h''
        · refine Or.inr ?_
          rw [h'']
          exact List.mem_cons_self _ _
      · exact Or.inr (List.mem_cons_of_mem _ h')

theorem nbMerge_eq_foldl_map (rs : Nat × Nat) (vs : Nat × Nat × Nat)
    (subm acc : List ((Nat × Nat) × (Nat × Nat × Nat))) :
    nbMerge rs vs subm acc =
      (subm.map (fun kv => (nbKey rs kv.1, nbVal vs kv.2))).foldl
        (fun m kv => mapInsert m kv.1 kv.2) acc := by
  unfold nbMerge
  rw [List.foldl_map]

/-- The NoBreak mapping merge preserves sortedness when every accumulator
entry is dominated by every shifted sub entry; the result's entries come
from the accumulator or are shifted sub entries. -/
theorem nbMerge_spec (rs : Nat × Nat) (vs : Nat × Nat × Nat)
    {subm acc : List ((Nat × Nat) × (Nat × Nat × Nat))}
    (hsa : MapSorted acc) (hss : MapSorted subm)
    (hbav : ∀ e ∈ acc, ∀ kv ∈ subm,
      keyLe e.1 (nbKey rs kv.1) ∧ valLe e.2 (nbVal vs kv.2)) :
    MapSorted (nbMerge rs vs subm acc) ∧
      ∀ e ∈ nbMerge rs vs subm acc,
        e ∈ acc ∨ ∃ kv ∈ subm, e = (nbKey rs kv.1, nbVal vs kv.2) := by
  rw [nbMerge_eq_foldl_map]
  have hfold := foldl_mapInsert_inv
    (subm.map (fun kv => (nbKey rs kv.1, nbVal vs kv.2))) acc hsa
    (fun e he kv' hkv' => by
      obtain ⟨kv, hkv, hkv'eq⟩ := List.mem_map.mp hkv'
      rw [← hkv'eq]
      exact hbav e he kv hkv)
    (List.pairwise_map.mpr (hss.imp (fun h => ⟨nbKey_mono rs h.1, nbVal_mono vs h.2⟩)))
  refine ⟨hfold.1, ?_⟩
  intro e he
  rcases hfold.2 e he with h' | h'
  · exact Or.inl h'
  · obtain ⟨kv, hkv, hkveq⟩ := List.mem_map.mp h'
    exact Or.inr ⟨kv, hkv, hkveq.symm⟩

theorem strappend_single {t : List (List Char)} (ht : t ≠ [])
    (c : List Char) : strappend t [c] = t.dropLast ++ [lastRaw t ++ c] := by
  cases t with
  | nil => exact absurd rfl ht
  | cons x xs => simp [strappend, lastRaw]

theorem strappend_cons₂ {t : List (List Char)} (ht : t ≠ [])
    (c d : List Char) (cs : List (List Char)) :
    strappend t (c :: d :: cs) =
      t.dropLast ++ [lastRaw t ++ c] ++ (d :: cs) := by
  cases t with
  | nil => exact absurd rfl ht
  | cons x xs => rfl

theorem strappend_ne_nil {t : List (List Char)} (ht : t ≠ [])
    (s : List (List Char)) : strappend t s ≠ [] := by
  cases s with
  | nil => exact ht
  | cons c cs =>
      cases t with
      | nil => exact absurd rfl ht
      | cons x xs => simp [strappend]

/-- The pre-merge raw frontier is at or below the merged raw frontier. -/
theorem kfB_strappend_old {t s : List (List Char)} (ht : t ≠ [])
    (hs : s ≠ []) :
    keyLe (t.length - 1, strBytes (lastRaw t))
      ((strappend t s).length - 1, strBytes (lastRaw (strappend t s))) := by
  have hpt := List.length_pos.mpr ht
  match s with
  | [c] =>
      rw [strappend_single ht c, List.length_append, List.length_dropLast,
        lastRaw_concat, strBytes_append, keyLe_mk_mk_iff]
      simp only [List.length_singleton]
      omega
  | c :: d :: cs =>
      rw [strappend_cons₂ ht c d cs]
      rw [List.append_assoc, List.length_append, List.length_dropLast,
        keyLe_mk_mk_iff]
      simp only [List.length_append, List.length_cons, List.length_singleton]
      omega

/-- A shifted sub key below the sub's raw frontier lands at or below the
merged raw frontier. -/
theorem kfB_strappend_new {t s : List (List Char)} (ht : t ≠ [])
    (hs : s ≠ []) {k : Nat × Nat}
    (hk : keyLe k (s.length - 1, strBytes (lastRaw s))) :
    keyLe (nbKey (t.length - 1, strBytes (lastRaw t)) k)
      ((strappend t s).length - 1, strBytes (lastRaw (strappend t s))) := by
  have hpt := List.length_pos.mpr ht
  obtain ⟨k1, k2⟩ := k
  match s with
  | [c] =>
      rw [keyLe_mk_mk_iff] at hk
      simp only [List.length_singleton] at hk
      have hk1 : k1 = 0 := by omega
      subst hk1
      rw [strappend_single ht c, List.length_append, List.length_dropLast,
        lastRaw_concat, strBytes_append]
      show keyLe (0 + (t.length - 1), k2 + strBytes (lastRaw t)) _
      rw [keyLe_mk_mk_iff]
      have hlast : lastRaw [c] = c := rfl
      rw [hlast] at hk
      simp only [List.length_singleton]
      omega
  | c :: d :: cs =>
      rw [keyLe_mk_mk_iff] at hk
      rw [strappend_cons₂ ht c d cs, List.append_assoc]
      have hlr : lastRaw (t.dropLast ++ ([lastRaw t ++ c] ++ (d :: cs))) =
          lastRaw (c :: d :: cs) := by
        show (t.dropLast ++ ([lastRaw t ++ c] ++ (d :: cs))).getLastD [] =
          (c :: d :: cs).getLastD []
        rw [List.getLastD_eq_getLast?, List.getLastD_eq_getLast?,
          List.getLast?_append, List.getLast?_append,
          List.getLast?_cons_cons]
        cases hg : (d :: cs).getLast? with
        | none => exact absurd (List.getLast?_eq_none_iff.mp hg) (by simp)
        | some y => simp
      rw [hlr, List.length_append, List.length_dropLast]
      simp only [List.length_cons, List.length_append, List.length_singleton]
        at hk ⊢
      unfold nbKey keyLe
      simp only
      by_cases h0 : k1 = 0 <;> simp [h0] <;> omega

/-- The `valstart` computed in the NoBreak arm equals the line/segment
frontier of the current output with a zero byte offset. -/
theorem nb_valstart_eq (output : Preformatted) :
    nbValstart output = ((vbO output).1, (vbO output).2, (0 : Nat)) := by
  unfold nbValstart
  cases hg : output.content.getLast? with
  | none =>
      have hnil : output.content = [] := List.getLast?_eq_none_iff.mp hg
      unfold vbO lastLen
      rw [hnil]
      rfl
  | some outlast =>
      show (output.content.length - 1, outlast.length, (0 : Nat)) =
        (output.content.length - 1, lastLen output.content, 0)
      unfold lastLen
      rw [List.getLastD_eq_getLast?, hg]
      rfl

/-- Entering the Literal loop converts the between-commands invariant into
the loop invariant. -/
theorem litEnter (output : Preformatted) (color sc : Nat)
    (h : MapInvO output) :
    MapInvL ⟨output, [Output.fg color], sc, true⟩ := by
  obtain ⟨hsort, hbnd, hraw⟩ := h
  refine ⟨hsort, ?_, by simp, hraw⟩
  intro e he
  refine ⟨(hbnd e he).1, ?_⟩
  refine valLe_of_pairLt_bound (hbnd e he).2 _ ?_ ?_
  · show output.content.length - 1 ≤ output.content.length - 1
    omega
  · intro _
    show lastLen output.content ≤ lastLen output.content + 1 - 1
    omega

/-- Leaving the Literal loop (committing the working line) restores the
between-commands invariant. -/
theorem litExit {fin : LitSt} (h : MapInvL fin) :
    MapInvO { fin.out with
      content := appendContent fin.out.content [fin.cur] } := by
  obtain ⟨hsort, hbnd, hcur, hraw⟩ := h
  have hpos := List.length_pos.mpr hcur
  refine ⟨hsort, ?_, hraw⟩
  intro e he
  refine ⟨(hbnd e he).1, ?_⟩
  have hval := (hbnd e he).2
  show keyLt (e.2.1, e.2.2.1)
    ((appendContent fin.out.content [fin.cur]).length - 1,
      lastLen (appendContent fin.out.content [fin.cur]))
  rw [appendContent_single]
  have h1 : (fin.out.content.dropLast ++
      [lastLine fin.out.content ++ fin.cur]).length =
      fin.out.content.length - 1 + 1 := by
    rw [List.length_append, List.length_dropLast, List.length_singleton]
  have h2 : lastLen (fin.out.content.dropLast ++
      [lastLine fin.out.content ++ fin.cur]) =
      lastLen fin.out.content + fin.cur.length := by
    unfold lastLen
    rw [getLastD_concat', List.length_append]
    rfl
  rw [h1, h2]
  unfold vfr valLe at hval
  unfold keyLt
  simp only at hval ⊢
  omega

/-- Pushing a fresh empty raw chunk (Exclude entry) preserves the
between-commands invariant. -/
theorem mapInvO_pushChunk {output : Preformatted} (h : MapInvO output) :
    MapInvO { output with raw := output.raw ++ [[]] } := by
  obtain ⟨hsort, hbnd, hraw⟩ := h
  have hpos := List.length_pos.mpr hraw
  have hk : keyLe (output.raw.length - 1, strBytes (lastRaw output.raw))
      ((output.raw ++ [[]]).length - 1,
        strBytes (lastRaw (output.raw ++ [[]]))) := by
    rw [List.length_append, List.length_singleton, keyLe_mk_mk_iff]
    omega
  refine ⟨hsort, ?_, by simp⟩
  intro e he
  exact ⟨keyLe_trans (hbnd e he).1 hk, (hbnd e he).2⟩

/-- The between-commands invariant holds for a fresh `Preformatted`. -/
theorem mapInvO_new (w : Nat) : MapInvO (Preformatted.new w) := by
  refine ⟨List.Pairwise.nil, ?_, by simp [Preformatted.new]⟩
  intro e he
  cases he

/-- The final output of a fitting (inline) single-line NoBreak merge. -/
def nbOutInline (output sub : Preformatted) : Preformatted :=
  { width := output.width,
    content := appendContent output.content sub.content,
    raw := strappend output.raw sub.raw,
    mapping := nbMerge (kfB output) (nbValstart output) sub.mapping
      output.mapping }

/-- The final output of a non-fitting (fresh-line) single-line NoBreak
merge. -/
def nbOutNewline (output sub : Preformatted) : Preformatted :=
  { width := output.width,
    content := output.content ++ sub.content,
    raw := strappend output.raw sub.raw,
    mapping := nbMerge (kfB output) (nbValstart output) sub.mapping
      output.mapping }

/-- Merging a single-line NoBreak sub-layout preserves the between-commands
invariant, whether the line is glued inline (first conjunct) or placed on a
fresh line (second conjunct). -/
theorem noBreak_merge_invO {output sub : Preformatted} {line : List Output}
    (hout : MapInvO output) (hsub : MapInvO sub)
    (hline : sub.content = [line]) :
    MapInvO (nbOutInline output sub) ∧ MapInvO (nbOutNewline output sub) := by
  unfold nbOutInline nbOutNewline
  rw [nb_valstart_eq]
  obtain ⟨hso, hbo, hro⟩ := hout
  obtain ⟨hss, hbs, hrs⟩ := hsub
  have hpo := List.length_pos.mpr hro
  have hvbs : vbO sub = (0, line.length) := by
    unfold vbO lastLen
    rw [hline]
    rfl
  have hmerge := nbMerge_spec (kfB output)
    ((vbO output).1, (vbO output).2, 0) hso hss
    (fun e he kv hkv => by
      refine ⟨keyLe_trans (hbo e he).1 (nbKey_ge _ _), ?_⟩
      refine valLe_of_pairLt_bound (hbo e he).2 _ ?_ ?_
      · show (vbO output).1 ≤ kv.2.1 + (vbO output).1
        omega
      · intro heq
        have hv1 : kv.2.1 = 0 := by
          have h' : (vbO output).1 = kv.2.1 + (vbO output).1 := heq
          omega
        show (vbO output).2 ≤
          if kv.2.1 = 0 then kv.2.2.1 + (vbO output).2 else kv.2.2.1
        rw [if_pos hv1]
        omega)
  have hkeys : ∀ e ∈ nbMerge (kfB output) ((vbO output).1, (vbO output).2, 0)
      sub.mapping output.mapping,
      keyLe e.1 ((strappend output.raw sub.raw).length - 1,
        strBytes (lastRaw (strappend output.raw sub.raw))) := by
    intro e he
    rcases hmerge.2 e he with h' | ⟨kv, hkv, heq⟩
    · exact keyLe_trans (hbo e h').1 (kfB_strappend_old hro hrs)
    · rw [heq]
      exact kfB_strappend_new hro hrs (hbs kv hkv).1
  have hvals : ∀ e ∈ nbMerge (kfB output) ((vbO output).1, (vbO output).2, 0)
      sub.mapping output.mapping,
      (e.2.1 < output.content.length - 1 ∨
        (e.2.1 = output.content.length - 1 ∧
          e.2.2.1 < lastLen output.content)) ∨
      (e.2.1 = output.content.length - 1 ∧
        e.2.2.1 < lastLen output.content + line.length) := by
    intro e he
    rcases hmerge.2 e he with h' | ⟨kv, hkv, heq⟩
    · left
      have hq := (hbo e h').2
      unfold keyLt vbO at hq
      simp only at hq
      exact hq
    · right
      have hkv2 := (hbs kv hkv).2
      rw [hvbs] at hkv2
      unfold keyLt at hkv2
      simp only at hkv2
      have hv1 : kv.2.1 = 0 := by omega
      have hv2 : kv.2.2.1 < line.length := by omega
      rw [heq]
      unfold nbVal vbO
      simp only
      rw [if_pos hv1]
      omega
  have hvalsIn : ∀ e ∈ nbMerge (kfB output)
      ((vbO output).1, (vbO output).2, 0) sub.mapping output.mapping,
      keyLt (e.2.1, e.2.2.1)
        ((appendContent output.content sub.content).length - 1,
          lastLen (appendContent output.content sub.content)) := by
    rw [hline]
    intro e he
    rw [appendContent_single]
    have hlen : (output.content.dropLast ++
        [lastLine output.content ++ line]).length =
        output.content.length - 1 + 1 := by
      rw [List.length_append, List.length_dropLast, List.length_singleton]
    have hll : lastLen (output.content.dropLast ++
        [lastLine output.content ++ line]) =
        lastLen output.content + line.length := by
      unfold lastLen
      rw [getLastD_concat', List.length_append]
      rfl
    rw [hlen, hll]
    unfold keyLt
    simp only
    have hx := hvals e he
    omega
  have hvalsNew : ∀ e ∈ nbMerge (kfB output)
      ((vbO output).1, (vbO output).2, 0) sub.mapping output.mapping,
      keyLt (e.2.1, e.2.2.1)
        ((output.content ++ sub.content).length - 1,
          lastLen (output.content ++ sub.content)) := by
    rw [hline]
    intro e he
    have hlen : (output.content ++ [line]).length =
        output.content.length + 1 := by
      rw [List.length_append, List.length_singleton]
    have hll : lastLen (output.content ++ [line]) = line.length := by
      unfold lastLen
      rw [getLastD_concat']
    rw [hlen, hll]
    unfold keyLt
    simp only
    have hx := hvals e he
    by_cases hL : output.content.length = 0
    · have hl0 : lastLen output.content = 0 := by
        rw [List.length_eq_zero.mp hL]
        rfl
      rw [hL] at hx
      rw [hl0] at hx
      rw [hL]
      omega
    · omega
  exact ⟨⟨hmerge.1, fun e he => ⟨hkeys e he, hvalsIn e he⟩,
      strappend_ne_nil hro sub.raw⟩,
    ⟨hmerge.1, fun e he => ⟨hkeys e he, hvalsNew e he⟩,
      strappend_ne_nil hro sub.raw⟩⟩

mutual

/-- `internal_format` preserves the between-commands mapping invariant. -/
theorem internal_format_mapInv :
    ∀ (f : FmtCmd) (out : Preformatted) (sc col co : Nat) (rcd : Bool)
      (out' : Preformatted) (n' : Nat),
      internal_format out f sc col co rcd = some (out', n') →
      MapInvO out → MapInvO out'
  | .literal v, out, sc, col, co, rcd, out', n', h, hm => by
      simp only [internal_format] at h
      rw [Option.some.injEq, Prod.mk.injEq] at h
      obtain ⟨ho, _⟩ := h
      subst ho
      exact litExit (foldl_litChar_mapInv col rcd v _ (litEnter out col sc hm))
  | .container cs, out, sc, col, co, rcd, out', n', h, hm => by
      simp only [internal_format] at h
      exact internal_format_list_mapInv cs out sc col co rcd out' n' h hm
  | .color nc child, out, sc, col, co, rcd, out', n', h, hm => by
      simp only [internal_format] at h
      exact internal_format_mapInv child out sc (nc + co) co rcd out' n' h hm
  | .rawColor nc child, out, sc, col, co, rcd, out', n', h, hm => by
      simp only [internal_format] at h
      exact internal_format_mapInv child out sc nc co rcd out' n' h hm
  | .noBreak child, out, sc, col, co, rcd, out', n', h, hm => by
      simp only [internal_format] at h
      split at h
      · cases h
      · next sub sublen hsubeq =>
          have hsub : MapInvO sub :=
            internal_format_mapInv child (Preformatted.new 0) 0 col co rcd sub
              sublen hsubeq (mapInvO_new 0)
          by_cases h0 : sub.content.length = 0
          · rw [if_pos h0, Option.some.injEq, Prod.mk.injEq] at h
            obtain ⟨ho, _⟩ := h
            subst ho
            exact hm
          · rw [if_neg h0] at h
            by_cases h1 : sub.content.length = 1
            · rw [if_pos h1] at h
              obtain ⟨line, hline⟩ := List.length_eq_one.mp h1
              have hml := noBreak_merge_invO hm hsub hline
              by_cases hfit : out.width = 0 ∨ sublen ≤ out.width - sc
              · rw [if_pos hfit, Option.some.injEq, Prod.mk.injEq] at h
                obtain ⟨ho, _⟩ := h
                subst ho
                exact hml.1
              · rw [if_neg hfit] at h
                by_cases hlt : sublen < out.width
                · rw [if_pos hlt, Option.some.injEq, Prod.mk.injEq] at h
                  obtain ⟨ho, _⟩ := h
                  subst ho
                  exact hml.2
                · rw [if_neg hlt] at h
                  cases h
            · rw [if_neg h1] at h
              cases h
  | .exclude r child, out, sc, col, co, rcd, out', n', h, hm => by
      simp only [internal_format] at h
      by_cases hx : r.has .search ∧ out.raw.getLast? ≠ some ([] : List Char)
      · rw [if_pos hx] at h
        exact internal_format_mapInv child _ sc col co _ out' n' h
          (mapInvO_pushChunk hm)
      · rw [if_neg hx] at h
        exact internal_format_mapInv child out sc col co _ out' n' h hm

theorem internal_format_list_mapInv :
    ∀ (cs : List FmtCmd) (out : Preformatted) (sc col co : Nat) (rcd : Bool)
      (out' : Preformatted) (n' : Nat),
      internal_format_list out cs sc col co rcd = some (out', n') →
      MapInvO out → MapInvO out'
  | [], out, sc, col, co, rcd, out', n', h, hm => by
      simp only [internal_format_list] at h
      rw [Option.some.injEq, Prod.mk.injEq] at h
      obtain ⟨ho, _⟩ := h
      subst ho
      exact hm
  | c :: cs, out, sc, col, co, rcd, out', n', h, hm => by
      simp only [internal_format_list] at h
      split at h
      · cases h
      · next mid colmid hc =>
          exact internal_format_list_mapInv cs mid colmid col co rcd out' n' h
            (internal_format_mapInv c out sc col co rcd mid colmid hc hm)

end

/-- In a sorted mapping, any two entries with lexicographically ordered keys
have their values ordered the same way. -/
theorem mapSorted_mono {m : List ((Nat × Nat) × (Nat × Nat × Nat))}
    (hs : MapSorted m) :
    ∀ e₁ ∈ m, ∀ e₂ ∈ m, keyLe e₁.1 e₂.1 → valLe e₁.2 e₂.2 := by
  induction m with
  | nil =>
      intro e₁ h
      cases h
  | cons x xs ih =>
      have hp := List.pairwise_cons.mp hs
      intro e₁ h₁ e₂ h₂ hk
      rcases List.mem_cons.mp h₁ with rfl | h₁' <;>
        rcases List.mem_cons.mp h₂ with rfl | h₂'
      · exact valLe_refl _
      · exact (hp.1 e₂ h₂').2
      · exfalso
        have hlt := (hp.1 e₁ h₁').1
        unfold keyLt at hlt
        unfold keyLe at hk
        omega
      · exact ih hp.2 e₁ h₁' e₂ h₂' hk

/-- C8: the raw-to-screen mapping of every `Preformatted` produced by
`format` is monotone: for any two mapping entries whose keys
(chunk index, byte offset) are lexicographically ordered, the corresponding
values (line, segment, byte offset) are lexicographically ordered the same
way. -/
theorem format_mapping_monotone (f : FmtCmd) (W co : Nat) (p : Preformatted)
    (h : FmtCmd.format f W co = some p)
    (e₁ e₂ : (Nat × Nat) × (Nat × Nat × Nat))
    (h₁ : e₁ ∈ p.mapping) (h₂ : e₂ ∈ p.mapping) (hk : keyLe e₁.1 e₂.1) :
    valLe e₁.2 e₂.2 := by
  obtain ⟨ret, n, hi, hp⟩ := format_eq_some h
  have hinv : MapInvO ret :=
    internal_format_mapInv f (Preformatted.new W) 0 0 co true ret n hi
      (mapInvO_new W)
  have hmap : p.mapping = ret.mapping := by
    rw [hp, formatNormalize_mapping]
  rw [hmap] at h₁ h₂
  exact mapSorted_mono hinv.1 e₁ h₁ e₂ h₂ hk

/-- Witness for C8 at `Literal "\tx"`, width 6: the two tab entries
`(0,0) ↦ (0,1,0)` and `(0,1) ↦ (0,1,4)` are ordered. -/
theorem format_mapping_monotone_witness :
    FmtCmd.format (.literal ['\t', 'x']) 6 0 = some
        ⟨6, [[Output.fg 0, Output.str [' ', ' ', ' ', ' ', 'x']]],
          [['\t', 'x']], [((0, 0), 0, 1, 0), ((0, 1), 0, 1, 4)]⟩ ∧
      valLe ((0 : Nat), (1 : Nat), (0 : Nat)) ((0 : Nat), (1 : Nat), (4 : Nat)) :=
  ⟨by decide, format_mapping_monotone (.literal ['\t', 'x']) 6 0
    ⟨6, [[Output.fg 0, Output.str [' ', ' ', ' ', ' ', 'x']]],
      [['\t', 'x']], [((0, 0), 0, 1, 0), ((0, 1), 0, 1, 4)]⟩
    (by decide) (((0, 0), 0, 1, 0)) (((0, 1), 0, 1, 4))
    (by decide) (by decide) (by decide)⟩

/-! ## Position stepping (`Pos::fwd`, `src/tb/src/display/pos.rs`)

The visible document is modelled as the list of per-node line counts in
document order.  `Node::next` skips nodes with zero lines
(`traverse_unhidden`), so every entry of the modelled document is positive;
a `Pos` is a node index plus a line within that node, with `node = none`
standing for the nil/dangling `Weak`. -/

structure PosL where
  node : Option Nat
  line : Nat
deriving DecidableEq, Repr

def PosL.nil : PosL := ⟨none, 0⟩

/-- The loop of `Pos::fwd`, with the iteration count made explicit as fuel
(the loop advances the node index every iteration, so `doc.length` steps
always suffice). -/
def fwdLoop (doc : List Nat) (safe : Bool) : Nat → Nat → Nat → Nat → PosL
  | 0, _, _, _ => PosL.nil
  | fuel + 1, i, line, remain =>
      if i < doc.length then
        if remain < doc.getD i 0 - line then ⟨some i, line + remain⟩
        else if i + 1 < doc.length then
          fwdLoop doc safe fuel (i + 1) 0 (remain - (doc.getD i 0 - line))
        else if safe then ⟨some i, max (doc.getD i 0) 1 - 1⟩
        else PosL.nil
      else PosL.nil

/-- `Pos::fwd`. -/
def PosL.fwd (doc : List Nat) (p : PosL) (n : Nat) (safe : Bool) : PosL :=
  match p.node with
  | none => PosL.nil
  | some i => fwdLoop doc safe doc.length i p.line n

/-- Absolute screen line of a position: total lines of all earlier nodes
plus the line within the node. -/
def absPos (doc : List Nat) (i line : Nat) : Nat := (doc.take i).sum + line

theorem sum_take_succ (doc : List Nat) :
    ∀ i : Nat, i < doc.length →
      (doc.take (i + 1)).sum = (doc.take i).sum + doc.getD i 0 := by
  induction doc with
  | nil =>
      intro i h
      cases h
  | cons x xs ih =>
      intro i h
      cases i with
      | zero => simp
      | succ i' =>
          simp only [List.take_succ_cons, List.sum_cons, List.getD_cons_succ]
          rw [ih i' (by simpa using h)]
          omega

theorem sum_take_getD_le (doc : List Nat) (i : Nat) (h : i < doc.length) :
    (doc.take i).sum + doc.getD i 0 ≤ doc.sum := by
  rw [← sum_take_succ doc i h]
  conv_rhs => rw [← List.take_append_drop (i + 1) doc]
  rw [List.sum_append]
  exact Nat.le_add_right _ _

theorem sum_eq_take_last (doc : List Nat) (i : Nat) (hi : i < doc.length)
    (hlast : ¬ i + 1 < doc.length) :
    doc.sum = (doc.take i).sum + doc.getD i 0 := by
  rw [← sum_take_succ doc i hi, List.take_of_length_le (by omega)]

theorem getD_pos {doc : List Nat} (hpos : ∀ x ∈ doc, 0 < x) {i : Nat}
    (hi : i < doc.length) : 0 < doc.getD i 0 := by
  rw [List.getD_eq_getElem doc 0 hi]
  exact hpos _ (List.getElem_mem hi)

theorem sum_take_mono (doc : List Nat) {a b : Nat} (h : a ≤ b) :
    (doc.take a).sum ≤ (doc.take b).sum := by
  rw [show b = a + (b - a) by omega, List.take_add, List.sum_append]
  exact Nat.le_add_right _ _

/-- `absPos` is strictly monotone from a valid position to any position on a
later node. -/
theorem absPos_lt_of_node_lt {doc : List Nat} {i l j m : Nat}
    (hi : i < doc.length) (hl : l < doc.getD i 0) (hij : i < j) :
    absPos doc i l < absPos doc j m := by
  have h1 : (doc.take i).sum + l < (doc.take (i + 1)).sum := by
    rw [sum_take_succ doc i hi]
    omega
  have h2 : (doc.take (i + 1)).sum ≤ (doc.take j).sum :=
    sum_take_mono doc (by omega)
  unfold absPos
  omega

/-- `absPos` is injective on valid positions. -/
theorem absPos_inj {doc : List Nat} {i l j m : Nat}
    (hi : i < doc.length) (hl : l < doc.getD i 0)
    (hj : j < doc.length) (hm : m < doc.getD j 0)
    (h : absPos doc i l = absPos doc j m) : i = j ∧ l = m := by
  rcases lt_trichotomy i j with hij | hij | hij
  · exact absurd h (Nat.ne_of_lt (absPos_lt_of_node_lt hi hl hij))
  · subst hij
    unfold absPos at h
    omega
  · exact absurd h.symm (Nat.ne_of_lt (absPos_lt_of_node_lt hj hm hij))

theorem fwdLoop_spec (doc : List Nat) (hpos : ∀ x ∈ doc, 0 < x)
    (safe : Bool) :
    ∀ (fuel i line remain : Nat), doc.length - i ≤ fuel →
      i < doc.length → line < doc.getD i 0 →
      ((absPos doc i line + remain < doc.sum →
        ∃ j l, fwdLoop doc safe fuel i line remain = ⟨some j, l⟩ ∧
          j < doc.length ∧ l < doc.getD j 0 ∧
          absPos doc j l = absPos doc i line + remain) ∧
      (doc.sum ≤ absPos doc i line + remain →
        fwdLoop doc safe fuel i line remain =
          (if safe then
            ⟨some (doc.length - 1), doc.getD (doc.length - 1) 0 - 1⟩
          else PosL.nil))) := by
  intro fuel
  induction fuel with
  | zero =>
      intro i line remain hfuel hi hline
      omega
  | succ fuel ih =>
      intro i line remain hfuel hi hline
      constructor
      · intro htgt
        by_cases hbrk : remain < doc.getD i 0 - line
        · refine ⟨i, line + remain, ?_, hi, by omega, ?_⟩
          · simp only [fwdLoop]
            rw [if_pos hi, if_pos hbrk]
          · unfold absPos
            omega
        · by_cases hnx : i + 1 < doc.length
          · have hstep : absPos doc (i + 1) 0 +
                (remain - (doc.getD i 0 - line)) =
                absPos doc i line + remain := by
              unfold absPos
              rw [sum_take_succ doc i hi]
              omega
            have IH := ih (i + 1) 0 (remain - (doc.getD i 0 - line))
              (by omega) hnx (getD_pos hpos hnx)
            obtain ⟨j, l, heq, hj, hl, habs⟩ := IH.1 (by rw [hstep]; exact htgt)
            refine ⟨j, l, ?_, hj, hl, ?_⟩
            · simp only [fwdLoop]
              rw [if_pos hi, if_neg hbrk, if_pos hnx]
              exact heq
            · rw [habs, hstep]
          · exfalso
            have hsum := sum_eq_take_last doc i hi hnx
            unfold absPos at htgt
            omega
      · intro htgt
        by_cases hbrk : remain < doc.getD i 0 - line
        · exfalso
          have hle := sum_take_getD_le doc i hi
          unfold absPos at htgt
          omega
        · by_cases hnx : i + 1 < doc.length
          · have hstep : absPos doc (i + 1) 0 +
                (remain - (doc.getD i 0 - line)) =
                absPos doc i line + remain := by
              unfold absPos
              rw [sum_take_succ doc i hi]
              omega
            have IH := ih (i + 1) 0 (remain - (doc.getD i 0 - line))
              (by omega) hnx (getD_pos hpos hnx)
            have hres := IH.2 (by rw [hstep]; exact htgt)
            simp only [fwdLoop]
            rw [if_pos hi, if_neg hbrk, if_pos hnx]
            exact hres
          · have hieq : i = doc.length - 1 := by omega
            have hcl : 0 < doc.getD i 0 := getD_pos hpos hi
            simp only [fwdLoop]
            rw [if_pos hi, if_neg hbrk, if_neg hnx]
            cases safe with
            | true =>
                simp only [if_true]
                have hcl' : 1 ≤ doc.getD (doc.length - 1) 0 := by
                  rw [← hieq]
                  omega
                rw [hieq, Nat.max_eq_left hcl']
            | false => simp

/-- C6: for a valid position (its line lies within its node) in a visible
document (every per-node line count positive) and any count `n`: if the
position `n` screen lines forward exists, `fwd` returns it for both `safe`
flavours — the unique valid position whose absolute screen line is
`absPos p + n` — and otherwise `fwd … true` clamps at the document end,
returning the last valid position, while `fwd … false` returns the nil
`Pos`. -/
theorem fwd_forward_or_clamp (doc : List Nat) (hpos : ∀ x ∈ doc, 0 < x)
    (i line n : Nat) (hi : i < doc.length) (hline : line < doc.getD i 0) :
    (absPos doc i line + n < doc.sum →
      ∃ j l, PosL.fwd doc ⟨some i, line⟩ n true = ⟨some j, l⟩ ∧
        PosL.fwd doc ⟨some i, line⟩ n false = ⟨some j, l⟩ ∧
        j < doc.length ∧ l < doc.getD j 0 ∧
        absPos doc j l = absPos doc i line + n ∧
        ∀ j' l', j' < doc.length → l' < doc.getD j' 0 →
          absPos doc j' l' = absPos doc i line + n → j' = j ∧ l' = l) ∧
    (doc.sum ≤ absPos doc i line + n →
      PosL.fwd doc ⟨some i, line⟩ n true =
        ⟨some (doc.length - 1), doc.getD (doc.length - 1) 0 - 1⟩ ∧
      PosL.fwd doc ⟨some i, line⟩ n false = PosL.nil) := by
  have hs1 := fwdLoop_spec doc hpos true doc.length i line n (by omega) hi
    hline
  have hs2 := fwdLoop_spec doc hpos false doc.length i line n (by omega) hi
    hline
  constructor
  · intro htgt
    obtain ⟨j, l, heq1, hj, hl, habs⟩ := hs1.1 htgt
    obtain ⟨j2, l2, heq2, hj2, hl2, habs2⟩ := hs2.1 htgt
    obtain ⟨rfl, rfl⟩ : j2 = j ∧ l2 = l :=
      absPos_inj hj2 hl2 hj hl (by rw [habs2, habs])
    refine ⟨j2, l2, heq1, heq2, hj2, hl2, habs, ?_⟩
    intro j' l' hj' hl' habs'
    exact absPos_inj hj' hl' hj hl (by rw [habs', habs])
  · intro htgt
    exact ⟨hs1.2 htgt, hs2.2 htgt⟩

/-- Witness for C6: in the document `[2, 1]`, stepping 5 lines forward from
the first line runs off the end; the safe flavour clamps to the last line
`(1, 0)` and the unsafe flavour returns nil. -/
theorem fwd_forward_or_clamp_witness :
    (∀ x ∈ ([2, 1] : List Nat), 0 < x) ∧
      PosL.fwd [2, 1] ⟨some 0, 0⟩ 5 true = ⟨some 1, 0⟩ ∧
      PosL.fwd [2, 1] ⟨some 0, 0⟩ 5 false = PosL.nil :=
  ⟨by decide, (fwd_forward_or_clamp [2, 1] (by decide) 0 0 5 (by decide)
    (by decide)).2 (by decide)⟩

/-! ## Accordion guards (`Node::expand` / `Node::collapse`,
`src/tb/src/display/node.rs`)

Nodes live in an arena indexed by `Nat` (modelling the `Arc<Mutex<Node>>`
graph); each node carries its accordion state, its child list and its
navigation pointers. -/

inductive NState where
  | loading
  | expanded
  | collapsed
deriving DecidableEq, Repr

structure DNode where
  parent : Option Nat
  prev : Option Nat
  next : Option Nat
  prevsib : Option Nat
  nextsib : Option Nat
  children : List Nat
  state : NState
  expandable : Bool
deriving DecidableEq, Repr

/-- Apply `f` to the node at index `i`, if present. -/
def updateAt (arena : List DNode) (i : Nat) (f : DNode → DNode) :
    List DNode :=
  match arena.get? i with
  | none => arena
  | some n => arena.set i (f n)

/-- `Node::expand`: the loading pipeline
(`mark_loading`/`load_children`/`finish_loading`) is abstracted as the
parameter `doLoad`; it runs only when the node is expandable and
collapsed. -/
def DNode.expand (doLoad : List DNode → Nat → List DNode)
    (arena : List DNode) (idx : Nat) : List DNode :=
  match arena.get? idx with
  | none => arena
  | some node =>
      if node.expandable = true ∧ node.state = NState.collapsed
      then doLoad arena idx
      else arena

/-- The field update applied to the collapsing node itself. -/
def collapseUpd (n : DNode) : DNode :=
  { n with next := n.nextsib, children := [], state := NState.collapsed }

/-- `Node::collapse`: when expanded, repoint the next sibling's `prev` at
this node, set `next` to the next sibling, clear the children and mark the
node collapsed; otherwise do nothing. -/
def DNode.collapse (arena : List DNode) (idx : Nat) : List DNode :=
  match arena.get? idx with
  | none => arena
  | some node =>
      if node.state = NState.expanded then
        let arena1 := match node.nextsib with
          | some ns => updateAt arena ns (fun n => { n with prev := some idx })
          | none => arena
        updateAt arena1 idx collapseUpd
      else arena

/-- C10: `expand` on a node that is not both expandable and collapsed, and
`collapse` on a node that is not expanded, leave the whole node arena —
state, children and every navigation pointer — unchanged (and run no other
code, so they cannot panic). -/
theorem expand_collapse_noop (doLoad : List DNode → Nat → List DNode)
    (arena : List DNode) (idx : Nat) (node : DNode)
    (hget : arena.get? idx = some node) :
    (¬(node.expandable = true ∧ node.state = NState.collapsed) →
      DNode.expand doLoad arena idx = arena) ∧
    (node.state ≠ NState.expanded → DNode.collapse arena idx = arena) := by
  constructor
  · intro hguard
    unfold DNode.expand
    rw [hget]
    exact if_neg hguard
  · intro hguard
    unfold DNode.collapse
    rw [hget]
    exact if_neg hguard

/-- Witness for C10: a loading, non-expandable singleton node; even a
`doLoad` that would wipe the arena is not invoked. -/
theorem expand_collapse_noop_witness :
    (([⟨none, none, none, none, none, [], NState.loading, false⟩] :
        List DNode).get? 0 =
      some ⟨none, none, none, none, none, [], NState.loading, false⟩) ∧
      DNode.expand (fun _ _ => [])
        [⟨none, none, none, none, none, [], NState.loading, false⟩] 0 =
        [⟨none, none, none, none, none, [], NState.loading, false⟩] ∧
      DNode.collapse
        [⟨none, none, none, none, none, [], NState.loading, false⟩] 0 =
        [⟨none, none, none, none, none, [], NState.loading, false⟩] :=
  ⟨by decide,
    (expand_collapse_noop (fun _ _ => [])
      [⟨none, none, none, none, none, [], NState.loading, false⟩] 0
      ⟨none, none, none, none, none, [], NState.loading, false⟩
      (by decide)).1 (by decide),
    (expand_collapse_noop (fun _ _ => [])
      [⟨none, none, none, none, none, [], NState.loading, false⟩] 0
      ⟨none, none, none, none, none, [], NState.loading, false⟩
      (by decide)).2 (by decide)⟩

/-- The loop of `Pos::bwd`, with the iteration count as fuel (the node
index decreases every iteration, so `doc.length` steps suffice). -/
def bwdLoop (doc : List Nat) (safe : Bool) : Nat → Nat → Nat → Nat → PosL
  | 0, _, _, _ => PosL.nil
  | fuel + 1, i, line, remain =>
      if i < doc.length then
        if remain ≤ line then ⟨some i, line - remain⟩
        else if i = 0 then (if safe then ⟨some i, 0⟩ else PosL.nil)
        else bwdLoop doc safe fuel (i - 1)
          (max (doc.getD (i - 1) 0) 1 - 1) (remain - (line + 1))
      else PosL.nil

/-- `Pos::bwd`. -/
def PosL.bwd (doc : List Nat) (p : PosL) (n : Nat) (safe : Bool) : PosL :=
  match p.node with
  | none => PosL.nil
  | some i => bwdLoop doc safe doc.length i p.line n

/-- `Pos::seek`. -/
def PosL.seek (doc : List Nat) (p : PosL) (n : Int) (safe : Bool) : PosL :=
  if 0 < n then PosL.fwd doc p n.toNat safe
  else if n < 0 then PosL.bwd doc p (-n).toNat safe
  else p

theorem bwdLoop_spec (doc : List Nat) (hpos : ∀ x ∈ doc, 0 < x)
    (safe : Bool) :
    ∀ (fuel i line remain : Nat), i + 1 ≤ fuel →
      i < doc.length → line < doc.getD i 0 →
      ((remain ≤ absPos doc i line →
        ∃ j l, bwdLoop doc safe fuel i line remain = ⟨some j, l⟩ ∧
          j < doc.length ∧ l < doc.getD j 0 ∧
          absPos doc j l + remain = absPos doc i line) ∧
      (absPos doc i line < remain →
        bwdLoop doc safe fuel i line remain =
          (if safe then ⟨some 0, 0⟩ else PosL.nil))) := by
  intro fuel
  induction fuel with
  | zero =>
      intro i line remain hfuel hi hline
      omega
  | succ fuel ih =>
      intro i line remain hfuel hi hline
      constructor
      · intro htgt
        by_cases hbrk : remain ≤ line
        · refine ⟨i, line - remain, ?_, hi, by omega, ?_⟩
          · simp only [bwdLoop]
            rw [if_pos hi, if_pos hbrk]
          · unfold absPos
            omega
        · have hi0 : i ≠ 0 := by
            intro h0
            subst h0
            unfold absPos at htgt
            simp at htgt
            omega
          have hprev : i - 1 < doc.length := by omega
          have hplines : 0 < doc.getD (i - 1) 0 := getD_pos hpos hprev
          have hstep : absPos doc (i - 1) (max (doc.getD (i - 1) 0) 1 - 1) +
              (line + 1) = absPos doc i line := by
            unfold absPos
            rw [Nat.max_eq_left (by omega)]
            have := sum_take_succ doc (i - 1) hprev
            rw [show i - 1 + 1 = i by omega] at this
            omega
          have IH := ih (i - 1) (max (doc.getD (i - 1) 0) 1 - 1)
            (remain - (line + 1)) (by omega) hprev
            (by rw [Nat.max_eq_left (by omega)]; omega)
          obtain ⟨j, l, heq, hj, hl, habs⟩ := IH.1 (by omega)
          refine ⟨j, l, ?_, hj, hl, by omega⟩
          simp only [bwdLoop]
          rw [if_pos hi, if_neg hbrk, if_neg hi0]
          exact heq
      · intro htgt
        have hbrk : ¬ remain ≤ line := by
          unfold absPos at htgt
          omega
        by_cases hi0 : i = 0
        · simp only [bwdLoop]
          rw [if_pos hi, if_neg hbrk, if_pos hi0, hi0]
        · have hprev : i - 1 < doc.length := by omega
          have hplines : 0 < doc.getD (i - 1) 0 := getD_pos hpos hprev
          have hstep : absPos doc (i - 1) (max (doc.getD (i - 1) 0) 1 - 1) +
              (line + 1) = absPos doc i line := by
            unfold absPos
            rw [Nat.max_eq_left (by omega)]
            have := sum_take_succ doc (i - 1) hprev
            rw [show i - 1 + 1 = i by omega] at this
            omega
          have IH := ih (i - 1) (max (doc.getD (i - 1) 0) 1 - 1)
            (remain - (line + 1)) (by omega) hprev
            (by rw [Nat.max_eq_left (by omega)]; omega)
          have hres := IH.2 (by omega)
          simp only [bwdLoop]
          rw [if_pos hi, if_neg hbrk, if_neg hi0]
          exact hres

/-- The loop of `Pos::dist_fwd` on valid positions: walk `i` forward
accumulating whole nodes until the target node is reached. -/
def distFwd (doc : List Nat) : Nat → Nat → Nat → Nat → Nat → Nat →
    Option Nat
  | 0, _, _, _, _, _ => none
  | fuel + 1, i, line, j, jline, acc =>
      if i = j then
        if line ≤ acc + jline then some (acc + jline - line) else none
      else if i < doc.length then
        distFwd doc fuel (i + 1) 0 j jline (acc + (doc.getD i 0 - line))
      else none

theorem distFwd_spec (doc : List Nat) :
    ∀ (fuel i line j jline acc : Nat), j - i + 1 ≤ fuel → i ≤ j →
      j < doc.length → line ≤ doc.getD i 0 →
      (doc.take i).sum + line ≤ acc + (doc.take j).sum + jline →
      distFwd doc fuel i line j jline acc =
        some (acc + (doc.take j).sum + jline -
          ((doc.take i).sum + line)) := by
  intro fuel
  induction fuel with
  | zero =>
      intro i line j jline acc hfuel
      omega
  | succ fuel ih =>
      intro i line j jline acc hfuel hij hj hline hle
      by_cases heq : i = j
      · subst heq
        simp only [distFwd]
        rw [if_pos trivial, if_pos (by omega : line ≤ acc + jline)]
        congr 1
        omega
      · have hi : i < doc.length := by omega
        have hstep := sum_take_succ doc i hi
        have hmono := sum_take_mono doc (show i + 1 ≤ j by omega)
        simp only [distFwd]
        rw [if_neg heq, if_pos hi]
        rw [ih (i + 1) 0 j jline (acc + (doc.getD i 0 - line)) (by omega)
          (by omega) hj (by omega) (by omega)]
        congr 1
        omega

/-! ## Viewport state (`Tree::scroll` / `Tree::select`,
`src/tb/src/display/tree.rs`)

The display state is the viewport start position, the signed screen offset
of the selection's first line, and the selected node.  Drawing calls are
omitted; `expect` panics are modelled as `none`. -/

structure TState where
  start : Nat × Nat
  offset : Int
  sel : Nat
deriving DecidableEq, Repr

/-- `Tree::check_term_size`. -/
def checkTermSize (ht wd : Nat) : Prop := 1 ≤ ht ∧ 24 ≤ wd

instance (ht wd : Nat) : Decidable (checkTermSize ht wd) := by
  unfold checkTermSize
  infer_instance

/-- The selection-adjustment loop of `Tree::scroll` for downward scrolling:
while the selection ends above the viewport, move the selection to the next
node (`none` models the `expect` panic on a dangling selection). -/
def adjFwd (doc : List Nat) : Nat → Int → Option Nat → Option (Int × Nat)
  | 0, _, _ => none
  | fuel + 1, offset, selOpt =>
      match selOpt with
      | none => none
      | some sel =>
          if 0 ≤ offset + (doc.getD sel 0 : Int) - 1 then some (offset, sel)
          else adjFwd doc fuel (offset + (doc.getD sel 0 : Int))
            (if sel + 1 < doc.length then some (sel + 1) else none)

/-- The selection-adjustment loop of `Tree::scroll` for upward scrolling:
while the selection starts at or below the viewport bottom, move the
selection to the previous node. -/
def adjBwd (doc : List Nat) (ht : Nat) : Nat → Int → Nat → Option (Int × Nat)
  | 0, _, _ => none
  | fuel + 1, offset, sel =>
      if (ht : Int) ≤ offset then
        if sel = 0 then none
        else adjBwd doc ht fuel (offset - (doc.getD (sel - 1) 0 : Int))
          (sel - 1)
      else some (offset, sel)

theorem sum_take_lt_length {doc : List Nat} {k : Nat}
    (h : (doc.take k).sum < doc.sum) : k < doc.length := by
  by_contra hk
  rw [List.take_of_length_le (by omega)] at h
  omega

theorem adjFwd_spec (doc : List Nat) (hpos : ∀ x ∈ doc, 0 < x)
    (A : Nat) (hA : A < doc.sum) :
    ∀ (fuel : Nat) (offset : Int) (sel : Nat), doc.length - sel ≤ fuel →
      sel < doc.length → (A : Int) + offset = ((doc.take sel).sum : Int) →
      ∃ off' sel', adjFwd doc fuel offset (some sel) = some (off', sel') ∧
        sel' < doc.length ∧
        (A : Int) + off' = ((doc.take sel').sum : Int) ∧
        0 ≤ off' + (doc.getD sel' 0 : Int) - 1 := by
  intro fuel
  induction fuel with
  | zero =>
      intro offset sel hfuel hsel
      omega
  | succ fuel ih =>
      intro offset sel hfuel hsel hinv
      by_cases hstop : 0 ≤ offset + (doc.getD sel 0 : Int) - 1
      · refine ⟨offset, sel, ?_, hsel, hinv, hstop⟩
        simp only [adjFwd]
        rw [if_pos hstop]
      · have hnext : (doc.take (sel + 1)).sum < doc.sum := by
          rw [sum_take_succ doc sel hsel]
          omega
        have hsel1 : sel + 1 < doc.length := sum_take_lt_length hnext
        have hinv' : (A : Int) + (offset + (doc.getD sel 0 : Int)) =
            ((doc.take (sel + 1)).sum : Int) := by
          rw [sum_take_succ doc sel hsel, Nat.cast_add]
          omega
        obtain ⟨off', sel', heq, h1, h2, h3⟩ :=
          ih (offset + (doc.getD sel 0 : Int)) (sel + 1) (by omega) hsel1
            hinv'
        refine ⟨off', sel', ?_, h1, h2, h3⟩
        simp only [adjFwd]
        rw [if_neg hstop, if_pos hsel1]
        exact heq

theorem adjBwd_spec (doc : List Nat) (hpos : ∀ x ∈ doc, 0 < x)
    (ht : Nat) (hht : 1 ≤ ht) (A : Nat) :
    ∀ (fuel : Nat) (offset : Int) (sel : Nat), sel + 1 ≤ fuel →
      sel < doc.length → (A : Int) + offset = ((doc.take sel).sum : Int) →
      ∃ off' sel', adjBwd doc ht fuel offset sel = some (off', sel') ∧
        sel' < doc.length ∧
        (A : Int) + off' = ((doc.take sel').sum : Int) ∧
        off' < (ht : Int) := by
  intro fuel
  induction fuel with
  | zero =>
      intro offset sel hfuel hsel
      omega
  | succ fuel ih =>
      intro offset sel hfuel hsel hinv
      by_cases hstop : (ht : Int) ≤ offset
      · have hsel0 : sel ≠ 0 := by
          intro h0
          subst h0
          simp at hinv
          omega
        have hprev : sel - 1 < doc.length := by omega
        have hinv' : (A : Int) + (offset - (doc.getD (sel - 1) 0 : Int)) =
            ((doc.take (sel - 1)).sum : Int) := by
          have hs := sum_take_succ doc (sel - 1) hprev
          rw [show sel - 1 + 1 = sel by omega] at hs
          rw [hs, Nat.cast_add] at hinv
          omega
        obtain ⟨off', sel', heq, h1, h2, h3⟩ :=
          ih (offset - (doc.getD (sel - 1) 0 : Int)) (sel - 1) (by omega)
            hprev hinv'
        refine ⟨off', sel', ?_, h1, h2, h3⟩
        simp only [adjBwd]
        rw [if_pos hstop, if_neg hsel0]
        exact heq
      · refine ⟨offset, sel, ?_, hsel, hinv, by omega⟩
        simp only [adjBwd]
        rw [if_neg hstop]

/-- Viewport well-formedness: valid start position, live selection, and the
§3 invariant — the selection's first line lies exactly `offset` screen
lines forward of the viewport start. -/
def TWF (doc : List Nat) (st : TState) : Prop :=
  st.start.1 < doc.length ∧ st.start.2 < doc.getD st.start.1 0 ∧
    st.sel < doc.length ∧
    (absPos doc st.start.1 st.start.2 : Int) + st.offset =
      ((doc.take st.sel).sum : Int)

instance (doc : List Nat) (st : TState) : Decidable (TWF doc st) := by
  unfold TWF
  infer_instance

/-- A forward distance taken positively (`dist_fwd(...) as isize`). -/
def distPos (o : Option Nat) : Option Int :=
  match o with
  | none => none
  | some d => some ((d : Int))

/-- A forward distance negated (`-(dist_fwd(...) as isize)`). -/
def distNeg (o : Option Nat) : Option Int :=
  match o with
  | none => none
  | some d => some (-(d : Int))

/-- `Tree::scroll` (state update only; drawing omitted, `expect` panics
modelled as `none`; the unreachable `_ => 0` diff arm is subsumed by the
else branch, which the `amt ≠ 0` guard keeps unreachable for `amt = 0`). -/
def scrollT (doc : List Nat) (ht wd : Nat) (st : TState) (amt : Int) :
    Option TState :=
  if checkTermSize ht wd ∧ amt ≠ 0 then
    match PosL.seek doc ⟨some st.start.1, st.start.2⟩ amt true with
    | ⟨none, _⟩ => none
    | ⟨some ni, nl⟩ =>
        match (if 0 < amt then
            distPos (distFwd doc (doc.length + 1) st.start.1 st.start.2 ni
              nl 0)
          else
            distNeg (distFwd doc (doc.length + 1) ni nl st.start.1
              st.start.2 0)) with
        | none => none
        | some diff =>
            if 0 < amt then
              (adjFwd doc doc.length (st.offset - diff) (some st.sel)).map
                (fun r => ⟨(ni, nl), r.1, r.2⟩)
            else
              (adjBwd doc ht doc.length (st.offset - diff) st.sel).map
                (fun r => ⟨(ni, nl), r.1, r.2⟩)
  else some st

/-- The scroll amount computed inside `Tree::select`. -/
def selAmt (doc : List Nat) (ht : Nat) (off : Int) (target : Nat)
    (scrollin : Bool) : Int :=
  if (doc.getD target 0 : Int) = 0 then 0
  else if scrollin = true ∧ off < 0 then
    off + (doc.getD target 0 : Int) - ht -
      min ((doc.getD target 0 : Int) - ht) 0
  else if scrollin = true ∧ (ht : Int) ≤ off + (doc.getD target 0 : Int) then
    off + min ((doc.getD target 0 : Int) - ht) 0
  else if off + (doc.getD target 0 : Int) ≤ 0 then
    off + (doc.getD target 0 : Int) - 1
  else if (ht : Int) ≤ off then off - ht + 1
  else 0

/-- `Tree::select` (state update only; drawing omitted).  The new selection
is passed as a node index; `Node::is_before` is document order, which is
index order in the visible document.  A `target` outside the document has
no counterpart in the Rust API (the caller passes a live `Arc`), so it
returns `none`. -/
def selectT (doc : List Nat) (ht wd : Nat) (st : TState) (target : Nat)
    (scrollin : Bool) : Option TState :=
  if checkTermSize ht wd then
    if st.sel < doc.length ∧ target < doc.length then
      match (if st.sel < target then
          distPos (distFwd doc (doc.length + 1) st.sel 0 target 0 0)
        else
          distNeg (distFwd doc (doc.length + 1) target 0 st.sel 0 0)) with
      | none => none
      | some dist =>
          scrollT doc ht wd ⟨st.start, st.offset + dist, target⟩
            (selAmt doc ht (st.offset + dist) target scrollin)
    else none
  else some st

/-- A scrolling controller operation (the `scroll`/`select` fragment of the
dispatcher, the operations that move the viewport over a fixed document). -/
inductive TCmd where
  | scroll (amt : Int)
  | select (target : Nat) (scrollin : Bool)

/-- The scroll/select fragment of the command dispatcher, restricted to the
display state. -/
def stepT (doc : List Nat) (ht wd : Nat) (st : TState) : TCmd → Option TState
  | .scroll amt => scrollT doc ht wd st amt
  | .select target scrollin => selectT doc ht wd st target scrollin

theorem adjFwd_assemble {doc : List Nat} (hpos : ∀ x ∈ doc, 0 < x)
    {j l : Nat} {offset : Int} {sel : Nat} {st' : TState}
    (hj : j < doc.length) (hl : l < doc.getD j 0) (hsel : sel < doc.length)
    (hinvA : ((absPos doc j l : Nat) : Int) + offset =
      (((doc.take sel).sum : Nat) : Int))
    (h : (adjFwd doc doc.length offset (some sel)).map
      (fun r => (⟨(j, l), r.1, r.2⟩ : TState)) = some st') :
    TWF doc st' := by
  have hA : absPos doc j l < doc.sum := by
    have := sum_take_getD_le doc j hj
    unfold absPos
    omega
  obtain ⟨off', sel', hadj, hsel', hinv', hbnd⟩ :=
    adjFwd_spec doc hpos (absPos doc j l) hA doc.length offset sel (by omega)
      hsel hinvA
  rw [hadj, Option.map_some'] at h
  have hst' : (⟨(j, l), off', sel'⟩ : TState) = st' := Option.some.inj h
  subst hst'
  exact ⟨hj, hl, hsel', hinv'⟩

theorem adjBwd_assemble {doc : List Nat} (hpos : ∀ x ∈ doc, 0 < x)
    {ht : Nat} (hht : 1 ≤ ht)
    {j l : Nat} {offset : Int} {sel : Nat} {st' : TState}
    (hj : j < doc.length) (hl : l < doc.getD j 0) (hsel : sel < doc.length)
    (hinvA : ((absPos doc j l : Nat) : Int) + offset =
      (((doc.take sel).sum : Nat) : Int))
    (h : (adjBwd doc ht doc.length offset sel).map
      (fun r => (⟨(j, l), r.1, r.2⟩ : TState)) = some st') :
    TWF doc st' := by
  obtain ⟨off', sel', hadj, hsel', hinv', hbnd⟩ :=
    adjBwd_spec doc hpos ht hht (absPos doc j l) doc.length offset sel
      (by omega) hsel hinvA
  rw [hadj, Option.map_some'] at h
  have hst' : (⟨(j, l), off', sel'⟩ : TState) = st' := Option.some.inj h
  subst hst'
  exact ⟨hj, hl, hsel', hinv'⟩

/-- `Tree::scroll` preserves the viewport invariant. -/
theorem scrollT_wf {doc : List Nat} (hpos : ∀ x ∈ doc, 0 < x)
    {ht wd : Nat} {st st' : TState} {amt : Int}
    (hwf : TWF doc st) (h : scrollT doc ht wd st amt = some st') :
    TWF doc st' := by
  obtain ⟨hi, hline, hsel, hinv⟩ := hwf
  unfold scrollT at h
  by_cases hg : checkTermSize ht wd ∧ amt ≠ 0
  case neg =>
    rw [if_neg hg, Option.some.injEq] at h
    subst h
    exact ⟨hi, hline, hsel, hinv⟩
  case pos =>
    rw [if_pos hg] at h
    have habs_lt : absPos doc st.start.1 st.start.2 < doc.sum := by
      have := sum_take_getD_le doc st.start.1 hi
      unfold absPos
      omega
    split at h
    · cases h
    next ni nl heqseek =>
      rcases lt_or_gt_of_ne hg.2 with hamt | hamt
      · -- amt < 0: backward seek
        have hseek : PosL.seek doc ⟨some st.start.1, st.start.2⟩ amt true =
            bwdLoop doc true doc.length st.start.1 st.start.2 (-amt).toNat := by
          unfold PosL.seek
          rw [if_neg (by omega), if_pos hamt]
          rfl
        rw [hseek] at heqseek
        have hspec := bwdLoop_spec doc hpos true doc.length st.start.1
          st.start.2 (-amt).toNat (by omega) hi hline
        by_cases hrange : (-amt).toNat ≤ absPos doc st.start.1 st.start.2
        · obtain ⟨j, l, heqf, hj, hl, habseq⟩ := hspec.1 hrange
          rw [heqf] at heqseek
          obtain ⟨rfl, rfl⟩ : j = ni ∧ l = nl :=
            ⟨Option.some.inj (congrArg PosL.node heqseek),
              congrArg PosL.line heqseek⟩
          have hji : j ≤ st.start.1 := by
            by_contra hc
            have := @absPos_lt_of_node_lt doc st.start.1 st.start.2 j l hi
              hline (show st.start.1 < j by omega)
            omega
          have hd := distFwd_spec doc (doc.length + 1) j l st.start.1
            st.start.2 0 (by omega) hji hi (by omega)
            (by unfold absPos at habseq; omega)
          split at h
          next heqdist => cases h
          next diff heqdist =>
            rw [if_neg (by omega), hd] at heqdist
            simp only [distNeg] at heqdist
            have hdiff := Option.some.inj heqdist
            rw [if_neg (by omega)] at h
            refine adjBwd_assemble hpos hg.1.1 hj hl hsel ?_ h
            unfold absPos at habseq hinv ⊢
            omega
        · have heqc : bwdLoop doc true doc.length st.start.1 st.start.2
              (-amt).toNat = ⟨some 0, 0⟩ := hspec.2 (by omega)
          rw [heqc] at heqseek
          obtain ⟨rfl, rfl⟩ : ni = 0 ∧ nl = 0 :=
            ⟨(Option.some.inj (congrArg PosL.node heqseek)).symm,
              (congrArg PosL.line heqseek).symm⟩
          have hj : 0 < doc.length := by omega
          have hl : 0 < doc.getD 0 0 := getD_pos hpos hj
          have htk0 : (doc.take 0).sum = 0 := rfl
          have hd := distFwd_spec doc (doc.length + 1) 0 0 st.start.1
            st.start.2 0 (by omega) (by omega) hi (by omega) (by omega)
          split at h
          next heqdist => cases h
          next diff heqdist =>
            rw [if_neg (by omega), hd] at heqdist
            simp only [distNeg] at heqdist
            have hdiff := Option.some.inj heqdist
            rw [if_neg (by omega)] at h
            refine adjBwd_assemble hpos hg.1.1 hj hl hsel ?_ h
            unfold absPos at hinv ⊢
            omega
      · -- 0 < amt: forward seek
        have hseek : PosL.seek doc ⟨some st.start.1, st.start.2⟩ amt true =
            fwdLoop doc true doc.length st.start.1 st.start.2 amt.toNat := by
          unfold PosL.seek
          rw [if_pos hamt]
          rfl
        rw [hseek] at heqseek
        have hspec := fwdLoop_spec doc hpos true doc.length st.start.1
          st.start.2 amt.toNat (by omega) hi hline
        by_cases hrange : absPos doc st.start.1 st.start.2 + amt.toNat <
            doc.sum
        · obtain ⟨j, l, heqf, hj, hl, habseq⟩ := hspec.1 hrange
          rw [heqf] at heqseek
          obtain ⟨rfl, rfl⟩ : j = ni ∧ l = nl :=
            ⟨Option.some.inj (congrArg PosL.node heqseek),
              congrArg PosL.line heqseek⟩
          have hij : st.start.1 ≤ j := by
            by_contra hc
            have := @absPos_lt_of_node_lt doc j l st.start.1 st.start.2 hj
              hl (show j < st.start.1 by omega)
            omega
          have hd := distFwd_spec doc (doc.length + 1) st.start.1 st.start.2
            j l 0 (by omega) hij hj (by omega)
            (by unfold absPos at habseq; omega)
          split at h
          next heqdist => cases h
          next diff heqdist =>
            rw [if_pos hamt, hd] at heqdist
            simp only [distPos] at heqdist
            have hdiff := Option.some.inj heqdist
            rw [if_pos hamt] at h
            refine adjFwd_assemble hpos hj hl hsel ?_ h
            unfold absPos at habseq hinv ⊢
            omega
        · have heqc : fwdLoop doc true doc.length st.start.1 st.start.2
              amt.toNat =
              ⟨some (doc.length - 1), doc.getD (doc.length - 1) 0 - 1⟩ :=
            hspec.2 (by omega)
          rw [heqc] at heqseek
          obtain ⟨rfl, rfl⟩ : ni = doc.length - 1 ∧
              nl = doc.getD (doc.length - 1) 0 - 1 :=
            ⟨(Option.some.inj (congrArg PosL.node heqseek)).symm,
              (congrArg PosL.line heqseek).symm⟩
          have hj : doc.length - 1 < doc.length := by omega
          have hgl : 0 < doc.getD (doc.length - 1) 0 := getD_pos hpos hj
          have hl : doc.getD (doc.length - 1) 0 - 1 <
              doc.getD (doc.length - 1) 0 := by omega
          have hsum := sum_eq_take_last doc (doc.length - 1) hj (by omega)
          have hij : st.start.1 ≤ doc.length - 1 := by omega
          have hd := distFwd_spec doc (doc.length + 1) st.start.1 st.start.2
            (doc.length - 1) (doc.getD (doc.length - 1) 0 - 1) 0 (by omega)
            hij hj (by omega) (by unfold absPos at habs_lt; omega)
          split at h
          next heqdist => cases h
          next diff heqdist =>
            rw [if_pos hamt, hd] at heqdist
            simp only [distPos] at heqdist
            have hdiff := Option.some.inj heqdist
            rw [if_pos hamt] at h
            refine adjFwd_assemble hpos hj hl hsel ?_ h
            unfold absPos at hinv habs_lt ⊢
            omega

/-- `Tree::select` preserves the viewport invariant. -/
theorem selectT_wf {doc : List Nat} (hpos : ∀ x ∈ doc, 0 < x)
    {ht wd : Nat} {st st' : TState} {target : Nat} {scrollin : Bool}
    (hwf : TWF doc st) (h : selectT doc ht wd st target scrollin = some st') :
    TWF doc st' := by
  obtain ⟨hi, hline, hsel, hinv⟩ := hwf
  unfold selectT at h
  by_cases hg : checkTermSize ht wd
  case neg =>
    rw [if_neg hg, Option.some.injEq] at h
    subst h
    exact ⟨hi, hline, hsel, hinv⟩
  case pos =>
    rw [if_pos hg] at h
    by_cases htl : st.sel < doc.length ∧ target < doc.length
    case neg =>
      rw [if_neg htl] at h
      cases h
    case pos =>
      rw [if_pos htl] at h
      split at h
      next heqdist => cases h
      next dist heqdist =>
        have hmid : TWF doc ⟨st.start, st.offset + dist, target⟩ := by
          refine ⟨hi, hline, htl.2, ?_⟩
          show (absPos doc st.start.1 st.start.2 : Int) +
            (st.offset + dist) = ((doc.take target).sum : Int)
          by_cases hdown : st.sel < target
          · rw [if_pos hdown] at heqdist
            have hmono := sum_take_mono doc
              (show st.sel ≤ target by omega)
            have hd := distFwd_spec doc (doc.length + 1) st.sel 0 target 0 0
              (by omega) (by omega) htl.2 (by omega) (by omega)
            rw [hd] at heqdist
            simp only [distPos] at heqdist
            have hdist := Option.some.inj heqdist
            unfold absPos at hinv ⊢
            omega
          · rw [if_neg hdown] at heqdist
            have hmono := sum_take_mono doc
              (show target ≤ st.sel by omega)
            have hd := distFwd_spec doc (doc.length + 1) target 0 st.sel 0 0
              (by omega) (by omega) htl.1 (by omega) (by omega)
            rw [hd] at heqdist
            simp only [distNeg] at heqdist
            have hdist := Option.some.inj heqdist
            unfold absPos at hinv ⊢
            omega
        exact scrollT_wf hpos hmid h

/-- The scroll and select operations preserve the viewport invariant: a
successful `scroll` or `select` leaves the display state well formed — the
selection's first line lies exactly `offset` screen lines forward of the
viewport start — and whenever the selection is at or below the viewport
start, seeking `offset` lines forward from `start` lands on the first line
of the selected node (`start.fwd(offset).node == sel`). -/
theorem viewport_invariant (doc : List Nat) (hpos : ∀ x ∈ doc, 0 < x)
    (ht wd : Nat) (st st' : TState) (c : TCmd)
    (hwf : TWF doc st) (h : stepT doc ht wd st c = some st') :
    TWF doc st' ∧
      (0 ≤ st'.offset →
        PosL.fwd doc ⟨some st'.start.1, st'.start.2⟩ st'.offset.toNat true =
          ⟨some st'.sel, 0⟩) := by
  have hwf' : TWF doc st' := by
    cases c with
    | scroll amt => exact scrollT_wf hpos hwf h
    | select target scrollin => exact selectT_wf hpos hwf h
  refine ⟨hwf', ?_⟩
  intro hoff
  obtain ⟨hi, hline, hsel, hinv⟩ := hwf'
  have hgl := getD_pos hpos hsel
  have hsum := sum_take_getD_le doc st'.sel hsel
  have htgt : absPos doc st'.start.1 st'.start.2 + st'.offset.toNat =
      (doc.take st'.sel).sum := by omega
  have hlt : absPos doc st'.start.1 st'.start.2 + st'.offset.toNat <
      doc.sum := by omega
  have hspec := fwdLoop_spec doc hpos true doc.length st'.start.1
    st'.start.2 st'.offset.toNat (by omega) hi hline
  obtain ⟨j, l, heqf, hj, hl, habs⟩ := hspec.1 hlt
  have hj0 : j = st'.sel ∧ l = 0 := by
    refine absPos_inj hj hl hsel hgl ?_
    unfold absPos at habs htgt ⊢
    omega
  show fwdLoop doc true doc.length st'.start.1 st'.start.2
    st'.offset.toNat = ⟨some st'.sel, 0⟩
  rw [heqf, hj0.1, hj0.2]

/-- Witness: scrolling down one line in the document `[1, 2, 1]`
from the initial state moves the viewport to node 1 and keeps the
selection exactly `offset = 0` lines forward of the start. -/
theorem viewport_invariant_witness :
    TWF [1, 2, 1] ⟨(0, 0), 0, 0⟩ ∧
      stepT [1, 2, 1] 2 30 ⟨(0, 0), 0, 0⟩ (.scroll 1) =
        some ⟨(1, 0), 0, 1⟩ ∧
      (TWF [1, 2, 1] ⟨(1, 0), 0, 1⟩ ∧
        (0 ≤ (⟨(1, 0), 0, 1⟩ : TState).offset →
          PosL.fwd [1, 2, 1] ⟨some 1, 0⟩ ((0 : Int)).toNat true =
            ⟨some 1, 0⟩)) :=
  ⟨by decide, by decide,
    viewport_invariant [1, 2, 1] (by decide) 2 30 ⟨(0, 0), 0, 0⟩
      ⟨(1, 0), 0, 1⟩ (.scroll 1) (by decide) (by decide)⟩

/-! ## Full display tree (`Node` arena, arena `Pos`, and `Tree::searchnext`)

To examine the controller operations that mutate the document (search
navigation expands collapsed nodes on the path to the next match), the node
graph is embedded directly: nodes live in an arena indexed by `Nat`
(modelling the `Arc<Mutex<Node>>` pointers; indices are stable across
insertion, like the pointers), and each node carries its links, accordion
state, display line counts (`cache.content.len()` / `cache.placeholder.len()`
as computed by `reformat` at the current width), its value path (the child
indices assigned by `Value::new_raw`, which `Node::is_before` compares) and
the display data of its backend children (what `reformat` produces for the
nodes `load_children` creates). -/

structure SNode where
  parent : Option Nat
  prev : Option Nat
  next : Option Nat
  prevsib : Option Nat
  nextsib : Option Nat
  children : List Nat
  state : NState
  hide : Bool
  expandable : Bool
  clines : Nat
  plines : Nat
  vpath : List Nat
  childSpecs : List (Bool × Nat × Nat)
deriving DecidableEq, Repr

def getSN (arena : List SNode) (i : Nat) : Option SNode := arena.get? i

/-- Apply `f` to the node at index `i`, if present. -/
def updSN (arena : List SNode) (i : Nat) (f : SNode → SNode) : List SNode :=
  match arena.get? i with
  | none => arena
  | some n => arena.set i (f n)

/-- `Node::lines`. -/
def SNode.lines (n : SNode) : Nat :=
  if n.hide then 0
  else match n.state with
    | NState.collapsed => n.clines
    | _ => n.plines

def linesAtA (arena : List SNode) (i : Nat) : Nat :=
  match getSN arena i with
  | none => 0
  | some n => n.lines

/-- `Node::traverse_unhidden`: follow `op` until a node with lines is found
(fuel: each step moves along pointers, `arena.length` steps suffice in a
well-formed tree). -/
def travA (arena : List SNode) (op : SNode → Option Nat) :
    Nat → Option Nat → Option Nat
  | 0, _ => none
  | _, none => none
  | fuel + 1, some i =>
      match getSN arena i with
      | none => none
      | some n => if 0 < n.lines then some i else travA arena op fuel (op n)

/-- `Node::next`. -/
def nextA (arena : List SNode) (i : Nat) : Option Nat :=
  match getSN arena i with
  | none => none
  | some n => travA arena (fun m => m.next) arena.length n.next

/-- `Node::prev`. -/
def prevA (arena : List SNode) (i : Nat) : Option Nat :=
  match getSN arena i with
  | none => none
  | some n => travA arena (fun m => m.prev) arena.length n.prev

/-- `Node::nextsib`. -/
def nextsibA (arena : List SNode) (i : Nat) : Option Nat :=
  match getSN arena i with
  | none => none
  | some n => travA arena (fun m => m.nextsib) arena.length n.nextsib

/-- `Node::is_before`, comparing the nodes' value paths. -/
def is_beforeA (arena : List SNode) (i j : Nat) : Bool :=
  match getSN arena i, getSN arena j with
  | some a, some b => is_before a.vpath b.vpath
  | _, _ => false

/-- The loop of `Pos::fwd` over the arena. -/
def fwdALoop (arena : List SNode) (safe : Bool) : Nat → Nat → Nat → Nat → PosL
  | 0, _, _, _ => PosL.nil
  | fuel + 1, i, line, remain =>
      match getSN arena i with
      | none => PosL.nil
      | some n =>
          if remain < n.lines - line then ⟨some i, line + remain⟩
          else match nextA arena i with
            | none => if safe then ⟨some i, max n.lines 1 - 1⟩ else PosL.nil
            | some j => fwdALoop arena safe fuel j 0 (remain - (n.lines - line))

/-- `Pos::fwd` over the arena. -/
def posFwdA (arena : List SNode) (p : PosL) (n : Nat) (safe : Bool) : PosL :=
  match p.node with
  | none => PosL.nil
  | some i => fwdALoop arena safe (arena.length + 1) i p.line n

/-- The loop of `Pos::bwd` over the arena. -/
def bwdALoop (arena : List SNode) (safe : Bool) : Nat → Nat → Nat → Nat → PosL
  | 0, _, _, _ => PosL.nil
  | fuel + 1, i, line, remain =>
      match getSN arena i with
      | none => PosL.nil
      | some _ =>
          if remain ≤ line then ⟨some i, line - remain⟩
          else match prevA arena i with
            | none => if safe then ⟨some i, 0⟩ else PosL.nil
            | some p => bwdALoop arena safe fuel p
                (max (linesAtA arena p) 1 - 1) (remain - (line + 1))

/-- `Pos::bwd` over the arena. -/
def posBwdA (arena : List SNode) (p : PosL) (n : Nat) (safe : Bool) : PosL :=
  match p.node with
  | none => PosL.nil
  | some i => bwdALoop arena safe (arena.length + 1) i p.line n

/-- `Pos::seek` over the arena. -/
def posSeekA (arena : List SNode) (p : PosL) (n : Int) (safe : Bool) : PosL :=
  if 0 < n then posFwdA arena p n.toNat safe
  else if n < 0 then posBwdA arena p (-n).toNat safe
  else p

/-- The loop of `Pos::dist_fwd` over the arena: walk `raw_next` (the plain
`next` pointer) until the target node is reached (`ptr_eq` is index
equality, with `none` for the dangling `Weak`). -/
def distALoop (arena : List SNode) :
    Nat → Option Nat → Nat → Option Nat → Nat → Nat → Option Nat
  | 0, _, _, _, _, _ => none
  | fuel + 1, curNode, curLine, toNode, toLine, ret =>
      if curNode = toNode then
        if curLine ≤ ret + toLine then some (ret + toLine - curLine) else none
      else match curNode with
        | none => none
        | some i =>
            match getSN arena i with
            | none => none
            | some n => distALoop arena fuel n.next 0 toNode toLine
                (ret + (n.lines - curLine))

/-- `Pos::dist_fwd` over the arena. -/
def distFwdA' (arena : List SNode) (p q : PosL) : Option Nat :=
  distALoop arena (arena.length + 2) p.node p.line q.node q.line 0

/-- A child node as `Node::new` creates it during `load_children`: collapsed,
unhidden, unlinked, with the display data `reformat` computes for the backend
child value (its own backend children are not consulted unless it is later
expanded). -/
def nodeFromSpec (parentId : Nat) (pvpath : List Nat) (i : Nat)
    (spec : Bool × Nat × Nat) : SNode :=
  ⟨some parentId, none, none, none, none, [], NState.collapsed, false,
    spec.1, spec.2.1, spec.2.2, pvpath ++ [i], []⟩

/-- `Node::mark_loading`: clear the children and mark the node loading. -/
def markLoadingA (arena : List SNode) (idx : Nat) : List SNode :=
  updSN arena idx (fun n => { n with children := [], state := NState.loading })

/-- `Node::load_children`: create a node per backend child and record the
child list (`none` models the `assert!(state == Loading)`). -/
def loadChildrenA (arena : List SNode) (idx : Nat) : Option (List SNode) :=
  match getSN arena idx with
  | none => none
  | some nd =>
      if nd.state ≠ NState.loading then none
      else
        let base := arena.length
        let kids := (List.range nd.childSpecs.length).map (fun i => base + i)
        let arena1 := updSN arena idx (fun n => { n with children := kids })
        some (arena1 ++ nd.childSpecs.mapIdx
          (fun i spec => nodeFromSpec idx nd.vpath i spec))

/-- `Node::insert`: splice `node` into the linked lists right after
`after`. -/
def insertA (arena : List SNode) (after node : Nat) : List SNode :=
  match getSN arena after, getSN arena node with
  | some aft, some nd =>
      let arena1 :=
        match aft.next with
        | some nxt =>
            let arenaA := updSN arena nxt (fun m => { m with prev := some node })
            let arenaB := updSN arenaA node (fun m => { m with next := some nxt })
            match getSN arenaB nxt with
            | some nxtN =>
                if nxtN.parent = nd.parent then
                  updSN arenaB nxt (fun m => { m with prevsib := some node })
                else arenaB
            | none => arenaB
        | none => arena
      let arena2 := updSN arena1 after (fun m => { m with next := some node })
      let arena3 := updSN arena2 node (fun m => { m with prev := some after })
      let arena4 := updSN arena3 node (fun m =>
        { m with nextsib := m.next, prevsib := m.prev })
      if some after = nd.parent then arena4
      else updSN arena4 after (fun m => { m with nextsib := some node })
  | _, _ => arena

/-- `Node::finish_loading`: repoint the next sibling's `prev`, set `next` to
the next sibling, splice every child in sequence, and mark the node
expanded (`none` models the `assert!(state == Loading)`). -/
def finishLoadingA (arena : List SNode) (idx : Nat) : Option (List SNode) :=
  match getSN arena idx with
  | none => none
  | some nd =>
      if nd.state ≠ NState.loading then none
      else
        let arena1 :=
          match nd.nextsib with
          | some ns =>
              if (getSN arena ns).isSome then
                updSN arena ns (fun m => { m with prev := some idx })
              else arena
          | none => arena
        let arena2 := updSN arena1 idx (fun m => { m with next := m.nextsib })
        let arenaF := (nd.children.foldl
          (fun (acc : List SNode × Nat) c => (insertA acc.1 acc.2 c, c))
          (arena2, idx)).1
        some (updSN arenaF idx (fun m => { m with state := NState.expanded }))

/-- `Node::expand` with its concrete pipeline
(`mark_loading`/`load_children`/`finish_loading`). -/
def expandA (arena : List SNode) (idx : Nat) : Option (List SNode) :=
  match getSN arena idx with
  | none => none
  | some nd =>
      if nd.expandable = true ∧ nd.state = NState.collapsed then
        match loadChildrenA (markLoadingA arena idx) idx with
        | none => none
        | some arena' => finishLoadingA arena' idx
      else some arena

/-- The display state of `Tree` (drawing fields omitted): the node arena,
the root id, the viewport start, the selection offset and the selection
(`none` models a dangling `Weak`). -/
structure TreeA where
  arena : List SNode
  root : Nat
  start : PosL
  offset : Int
  sel : Option Nat
deriving DecidableEq, Repr

/-- The selection-adjustment loop of `Tree::scroll` for downward scrolling,
over the arena. -/
def adjFwdA (arena : List SNode) : Nat → Int → Option Nat →
    Option (Int × Option Nat)
  | 0, _, _ => none
  | fuel + 1, offset, selOpt =>
      match selOpt with
      | none => none
      | some i =>
          match getSN arena i with
          | none => none
          | some n =>
              if 0 ≤ offset + (n.lines : Int) - 1 then some (offset, some i)
              else adjFwdA arena fuel (offset + (n.lines : Int))
                (nextA arena i)

/-- The selection-adjustment loop of `Tree::scroll` for upward scrolling,
over the arena. -/
def adjBwdA (arena : List SNode) (ht : Nat) : Nat → Int → Option Nat →
    Option (Int × Option Nat)
  | 0, _, _ => none
  | fuel + 1, offset, selOpt =>
      if (ht : Int) ≤ offset then
        match selOpt with
        | none => none
        | some i =>
            match getSN arena i with
            | none => none
            | some _ =>
                match prevA arena i with
                | none => none
                | some p =>
                    match getSN arena p with
                    | none => none
                    | some pn => adjBwdA arena ht fuel
                        (offset - (pn.lines : Int)) (some p)
      else some (offset, selOpt)

/-- `Tree::scroll` over the arena (state update and returned distance;
drawing omitted, `expect` panics are `none`). -/
def scrollA (ht wd : Nat) (t : TreeA) (amt : Int) : Option (TreeA × Int) :=
  if checkTermSize ht wd ∧ amt ≠ 0 then
    let ns := posSeekA t.arena t.start amt true
    match (if 0 < amt then distPos (distFwdA' t.arena t.start ns)
        else distNeg (distFwdA' t.arena ns t.start)) with
    | none => none
    | some diff =>
        let t1 := { t with start := ns, offset := t.offset - diff }
        if 0 < amt then
          (adjFwdA t.arena (t.arena.length + 1) t1.offset t1.sel).map
            (fun r => ({ t1 with offset := r.1, sel := r.2 }, diff))
        else
          (adjBwdA t.arena ht (t.arena.length + 1) t1.offset t1.sel).map
            (fun r => ({ t1 with offset := r.1, sel := r.2 }, diff))
  else some (t, 0)

/-- The scroll amount computed inside `Tree::select`, with the selection's
line count as a parameter. -/
def selAmtL (lines : Int) (ht : Nat) (off : Int) (scrollin : Bool) : Int :=
  if lines = 0 then 0
  else if scrollin = true ∧ off < 0 then
    off + lines - ht - min (lines - ht) 0
  else if scrollin = true ∧ (ht : Int) ≤ off + lines then
    off + min (lines - ht) 0
  else if off + lines ≤ 0 then off + lines - 1
  else if (ht : Int) ≤ off then off - ht + 1
  else 0

/-- `Tree::select` over the arena (state update and returned scroll
distance; drawing omitted — `sellines` only feeds redraws, and its
selection upgrade is the same one performed here). -/
def selectA (ht wd : Nat) (t : TreeA) (target : Nat) (scrollin : Bool) :
    Option (TreeA × Int) :=
  if checkTermSize ht wd then
    match t.sel with
    | none => none
    | some oldsel =>
        match (if is_beforeA t.arena oldsel target then
            distPos (distFwdA' t.arena ⟨some oldsel, 0⟩ ⟨some target, 0⟩)
          else
            distNeg (distFwdA' t.arena ⟨some target, 0⟩ ⟨some oldsel, 0⟩)) with
        | none => none
        | some dist =>
            let t1 := { t with offset := t.offset + dist, sel := some target }
            scrollA ht wd t1
              (selAmtL (linesAtA t.arena target : Int) ht t1.offset scrollin)
  else some (t, 0)

/-- One pass of the `searchnext` path loop: on each path component, expand
the node if it is expandable and not yet expanded (adjusting `offset` when
the node lies before the old selection but not before the viewport start),
then descend into the indexed child (`none` models the `expect`s and the
child indexing panic).  `firstline` and the trailing redraw block only
drive drawing and contain no `expect`, so they are omitted. -/
def snLoop (sel0 : Nat) (startNode : Option Nat) :
    List Nat → List SNode × Int × Nat → Option (List SNode × Int × Nat)
  | [], st => some st
  | i :: rest, (arena, offset, n) =>
      match getSN arena n with
      | none => none
      | some nd =>
          let nsibPos : PosL := ⟨nextsibA arena n, 0⟩
          match (if nd.expandable = true ∧ nd.state ≠ NState.expanded then
              match expandA arena n with
              | none => none
              | some arena2 =>
                  if is_beforeA arena2 n sel0 = true then
                    match startNode with
                    | none => none
                    | some startId =>
                        if is_beforeA arena2 n startId = false then
                          match distFwdA' arena2 ⟨some n, 0⟩ nsibPos with
                          | none => none
                          | some d => some (arena2, offset + ((d - 1 : Nat) : Int))
                        else some (arena2, offset)
                  else some (arena2, offset)
            else some (arena, offset)) with
          | none => none
          | some (arena', offset') =>
              match (getSN arena' n).bind (fun m => m.children.get? i) with
              | none => none
              | some child => snLoop sel0 startNode rest (arena', offset', child)

/-- `Tree::searchnext` (state update; drawing omitted).  The search query is
just its presence (`query = true` for `Some`), and the path to the next
match is the result of the backend search `Node::searchfrom`, passed in
directly. -/
def searchnextA (ht wd : Nat) (t : TreeA) (query : Bool) (path : List Nat) :
    Option TreeA :=
  if query then
    match t.sel with
    | none => none
    | some sel0 =>
        match snLoop sel0 t.start.node path (t.arena, t.offset, t.root) with
        | none => none
        | some (arena', offset', n) =>
            match distFwdA' arena' t.start PosL.nil with
            | none => none
            | some _ =>
                (selectA ht wd { t with arena := arena', offset := offset' }
                  n true).map (fun r => r.1)
  else some t

/-! ### A concrete tree on which search navigation loses the viewport
invariant

A JSON document `root = { k: { x: v }, b: w }` after the initial expansion
of the root: node 0 is the expanded root (one placeholder line), node 1 is
its first child `k: {...}`, still collapsed but expandable, whose long key
wraps so its collapsed content occupies two lines (at width 30 the content
width is 27, so any key of 26 or more characters wraps; the placeholder —
the key alone — wraps the same way), and node 2 is the one-line leaf
`b: w`.  Value paths are `[]`, `[0]`, `[1]`; the links are exactly those
`finish_loading`/`insert` build when the root is expanded.  Node 1's one
backend child is a one-line non-expandable leaf. -/

def c1Root : SNode :=
  ⟨none, none, some 1, none, none, [1, 2], NState.expanded, false, true, 1, 1, [], []⟩

def c1NodeA : SNode :=
  ⟨some 0, some 0, some 2, some 0, some 2, [], NState.collapsed, false, true, 2, 2, [0], [(false, 1, 1)]⟩

def c1NodeB : SNode :=
  ⟨some 0, some 1, none, some 1, none, [], NState.collapsed, false, false, 1, 1, [1], []⟩

def c1Arena : List SNode := [c1Root, c1NodeA, c1NodeB]

/-- The pre-state: viewport starts at the root's first line, the leaf
(node 2, at absolute line 3) is selected with `offset = 3`; reachable from
the freshly expanded tree by `select(node 2, true)`. -/
def c1Tree : TreeA := ⟨c1Arena, 0, ⟨some 0, 0⟩, 3, some 2⟩

/-- C1: refuted by the code — the viewport invariant
`start.fwd(offset).node == sel` does NOT hold on every return from a
controller operation.  On `c1Tree` the invariant holds (seeking `offset = 3`
lines forward from the start lands on the first line of the selection,
node 2), yet search navigation to a match inside the collapsed node 1
(path `[0, 0]`, so `searchnext` expands node 1 on the way down) returns a
state with `offset = 4` in which seeking `offset` lines forward from the
start lands on node 2 while the selection is the newly exposed node 3: when
`searchnext` expands a node lying before the old selection it advances
`offset` by `dist_fwd(n, nextsib) - 1`, counting the expanded node's
placeholder lines but crediting the collapsed node with exactly one line,
although its collapsed content occupied two. -/
theorem searchnext_breaks_viewport_invariant :
    posFwdA c1Tree.arena c1Tree.start c1Tree.offset.toNat true =
      ⟨c1Tree.sel, 0⟩ ∧
    ∃ t' : TreeA, searchnextA 5 30 c1Tree true [0, 0] = some t' ∧
      0 ≤ t'.offset ∧
      (posFwdA t'.arena t'.start t'.offset.toNat true).node ≠ t'.sel :=
  ⟨by decide, _, rfl, by decide, by decide⟩

end Tb
